import Mathlib

/-!
Verification of the string-similarity analyzer core
(`src/attribute_analyzer.py`) via a shallow embedding.

Strings are modelled as `List Char`.  Python text scoped per the spec
("no Unicode normalization beyond ASCII-case folding"): whitespace,
digit, alphanumeric and case-folding predicates are the ASCII ones.
-/

namespace AttrAnalyzer

/-- ASCII whitespace, the characters matched by Python `\s` / stripped by
`str.strip` on ASCII text. -/
def isSpaceCh (c : Char) : Bool :=
  c == ' ' || c == '\t' || c == '\n' || c == '\r' || c == '\x0b' || c == '\x0c'

/-- Python `str.strip()`: drop leading and trailing whitespace. -/
def pyStrip (s : List Char) : List Char :=
  ((s.dropWhile isSpaceCh).reverse.dropWhile isSpaceCh).reverse

/-- Digit test for the lookaround context of `re.sub(r'(?<![\d])\.(?![\d])', ...)`;
`none` stands for the absent character at the string edge (not a digit). -/
def isDigitO : Option Char → Bool
  | some c => c.isDigit
  | none => false

/-- Whether the first character of `l` is a digit (the lookahead context). -/
def headDigit : List Char → Bool
  | c :: _ => c.isDigit
  | [] => false

/-- Embedding of `re.sub(r'(?<![\d])\.(?![\d])', '', text)` from
`normalize_text` (line 21): remove every period whose immediate neighbours
(in the original string, as regex lookarounds see it) are both non-digits.
`prev` is the previous character of the original string. -/
def stripPeriodsGo : Option Char → List Char → List Char
  | _, [] => []
  | prev, c :: rest =>
    if c = '.' ∧ isDigitO prev = false ∧ headDigit rest = false then
      stripPeriodsGo (some c) rest
    else
      c :: stripPeriodsGo (some c) rest

def stripPeriods (s : List Char) : List Char := stripPeriodsGo none s

/-- Embedding of `re.sub(r'\s*\(\s*', ' (', text)` (line 23).  The leftmost
match grabs the maximal whitespace run before a `(` plus the maximal run
after it, and replaces the whole thing with `" ("`.  Character-wise: each
`(` is emitted as `" ("`; whitespace directly following an emitted `(`
(state `afterP`) is dropped, as is whitespace whose next non-whitespace
character is `(` (it is absorbed into that match); all else is kept. -/
def parenLGoS : Bool → List Char → List Char
  | _, [] => []
  | afterP, c :: rest =>
    if c = '(' then
      ' ' :: '(' :: parenLGoS true rest
    else if isSpaceCh c then
      if afterP then parenLGoS true rest
      else if (rest.dropWhile isSpaceCh).head? = some '(' then parenLGoS false rest
      else c :: parenLGoS false rest
    else
      c :: parenLGoS false rest

def parenLGo (s : List Char) : List Char := parenLGoS false s

/-- Embedding of `re.sub(r'\s*\)\s*', ') ', text)` (line 24), symmetric to
`parenLGoS`. -/
def parenRGoS : Bool → List Char → List Char
  | _, [] => []
  | afterP, c :: rest =>
    if c = ')' then
      ')' :: ' ' :: parenRGoS true rest
    else if isSpaceCh c then
      if afterP then parenRGoS true rest
      else if (rest.dropWhile isSpaceCh).head? = some ')' then parenRGoS false rest
      else c :: parenRGoS false rest
    else
      c :: parenRGoS false rest

def parenRGo (s : List Char) : List Char := parenRGoS false s

/-- Embedding of `re.sub(r'\s+', ' ', text)` (line 26): every maximal
whitespace run becomes a single space (`pw` is whether the previous
character was whitespace). -/
def collapseWsS : Bool → List Char → List Char
  | _, [] => []
  | pw, c :: rest =>
    if isSpaceCh c then
      if pw then collapseWsS true rest else ' ' :: collapseWsS true rest
    else
      c :: collapseWsS false rest

def collapseWs (s : List Char) : List Char := collapseWsS false s

/-- The string pipeline of `normalize_text` (lines 19-27): lowercase, strip,
remove non-decimal periods, standardize parenthesis spacing, collapse
whitespace, strip again. -/
def normStr (s : List Char) : List Char :=
  pyStrip (collapseWs (parenRGo (parenLGo (stripPeriods (pyStrip (s.map Char.toLower))))))

/-- A raw spreadsheet cell value as `normalize_text` receives it: either a
Python `str`, or a non-string object carried here as the character list that
Python `str()` renders it to. -/
inductive CellValue where
  | str (s : List Char)
  | other (pyStr : List Char)
deriving DecidableEq

/-- Embedding of `normalize_text` (lines 14-27).  Non-string input is
returned as its `str()` rendering immediately (line 16-17); string input
goes through the normalization pipeline. -/
def normalize_text : CellValue → List Char
  | .str s => normStr s
  | .other r => r

/-- Python `\w` on ASCII text: alphanumeric or underscore. -/
def wordCh (c : Char) : Bool := c.isAlphanum || c == '_'

/-- Embedding of `re.sub(r'[^\w\s]', '', attr).lower()` (lines 32-33):
keep word characters and whitespace, then lowercase. -/
def cleanForCaseCheck (s : List Char) : List Char :=
  (s.filter (fun c => wordCh c || isSpaceCh c)).map Char.toLower

/-- Embedding of `are_case_variants` (lines 29-34). -/
def are_case_variants (a1 a2 : List Char) : Bool :=
  cleanForCaseCheck a1 == cleanForCaseCheck a2 && a1 != a2

/-!
Embedding of `difflib.SequenceMatcher(None, a, b)` as used by
`find_differences` (line 119) and, per the spec of the Similarity Scorer
("standard SequenceMatcher ratio semantics", section 4.3), by the
`fuzz.ratio` call on line 74 (the `thefuzz` library itself is not part of
this repository).  `isjunk` is `None`, so the junk set is empty and the
junk-extension loops of `find_longest_match` are no-ops; the `autojunk`
popularity heuristic (active for `len(b) >= 200`) is embedded in `b2j`.
-/

/-- The sorted list of positions at which `c` occurs in `b` (one bucket of
the `b2j` dictionary before the autojunk purge). -/
def positionsIn (b : List Char) (c : Char) : List Nat :=
  (List.range b.length).filter (fun j => b.get? j == some c)

/-- The `b2j` bucket for `c` after the autojunk purge: for `len(b) >= 200`,
characters occurring more than `len(b) // 100 + 1` times are dropped. -/
def b2j (b : List Char) (c : Char) : List Nat :=
  let ps := positionsIn b c
  if 200 ≤ b.length ∧ b.length / 100 + 1 < ps.length then [] else ps

/-- State of the main loop of `find_longest_match`: the `j2len` map (total
function, absent keys are 0) and the current best block. -/
structure MatchState where
  j2len : Nat → Nat
  besti : Nat
  bestj : Nat
  bestsize : Nat

/-- One iteration of the outer loop of `find_longest_match` (index `i`).
The inner loop runs over the `b2j` bucket of `a[i]`, restricted to
`blo <= j < bhi` (the `continue`/`break` on the sorted bucket), building
`newj2len` and updating the best block when `k > bestsize`.  When `i` is
out of range (never reached from a valid call) the bucket is empty. -/
def flmStep (a b : List Char) (blo bhi : Nat) (st : MatchState) (i : Nat) : MatchState :=
  let js : List Nat :=
    match a.get? i with
    | none => []
    | some c => ((b2j b c).takeWhile (fun j => decide (j < bhi))).filter (fun j => decide (blo ≤ j))
  let res := js.foldl
    (fun (acc : (Nat → Nat) × Nat × Nat × Nat) j =>
      let k := (if j = 0 then 0 else st.j2len (j - 1)) + 1
      let m := fun x => if x = j then k else acc.1 x
      if acc.2.2.2 < k then (m, i + 1 - k, j + 1 - k, k)
      else (m, acc.2.1, acc.2.2.1, acc.2.2.2))
    (fun _ => 0, st.besti, st.bestj, st.bestsize)
  ⟨res.1, res.2.1, res.2.2.1, res.2.2.2⟩

/-- The main loop of `find_longest_match`, over `i` in `range(alo, ahi)`. -/
def flmLoop (a b : List Char) (alo ahi blo bhi : Nat) : MatchState :=
  (List.range' alo (ahi - alo)).foldl (flmStep a b blo bhi) ⟨fun _ => 0, alo, blo, 0⟩

/-- Equality of two optionally-present characters; `false` unless both are
present.  Used for the extension loops, whose index arithmetic is always in
range at real call sites. -/
def chEq (x y : Option Char) : Bool :=
  match x, y with
  | some c, some d => c == d
  | _, _ => false

/-- The leftward extension loop of `find_longest_match`:
`while besti > alo and bestj > blo and a[besti-1] == b[bestj-1]`.
Each step decreases `besti`, so fuel `besti` is never exhausted. -/
def extLeft (a b : List Char) (alo blo : Nat) : Nat → Nat × Nat × Nat → Nat × Nat × Nat
  | 0, st => st
  | fuel + 1, (i, j, k) =>
    if alo < i ∧ blo < j ∧ chEq (a.get? (i - 1)) (b.get? (j - 1)) then
      extLeft a b alo blo fuel (i - 1, j - 1, k + 1)
    else
      (i, j, k)

/-- The rightward extension loop of `find_longest_match`:
`while besti+bestsize < ahi and bestj+bestsize < bhi and a[...] == b[...]`.
Each step needs `i + k < ahi`, so fuel `ahi` is never exhausted. -/
def extRight (a b : List Char) (ahi bhi i j : Nat) : Nat → Nat → Nat
  | 0, k => k
  | fuel + 1, k =>
    if i + k < ahi ∧ j + k < bhi ∧ chEq (a.get? (i + k)) (b.get? (j + k)) then
      extRight a b ahi bhi i j fuel (k + 1)
    else
      k

/-- Embedding of `SequenceMatcher.find_longest_match(alo, ahi, blo, bhi)`
with an empty junk set: main loop, then leftward and rightward extension.
The two junk-extension loops of the original are no-ops (empty `bjunk`). -/
def find_longest_match (a b : List Char) (alo ahi blo bhi : Nat) : Nat × Nat × Nat :=
  let st := flmLoop a b alo ahi blo bhi
  let l := extLeft a b alo blo st.besti (st.besti, st.bestj, st.bestsize)
  (l.1, l.2.1, extRight a b ahi bhi l.1 l.2.1 ahi l.2.2)

/-- Invariant of the `find_longest_match` main loop after the indices below
`hi` have been processed: `j2len` entries describe diagonal runs ending
inside the window, and the best block lies inside `[alo, hi) x [blo, bhi)`. -/
structure StInv (alo blo bhi hi : Nat) (st : MatchState) : Prop where
  jlen_blo : ∀ j, st.j2len j ≠ 0 → blo ≤ j
  jlen_bhi : ∀ j, st.j2len j ≠ 0 → j < bhi
  jlen_b : ∀ j, st.j2len j ≠ 0 → st.j2len j + blo ≤ j + 1
  jlen_a : ∀ j, st.j2len j ≠ 0 → st.j2len j + alo ≤ hi
  besti_lo : alo ≤ st.besti
  bestj_lo : blo ≤ st.bestj
  size_zero : st.bestsize = 0 → st.besti = alo ∧ st.bestj = blo
  best_hi : st.besti + st.bestsize ≤ hi
  best_bhi : st.bestsize ≠ 0 → st.bestj + st.bestsize ≤ bhi


/-- Invariant carried through the inner fold of `flmStep`. -/
def InnerOk (alo blo bhi hi : Nat) (acc : (Nat → Nat) × Nat × Nat × Nat) : Prop :=
  (∀ x, acc.1 x ≠ 0 →
    blo ≤ x ∧ x < bhi ∧ acc.1 x + blo ≤ x + 1 ∧ acc.1 x + alo ≤ hi + 1) ∧
  alo ≤ acc.2.1 ∧ blo ≤ acc.2.2.1 ∧
  (acc.2.2.2 = 0 → acc.2.1 = alo ∧ acc.2.2.1 = blo) ∧
  acc.2.1 + acc.2.2.2 ≤ hi + 1 ∧
  (acc.2.2.2 ≠ 0 → acc.2.2.1 + acc.2.2.2 ≤ bhi)

theorem flmInner_inv (alo blo bhi hi : Nat) (st : MatchState)
    (halo : alo ≤ hi) (h : StInv alo blo bhi hi st) :
    ∀ (js : List Nat), (∀ j ∈ js, blo ≤ j ∧ j < bhi) →
      ∀ (acc : (Nat → Nat) × Nat × Nat × Nat), InnerOk alo blo bhi hi acc →
        InnerOk alo blo bhi hi (js.foldl
          (fun (acc : (Nat → Nat) × Nat × Nat × Nat) j =>
            let k := (if j = 0 then 0 else st.j2len (j - 1)) + 1
            let m := fun x => if x = j then k else acc.1 x
            if acc.2.2.2 < k then (m, hi + 1 - k, j + 1 - k, k)
            else (m, acc.2.1, acc.2.2.1, acc.2.2.2)) acc) := by
  intro js
  induction js with
  | nil => intro _ acc hacc; simpa using hacc
  | cons j rest ih =>
    intro hmem acc hacc
    rw [List.foldl_cons]
    apply ih (fun x hx => hmem x (List.mem_cons_of_mem j hx))
    obtain ⟨hA, hB1, hB2, hB0, hBhi, hBb⟩ := hacc
    obtain ⟨hjlo, hjhi⟩ := hmem j (List.mem_cons_self j rest)
    have hk1 : ((if j = 0 then 0 else st.j2len (j - 1)) + 1) + blo ≤ j + 1 := by
      by_cases hj0 : j = 0
      · rw [if_pos hj0]; omega
      · rw [if_neg hj0]
        by_cases hz : st.j2len (j - 1) = 0
        · rw [hz]; omega
        · have h1 := h.jlen_b (j - 1) hz
          omega
    have hk2 : ((if j = 0 then 0 else st.j2len (j - 1)) + 1) + alo ≤ hi + 1 := by
      by_cases hj0 : j = 0
      · rw [if_pos hj0]; omega
      · rw [if_neg hj0]
        by_cases hz : st.j2len (j - 1) = 0
        · rw [hz]; omega
        · have h1 := h.jlen_a (j - 1) hz
          omega
    dsimp only
    set k := (if j = 0 then 0 else st.j2len (j - 1)) + 1 with hkdef
    have hkpos : 0 < k := by rw [hkdef]; omega
    have hm : ∀ x, (if x = j then k else acc.1 x) ≠ 0 →
        blo ≤ x ∧ x < bhi ∧ (if x = j then k else acc.1 x) + blo ≤ x + 1 ∧
          (if x = j then k else acc.1 x) + alo ≤ hi + 1 := by
      intro x hx
      by_cases hxj : x = j
      · subst hxj
        rw [if_pos rfl] at hx ⊢
        exact ⟨hjlo, hjhi, hk1, hk2⟩
      · rw [if_neg hxj] at hx ⊢
        exact hA x hx
    by_cases hlt : acc.2.2.2 < k
    · rw [if_pos hlt]
      refine ⟨hm, ?_, ?_, ?_, ?_, ?_⟩
      · show alo ≤ hi + 1 - k
        omega
      · show blo ≤ j + 1 - k
        omega
      · show k = 0 → hi + 1 - k = alo ∧ j + 1 - k = blo
        intro h0
        omega
      · show hi + 1 - k + k ≤ hi + 1
        omega
      · intro _
        show j + 1 - k + k ≤ bhi
        omega
    · rw [if_neg hlt]
      exact ⟨hm, hB1, hB2, hB0, hBhi, hBb⟩

theorem flmStep_inv (a b : List Char) (alo blo bhi hi : Nat) (st : MatchState)
    (halo : alo ≤ hi) (h : StInv alo blo bhi hi st) :
    StInv alo blo bhi (hi + 1) (flmStep a b blo bhi st hi) := by
  have hmem0 : ∀ (c : Char) (j : Nat),
      j ∈ ((b2j b c).takeWhile (fun j => decide (j < bhi))).filter (fun j => decide (blo ≤ j)) →
      blo ≤ j ∧ j < bhi := by
    intro c j hj
    simp only [List.mem_filter, decide_eq_true_eq] at hj
    exact ⟨hj.2, by simpa using List.mem_takeWhile_imp hj.1⟩
  have hmem : ∀ j ∈ (match a.get? hi with
      | none => ([] : List Nat)
      | some c =>
        ((b2j b c).takeWhile (fun j => decide (j < bhi))).filter (fun j => decide (blo ≤ j))),
      blo ≤ j ∧ j < bhi := by
    rcases a.get? hi with _ | c
    · intro j hj; simp at hj
    · exact hmem0 c
  have hinit : InnerOk alo blo bhi hi (fun _ => 0, st.besti, st.bestj, st.bestsize) := by
    refine ⟨fun x hx => absurd rfl hx, h.besti_lo, h.bestj_lo, h.size_zero, ?_, h.best_bhi⟩
    have := h.best_hi
    show st.besti + st.bestsize ≤ hi + 1
    omega
  have hres := flmInner_inv alo blo bhi hi st halo h _ hmem _ hinit
  obtain ⟨hA, hB1, hB2, hB0, hBhi, hBb⟩ := hres
  exact ⟨fun x hx => (hA x hx).1, fun x hx => (hA x hx).2.1,
    fun x hx => (hA x hx).2.2.1, fun x hx => (hA x hx).2.2.2,
    hB1, hB2, hB0, hBhi, hBb⟩

theorem flmLoop_inv (a b : List Char) (alo blo bhi : Nat) :
    ∀ (n i0 : Nat) (st : MatchState), alo ≤ i0 → StInv alo blo bhi i0 st →
      StInv alo blo bhi (i0 + n) ((List.range' i0 n).foldl (flmStep a b blo bhi) st) := by
  intro n
  induction n with
  | zero => intro i0 st _ h; simpa using h
  | succ m ih =>
    intro i0 st hlo h
    rw [List.range'_succ, List.foldl_cons]
    have hstep := ih (i0 + 1) (flmStep a b blo bhi st i0) (by omega)
      (flmStep_inv a b alo blo bhi i0 st hlo h)
    have harith : i0 + 1 + m = i0 + (m + 1) := by omega
    rwa [harith] at hstep

theorem flmLoop_bounds (a b : List Char) (alo ahi blo bhi : Nat) :
    StInv alo blo bhi (alo + (ahi - alo)) (flmLoop a b alo ahi blo bhi) := by
  unfold flmLoop
  apply flmLoop_inv a b alo blo bhi (ahi - alo) alo _ le_rfl
  refine ⟨fun j hj => absurd rfl hj, fun j hj => absurd rfl hj,
    fun j hj => absurd rfl hj, fun j hj => absurd rfl hj,
    le_rfl, le_rfl, fun _ => ⟨rfl, rfl⟩, ?_, fun h0 => absurd rfl h0⟩
  show alo + 0 ≤ alo
  omega

theorem extLeft_succ (a b : List Char) (alo blo m i j k : Nat) :
    extLeft a b alo blo (m + 1) (i, j, k) =
      if alo < i ∧ blo < j ∧ chEq (a.get? (i - 1)) (b.get? (j - 1)) then
        extLeft a b alo blo m (i - 1, j - 1, k + 1)
      else (i, j, k) := rfl

theorem extRight_zero (a b : List Char) (ahi bhi i j k : Nat) :
    extRight a b ahi bhi i j 0 k = k := rfl

theorem extRight_succ (a b : List Char) (ahi bhi i j m k : Nat) :
    extRight a b ahi bhi i j (m + 1) k =
      if i + k < ahi ∧ j + k < bhi ∧ chEq (a.get? (i + k)) (b.get? (j + k)) then
        extRight a b ahi bhi i j m (k + 1)
      else k := rfl

theorem extLeft_spec (a b : List Char) (alo blo : Nat) :
    ∀ (fuel i j k : Nat), alo ≤ i → blo ≤ j →
      alo ≤ (extLeft a b alo blo fuel (i, j, k)).1 ∧
      blo ≤ (extLeft a b alo blo fuel (i, j, k)).2.1 ∧
      (extLeft a b alo blo fuel (i, j, k)).1 + (extLeft a b alo blo fuel (i, j, k)).2.2 = i + k ∧
      (extLeft a b alo blo fuel (i, j, k)).2.1 + (extLeft a b alo blo fuel (i, j, k)).2.2 = j + k ∧
      k ≤ (extLeft a b alo blo fuel (i, j, k)).2.2 := by
  intro fuel
  induction fuel with
  | zero => intro i j k hi hj; exact ⟨hi, hj, rfl, rfl, le_rfl⟩
  | succ m ih =>
    intro i j k hi hj
    rw [extLeft_succ]
    by_cases hc : alo < i ∧ blo < j ∧ chEq (a.get? (i - 1)) (b.get? (j - 1))
    · rw [if_pos hc]
      obtain ⟨h1, h2, h3, h4, h5⟩ := ih (i - 1) (j - 1) (k + 1) (by omega) (by omega)
      exact ⟨h1, h2, by omega, by omega, by omega⟩
    · rw [if_neg hc]
      exact ⟨hi, hj, rfl, rfl, le_rfl⟩

theorem extRight_spec (a b : List Char) (ahi bhi i j : Nat) :
    ∀ (fuel k : Nat),
      k ≤ extRight a b ahi bhi i j fuel k ∧
      (k < extRight a b ahi bhi i j fuel k →
        i + extRight a b ahi bhi i j fuel k ≤ ahi ∧
        j + extRight a b ahi bhi i j fuel k ≤ bhi) := by
  intro fuel
  induction fuel with
  | zero =>
    intro k
    rw [extRight_zero]
    exact ⟨le_rfl, fun hlt => absurd hlt (lt_irrefl k)⟩
  | succ m ih =>
    intro k
    rw [extRight_succ]
    by_cases hc : i + k < ahi ∧ j + k < bhi ∧ chEq (a.get? (i + k)) (b.get? (j + k))
    · rw [if_pos hc]
      obtain ⟨h1, h2⟩ := ih (k + 1)
      refine ⟨by omega, fun _ => ?_⟩
      rcases Nat.lt_or_ge (k + 1) (extRight a b ahi bhi i j m (k + 1)) with he | he
      · exact h2 he
      · have heq : extRight a b ahi bhi i j m (k + 1) = k + 1 := by omega
        rw [heq]
        omega
    · rw [if_neg hc]
      exact ⟨le_rfl, by omega⟩

theorem flm_bounds_aux (a b : List Char) (alo ahi blo bhi : Nat) (st : MatchState)
    (h : StInv alo blo bhi (alo + (ahi - alo)) st) :
    alo ≤ (extLeft a b alo blo st.besti (st.besti, st.bestj, st.bestsize)).1 ∧
    blo ≤ (extLeft a b alo blo st.besti (st.besti, st.bestj, st.bestsize)).2.1 ∧
    (extRight a b ahi bhi (extLeft a b alo blo st.besti (st.besti, st.bestj, st.bestsize)).1
        (extLeft a b alo blo st.besti (st.besti, st.bestj, st.bestsize)).2.1 ahi
        (extLeft a b alo blo st.besti (st.besti, st.bestj, st.bestsize)).2.2 ≠ 0 →
      (extLeft a b alo blo st.besti (st.besti, st.bestj, st.bestsize)).1 +
        extRight a b ahi bhi (extLeft a b alo blo st.besti (st.besti, st.bestj, st.bestsize)).1
          (extLeft a b alo blo st.besti (st.besti, st.bestj, st.bestsize)).2.1 ahi
          (extLeft a b alo blo st.besti (st.besti, st.bestj, st.bestsize)).2.2 ≤ ahi ∧
      (extLeft a b alo blo st.besti (st.besti, st.bestj, st.bestsize)).2.1 +
        extRight a b ahi bhi (extLeft a b alo blo st.besti (st.besti, st.bestj, st.bestsize)).1
          (extLeft a b alo blo st.besti (st.besti, st.bestj, st.bestsize)).2.1 ahi
          (extLeft a b alo blo st.besti (st.besti, st.bestj, st.bestsize)).2.2 ≤ bhi) := by
  obtain ⟨hl1, hl2, hl3, hl4, hl5⟩ :=
    extLeft_spec a b alo blo st.besti st.besti st.bestj st.bestsize h.besti_lo h.bestj_lo
  obtain ⟨hr1, hr2⟩ := extRight_spec a b ahi bhi
    (extLeft a b alo blo st.besti (st.besti, st.bestj, st.bestsize)).1
    (extLeft a b alo blo st.besti (st.besti, st.bestj, st.bestsize)).2.1 ahi
    (extLeft a b alo blo st.besti (st.besti, st.bestj, st.bestsize)).2.2
  set l := extLeft a b alo blo st.besti (st.besti, st.bestj, st.bestsize) with hldef
  set k2 := extRight a b ahi bhi l.1 l.2.1 ahi l.2.2 with hk2def
  refine ⟨hl1, hl2, fun hk0 => ?_⟩
  rcases Nat.lt_or_ge l.2.2 k2 with hgrow | hge
  · exact hr2 hgrow
  · have hke : k2 = l.2.2 := by omega
    have hbs : st.bestsize ≠ 0 := by
      intro h0
      obtain ⟨hia, hjb⟩ := h.size_zero h0
      rw [h0, hia] at hl3
      omega
    have hbhi := h.best_bhi hbs
    have hahi := h.best_hi
    have hilo := h.besti_lo
    constructor
    · omega
    · omega

/-- The block returned by `find_longest_match` lies inside the requested
window: `alo <= i`, `blo <= j`, and when it is nonempty, `i + k <= ahi` and
`j + k <= bhi`. -/
theorem flm_bounds (a b : List Char) (alo ahi blo bhi : Nat) :
    alo ≤ (find_longest_match a b alo ahi blo bhi).1 ∧
    blo ≤ (find_longest_match a b alo ahi blo bhi).2.1 ∧
    ((find_longest_match a b alo ahi blo bhi).2.2 ≠ 0 →
      (find_longest_match a b alo ahi blo bhi).1 +
        (find_longest_match a b alo ahi blo bhi).2.2 ≤ ahi ∧
      (find_longest_match a b alo ahi blo bhi).2.1 +
        (find_longest_match a b alo ahi blo bhi).2.2 ≤ bhi) :=
  flm_bounds_aux a b alo ahi blo bhi (flmLoop a b alo ahi blo bhi)
    (flmLoop_bounds a b alo ahi blo bhi)

/-- The recursion of `SequenceMatcher.get_matching_blocks` before merging:
find the longest match of the window, then recurse on the region to its
left and to its right.  In-order concatenation produces the blocks sorted
by position, matching the `sort()` of the queue-based original (blocks are
pairwise disjoint and ordered between the three parts).  The recursion is
driven by structural fuel: by `flm_bounds`, every recursive call strictly
shrinks `ahi - alo` (the block is nonempty and inside the window), so fuel
`ahi - alo + 1` at the top is never exhausted; see
`matchBlocksF_fuel_stable`. -/
def matchBlocksF (a b : List Char) : Nat → Nat → Nat → Nat → Nat → List (Nat × Nat × Nat)
  | 0, _, _, _, _ => []
  | fuel + 1, alo, ahi, blo, bhi =>
    let t := find_longest_match a b alo ahi blo bhi
    if t.2.2 = 0 then []
    else
      (if alo < t.1 ∧ blo < t.2.1 then matchBlocksF a b fuel alo t.1 blo t.2.1 else []) ++
      t ::
      (if t.1 + t.2.2 < ahi ∧ t.2.1 + t.2.2 < bhi then
        matchBlocksF a b fuel (t.1 + t.2.2) ahi (t.2.1 + t.2.2) bhi
      else [])

theorem matchBlocksF_succ (a b : List Char) (fuel alo ahi blo bhi : Nat) :
    matchBlocksF a b (fuel + 1) alo ahi blo bhi =
      (let t := find_longest_match a b alo ahi blo bhi
      if t.2.2 = 0 then []
      else
        (if alo < t.1 ∧ blo < t.2.1 then matchBlocksF a b fuel alo t.1 blo t.2.1 else []) ++
        t ::
        (if t.1 + t.2.2 < ahi ∧ t.2.1 + t.2.2 < bhi then
          matchBlocksF a b fuel (t.1 + t.2.2) ahi (t.2.1 + t.2.2) bhi
        else [])) := rfl

/-- Any fuel exceeding the window size gives the same block list: the fuel
is an artifact of the embedding, not of the algorithm. -/
theorem matchBlocksF_fuel_stable (a b : List Char) :
    ∀ (f1 f2 alo ahi blo bhi : Nat), ahi - alo < f1 → ahi - alo < f2 →
      matchBlocksF a b f1 alo ahi blo bhi = matchBlocksF a b f2 alo ahi blo bhi := by
  intro f1
  induction f1 with
  | zero => intro f2 alo ahi blo bhi h1 _; omega
  | succ m1 ih =>
    intro f2 alo ahi blo bhi h1 h2
    rcases f2 with _ | m2
    · omega
    · rw [matchBlocksF_succ, matchBlocksF_succ]
      have hb := flm_bounds a b alo ahi blo bhi
      set t := find_longest_match a b alo ahi blo bhi with ht
      dsimp only
      by_cases hk : t.2.2 = 0
      · rw [if_pos hk, if_pos hk]
      · rw [if_neg hk, if_neg hk]
        obtain ⟨hba, hbb, hbc⟩ := hb
        obtain ⟨hc1, hc2⟩ := hbc hk
        congr 1
        · by_cases hl : alo < t.1 ∧ blo < t.2.1
          · rw [if_pos hl, if_pos hl]
            exact ih m2 alo t.1 blo t.2.1 (by omega) (by omega)
          · rw [if_neg hl, if_neg hl]
        · congr 1
          by_cases hr : t.1 + t.2.2 < ahi ∧ t.2.1 + t.2.2 < bhi
          · rw [if_pos hr, if_pos hr]
            exact ih m2 (t.1 + t.2.2) ahi (t.2.1 + t.2.2) bhi (by omega) (by omega)
          · rw [if_neg hr, if_neg hr]

/-- The block decomposition of the full strings. -/
def matchBlocksRec (a b : List Char) : List (Nat × Nat × Nat) :=
  matchBlocksF a b (a.length + 1) 0 a.length 0 b.length

/-- The adjacent-block merging pass of `get_matching_blocks`: fuse blocks
`(i1,j1,k1)` and `(i2,j2,k2)` when `i1+k1 = i2` and `j1+k1 = j2`; a pending
block with size 0 (only the initial accumulator) is not emitted. -/
def mergeAdj : Nat × Nat × Nat → List (Nat × Nat × Nat) → List (Nat × Nat × Nat)
  | (i1, j1, k1), [] => if k1 = 0 then [] else [(i1, j1, k1)]
  | (i1, j1, k1), (i2, j2, k2) :: rest =>
    if i1 + k1 = i2 ∧ j1 + k1 = j2 then mergeAdj (i1, j1, k1 + k2) rest
    else (if k1 = 0 then [] else [(i1, j1, k1)]) ++ mergeAdj (i2, j2, k2) rest

/-- Embedding of `SequenceMatcher.get_matching_blocks()`: the recursive
block decomposition, merged for adjacency, with the terminal sentinel
`(len(a), len(b), 0)` appended. -/
def get_matching_blocks (a b : List Char) : List (Nat × Nat × Nat) :=
  mergeAdj (0, 0, 0) (matchBlocksRec a b) ++ [(a.length, b.length, 0)]

/-- Embedding of the loop of `find_differences` (lines 126-135): walk the
matching blocks keeping the ends of the previous block, emitting the gap
`(str1[last_end1:i], str2[last_end2:j])` whenever one side is nonempty. -/
def diffGo (s1 s2 : List Char) : Nat → Nat → List (Nat × Nat × Nat) → List (List Char × List Char)
  | _, _, [] => []
  | l1, l2, (i, j, k) :: rest =>
    (if l1 < i ∨ l2 < j then [((s1.drop l1).take (i - l1), (s2.drop l2).take (j - l2))] else []) ++
    diffGo s1 s2 (i + k) (j + k) rest

/-- Embedding of `find_differences` (lines 117-137). -/
def find_differences (s1 s2 : List Char) : List (List Char × List Char) :=
  diffGo s1 s2 0 0 (get_matching_blocks s1 s2)

/-- Python `int(round(x))` for the exact rational `n / d` (`d` nonzero):
round half to even. -/
def pyRound (n d : Nat) : Nat :=
  let q := n / d
  let r := n % d
  if 2 * r < d then q
  else if d < 2 * r then q + 1
  else if q % 2 = 0 then q else q + 1

/-- Total size of the matching blocks of the two strings (the `matches`
quantity of `SequenceMatcher.ratio`). -/
def totalMatched (a b : List Char) : Nat :=
  ((get_matching_blocks a b).map (fun t => t.2.2)).sum

/-- Modelled from the spec (section 4.3): the `thefuzz` library is not part
of this repository, and the spec fixes its `fuzz.ratio` to the standard
`SequenceMatcher` ratio semantics, `int(round(100 * 2M / (len a + len b)))`
with `M` the total matched size, and ratio 1 for two empty strings.
Rounding is half-to-even on the exact rational, as Python `round` computes
on these short strings. -/
def fuzz_ratio (a b : List Char) : Nat :=
  let t := a.length + b.length
  if t = 0 then 100 else pyRound (200 * totalMatched a b) t

/-- The matches recorded for base attribute `a1` against the later distinct
attributes `rest` (the inner loop of `find_similar_attributes`,
lines 61-78): skip exact duplicates, record case variants with score 100,
otherwise score the normalized pair and keep it when
`similarity >= similarity_threshold`. -/
def groupMatches (thr : ℚ) (a1 : List Char) (rest : List (List Char)) :
    List (List Char × Nat) :=
  rest.filterMap (fun a2 =>
    if a1 = a2 then none
    else if are_case_variants a1 a2 then some (a2, 100)
    else if thr ≤ (fuzz_ratio (normStr a1) (normStr a2) : ℚ) then
      some (a2, fuzz_ratio (normStr a1) (normStr a2))
    else none)

/-- The outer loop of `find_similar_attributes` (lines 58-78) over the
distinct attributes in first-occurrence order.  The `defaultdict` groups
appear in the order their first match is appended, which is outer-loop
order; attributes with no matches never materialize a key. -/
def fsaGo (thr : ℚ) : List (List Char) → List (List Char × List (List Char × Nat))
  | [] => []
  | a :: rest =>
    let ms := groupMatches thr a rest
    (if ms = [] then [] else [(a, ms)]) ++ fsaGo thr rest

/-- Pandas `Series.unique()`: distinct values in first-occurrence order
(`seen` accumulates the values already emitted). -/
def dedupFirstGo (seen : List (List Char)) : List (List Char) → List (List Char)
  | [] => []
  | x :: r =>
    if seen.contains x then dedupFirstGo seen r
    else x :: dedupFirstGo (x :: seen) r

def dedupFirst (l : List (List Char)) : List (List Char) := dedupFirstGo [] l

/-- Embedding of `find_similar_attributes` (lines 36-80).  The source
column is the first spreadsheet column after `pd.read_excel`; a cell is
`none` for NaN (removed by `dropna()`) and `some label` otherwise;
`unique()` keeps first occurrences.  The threshold is a Python float,
modelled as a rational. -/
def find_similar_attributes (column : List (Option (List Char))) (thr : ℚ) :
    List (List Char × List (List Char × Nat)) :=
  fsaGo thr (dedupFirst (column.filterMap id))

/-- All reported triples (base, candidate, score) of a result, flattened. -/
def reportedPairs (res : List (List Char × List (List Char × Nat))) :
    List (List Char × List Char × Nat) :=
  res.flatMap (fun g => g.2.map (fun m => (g.1, m.1, m.2)))

/-- Embedding of the difference-text rendering of `export_to_excel`
(line 224) and `app.py` (line 92):
`" vs ".join(f"{d1} → {d2}" for d1, d2 in diffs if d1 or d2)`. -/
def renderDiffText (a b : List Char) : List Char :=
  List.intercalate " vs ".data
    (((find_differences a b).filter (fun p => !(p.1.isEmpty && p.2.isEmpty))).map
      (fun p => p.1 ++ " → ".data ++ p.2))

/-- The error kinds named by the spec (section 7); neither appears anywhere
in the source. -/
inductive AnalyzerError where
  | invalidInputError
  | invalidThresholdError
deriving DecidableEq

/-- Modelled from the spec (sections 4.4 and 7), for comparison with the
code: reject a threshold outside [0,100] with `InvalidThresholdError`,
fail with `InvalidInputError` when there are zero distinct labels, and
otherwise behave as the comparison loop does. -/
def spec_findSimilarAttributes (column : List (Option (List Char))) (thr : ℚ) :
    Except AnalyzerError (List (List Char × List (List Char × Nat))) :=
  if thr < 0 ∨ 100 < thr then .error .invalidThresholdError
  else if dedupFirst (column.filterMap id) = [] then .error .invalidInputError
  else .ok (fsaGo thr (dedupFirst (column.filterMap id)))

/-- The cleaning step that claim C7 describes in words: remove every
character that is not alphanumeric and not whitespace (with no exception
for the underscore), then lowercase. -/
def claimCleanC7 (s : List Char) : List Char :=
  (s.filter (fun c => c.isAlphanum || isSpaceCh c)).map Char.toLower

/-- The case-variant predicate exactly as claim C7 states it. -/
def claimIsCaseVariantC7 (a1 a2 : List Char) : Bool :=
  claimCleanC7 a1 == claimCleanC7 a2 && a1 != a2


/-!
Claim theorems.
-/

/-- C1 (counterexample): with zero distinct labels the code does not fail;
`find_similar_attributes` silently returns the empty mapping, unlike the
`InvalidInputError` behaviour in the spec model. -/
theorem C1_counterexample :
    find_similar_attributes [] 80 = [] ∧
    find_similar_attributes [none] 80 = [] ∧
    spec_findSimilarAttributes [] 80 = .error .invalidInputError := by
  refine ⟨rfl, rfl, ?_⟩
  rfl

/-- C1 (amended): when the source column has zero distinct labels (absent
or entirely empty after `dropna`), `find_similar_attributes` returns the
empty group mapping silently; no comparison work happens and no error is
raised (no `InvalidInputError` exists anywhere in the code). -/
theorem C1_empty_input_silent (column : List (Option (List Char))) (thr : ℚ)
    (h : dedupFirst (column.filterMap id) = []) :
    find_similar_attributes column thr = [] := by
  unfold find_similar_attributes
  rw [h]
  rfl

theorem C1_empty_input_silent_witness :
    dedupFirst (([none] : List (Option (List Char))).filterMap id) = [] ∧
    find_similar_attributes [none] 80 = [] :=
  ⟨rfl, C1_empty_input_silent [none] 80 rfl⟩

/-- C9 (counterexample): a threshold of 150, far outside [0,100], is not
rejected: the call completes normally and even reports the case-variant
pair, while the spec model demands `InvalidThresholdError`. -/
theorem C9_counterexample :
    find_similar_attributes [some "Color".data, some "color".data] 150 =
      [("Color".data, [("color".data, 100)])] ∧
    spec_findSimilarAttributes [some "Color".data, some "color".data] 150 =
      .error .invalidThresholdError := by
  constructor
  · rfl
  · rfl

/-- C9 (amended): `find_similar_attributes` performs no threshold
validation at all: for every threshold, in range or not, it runs the
comparison loop and returns its result (the only guard is the re-prompt
loop in the `__main__` CLI); in particular case-variant pairs are reported
at any threshold, including thresholds above 100. -/
theorem C9_no_threshold_validation (thr : ℚ) :
    find_similar_attributes [some "Color".data, some "color".data] thr =
      [("Color".data, [("color".data, 100)])] := rfl

/-- C5: on labels ["Color", "color", "Size"] at threshold 80 the result is
exactly the group `Color -> [(color, 100)]`, via the case-variant fast
path, with Size absent; and in general, whenever the case-variant detector
accepts a pair of the inner loop, that pair is recorded with fixed score
100 for every threshold, without consulting the fuzzy scorer. -/
theorem C5_case_variant_fast_path :
    find_similar_attributes [some "Color".data, some "color".data, some "Size".data] 80 =
      [("Color".data, [("color".data, 100)])] ∧
    ∀ (thr : ℚ) (a1 a2 : List Char) (rest : List (List Char)),
      a2 ∈ rest → are_case_variants a1 a2 = true →
      (a2, 100) ∈ groupMatches thr a1 rest := by
  constructor
  · decide
  · intro thr a1 a2 rest hmem hcv
    have hne : a1 ≠ a2 := by
      intro he
      subst he
      unfold are_case_variants at hcv
      simp at hcv
    unfold groupMatches
    apply List.mem_filterMap.mpr
    refine ⟨a2, hmem, ?_⟩
    rw [if_neg hne, if_pos hcv]

theorem C5_case_variant_fast_path_witness :
    "color".data ∈ ["color".data] ∧ are_case_variants "Color".data "color".data = true ∧
    ("color".data, 100) ∈ groupMatches 150 "Color".data ["color".data] :=
  ⟨by decide, by decide,
    C5_case_variant_fast_path.2 150 "Color".data "color".data ["color".data]
      (by decide) (by decide)⟩

set_option maxRecDepth 10000 in
/-- C3 (counterexample): for the pair "Country of Origin" /
"Country of Origin." the rendered difference text is not empty — the
trailing period is reported as a gap. -/
theorem C3_counterexample :
    renderDiffText "Country of Origin".data "Country of Origin.".data ≠ [] := by
  decide

set_option maxRecDepth 10000 in
/-- C3 (amended): on labels ["Country of Origin", "Country of Origin."] at
threshold 90 the pair is reported with similarity 100 (via the case-variant
fast path, whose cleaning strips the period), but `find_differences` runs
on the raw strings and returns the span ("", "."), so the rendered
difference text is " → ." rather than empty. -/
theorem C3_scenario_amended :
    find_similar_attributes
        [some "Country of Origin".data, some "Country of Origin.".data] 90 =
      [("Country of Origin".data, [("Country of Origin.".data, 100)])] ∧
    find_differences "Country of Origin".data "Country of Origin.".data =
      [(([] : List Char), ['.'])] ∧
    renderDiffText "Country of Origin".data "Country of Origin.".data = " → .".data := by
  refine ⟨by decide, by decide, by decide⟩

/-- C7 (counterexample): the claim's cleaning (remove everything that is
not alphanumeric and not whitespace) declares "a_" and "a" case variants,
but the code keeps the underscore (Python `\w`), so `are_case_variants`
returns false for them. -/
theorem C7_counterexample :
    claimIsCaseVariantC7 "a_".data "a".data = true ∧
    are_case_variants "a_".data "a".data = false := by
  decide

/-- C7 (amended): `are_case_variants a b` is true exactly when the two
strings are equal after removing every character that is not alphanumeric,
not an underscore and not whitespace (Python `\w` keeps the underscore)
and lowercasing, while the raw strings themselves differ. -/
theorem C7_case_variant_iff (a1 a2 : List Char) :
    are_case_variants a1 a2 = true ↔
      ((a1.filter fun c => c.isAlphanum || c == '_' || isSpaceCh c).map Char.toLower =
        (a2.filter fun c => c.isAlphanum || c == '_' || isSpaceCh c).map Char.toLower ∧
      a1 ≠ a2) := by
  unfold are_case_variants cleanForCaseCheck wordCh
  rw [Bool.and_eq_true, beq_iff_eq, bne_iff_ne]

theorem C7_case_variant_iff_witness :
    are_case_variants "Color".data "color".data = true :=
  (C7_case_variant_iff "Color".data "color".data).mpr ⟨by decide, by decide⟩

/-- C8 (counterexample): for the non-string value `True` (whose `str()`
form is "True"), `normalize_text` returns "True" unchanged, while applying
the pipeline to the string form would give "true": non-string input is not
normalized after stringification. -/
theorem C8_counterexample :
    normalize_text (.other "True".data) = "True".data ∧
    normalize_text (.str "True".data) = "true".data ∧
    "True".data ≠ "true".data := by
  refine ⟨rfl, by decide, by decide⟩

/-- C8 (amended): a non-string input is stringified and returned verbatim
(line 16-17 returns `str(text)` immediately); none of the normalization
steps (lowercasing, trimming, whitespace collapsing) are applied to it. -/
theorem C8_nonstring_identity (r : List Char) : normalize_text (.other r) = r := rfl


/-- Raising the threshold can only shrink each group: a match accepted at
the higher threshold is accepted, identically scored, at the lower one. -/
theorem groupMatches_monotone (t1 t2 : ℚ) (h12 : t1 ≤ t2) (a1 : List Char)
    (rest : List (List Char)) :
    ∀ m ∈ groupMatches t2 a1 rest, m ∈ groupMatches t1 a1 rest := by
  intro m hm
  unfold groupMatches at hm ⊢
  obtain ⟨a2, ha2, hf⟩ := List.mem_filterMap.mp hm
  apply List.mem_filterMap.mpr
  refine ⟨a2, ha2, ?_⟩
  by_cases he : a1 = a2
  · rw [if_pos he] at hf
    exact Option.noConfusion hf
  · rw [if_neg he] at hf ⊢
    by_cases hcv : are_case_variants a1 a2
    · rw [if_pos hcv] at hf ⊢
      exact hf
    · rw [if_neg hcv] at hf ⊢
      by_cases hs : t2 ≤ (fuzz_ratio (normStr a1) (normStr a2) : ℚ)
      · rw [if_pos hs] at hf
        rw [if_pos (le_trans h12 hs)]
        exact hf
      · rw [if_neg hs] at hf
        exact Option.noConfusion hf

theorem reportedPairs_append (x y : List (List Char × List (List Char × Nat))) :
    reportedPairs (x ++ y) = reportedPairs x ++ reportedPairs y := by
  simp [reportedPairs]

theorem fsaGo_monotone (t1 t2 : ℚ) (h12 : t1 ≤ t2) :
    ∀ (attrs : List (List Char)) (p : List Char × List Char × Nat),
      p ∈ reportedPairs (fsaGo t2 attrs) → p ∈ reportedPairs (fsaGo t1 attrs) := by
  intro attrs
  induction attrs with
  | nil => intro p hp; simpa [fsaGo, reportedPairs] using hp
  | cons a rest ih =>
    intro p hp
    unfold fsaGo at hp ⊢
    rw [reportedPairs_append] at hp ⊢
    rcases List.mem_append.mp hp with hL | hR
    · apply List.mem_append.mpr
      left
      by_cases hz : groupMatches t2 a rest = []
      · rw [if_pos hz] at hL
        simp [reportedPairs] at hL
      · rw [if_neg hz] at hL
        simp only [reportedPairs, List.flatMap_cons, List.flatMap_nil, List.append_nil] at hL
        obtain ⟨m, hm, hpe⟩ := List.mem_map.mp hL
        have hm1 := groupMatches_monotone t1 t2 h12 a rest m hm
        have hz1 : groupMatches t1 a rest ≠ [] := List.ne_nil_of_mem hm1
        rw [if_neg hz1]
        simp only [reportedPairs, List.flatMap_cons, List.flatMap_nil, List.append_nil]
        exact List.mem_map.mpr ⟨m, hm1, hpe⟩
    · exact List.mem_append.mpr (Or.inr (ih p hR))

/-- C2: threshold monotonicity.  For thresholds T1 < T2 in [0,100], every
reported triple (base, candidate, score) of the run at T2 is also reported,
with the same score, by the run at T1 on the same input: the T2 result is a
subset of the T1 result, scores unchanged. -/
theorem C2_threshold_monotone (column : List (Option (List Char))) (t1 t2 : ℚ)
    (h0 : 0 ≤ t1) (h12 : t1 < t2) (h100 : t2 ≤ 100)
    (p : List Char × List Char × Nat)
    (hp : p ∈ reportedPairs (find_similar_attributes column t2)) :
    p ∈ reportedPairs (find_similar_attributes column t1) :=
  fsaGo_monotone t1 t2 (le_of_lt h12) _ p hp

theorem C2_threshold_monotone_witness :
    (0 : ℚ) ≤ 80 ∧ (80 : ℚ) < 85 ∧ (85 : ℚ) ≤ 100 ∧
    ("abcd".data, "abcde".data, 89) ∈
      reportedPairs (find_similar_attributes [some "abcd".data, some "abcde".data] 85) ∧
    ("abcd".data, "abcde".data, 89) ∈
      reportedPairs (find_similar_attributes [some "abcd".data, some "abcde".data] 80) :=
  ⟨by norm_num, by norm_num, by norm_num, by decide,
    C2_threshold_monotone [some "abcd".data, some "abcde".data] 80 85
      (by norm_num) (by norm_num) (by norm_num) _ (by decide)⟩


/-- Sorted, disjoint, in-bounds block lists: starting from lower bounds
`(l1, l2)`, each block `(i, j, k)` satisfies `l1 <= i`, `l2 <= j`,
`i + k <= ub1`, `j + k <= ub2`, and the rest chains from `(i+k, j+k)`. -/
inductive Chain (ub1 ub2 : Nat) : Nat → Nat → List (Nat × Nat × Nat) → Prop where
  | nil : ∀ l1 l2, Chain ub1 ub2 l1 l2 []
  | cons : ∀ l1 l2 i j k rest, l1 ≤ i → l2 ≤ j → i + k ≤ ub1 → j + k ≤ ub2 →
      Chain ub1 ub2 (i + k) (j + k) rest → Chain ub1 ub2 l1 l2 ((i, j, k) :: rest)

theorem Chain_weaken_start {ub1 ub2 m1 m2 l1 l2 : Nat} {bs : List (Nat × Nat × Nat)}
    (h : Chain ub1 ub2 m1 m2 bs) (h1 : l1 ≤ m1) (h2 : l2 ≤ m2) :
    Chain ub1 ub2 l1 l2 bs := by
  cases h with
  | nil => exact Chain.nil l1 l2
  | cons _ _ i j k rest hi hj hk1 hk2 hrest =>
    exact Chain.cons l1 l2 i j k rest (le_trans h1 hi) (le_trans h2 hj) hk1 hk2 hrest

theorem Chain_mono_ub {ub1 ub2 U1 U2 l1 l2 : Nat} {bs : List (Nat × Nat × Nat)}
    (h : Chain ub1 ub2 l1 l2 bs) (h1 : ub1 ≤ U1) (h2 : ub2 ≤ U2) :
    Chain U1 U2 l1 l2 bs := by
  induction h with
  | nil l1 l2 => exact Chain.nil l1 l2
  | cons l1 l2 i j k rest hi hj hk1 hk2 _ ih =>
    exact Chain.cons l1 l2 i j k rest hi hj (le_trans hk1 h1) (le_trans hk2 h2) ih

theorem Chain_append {ub1 ub2 m1 m2 l1 l2 : Nat} {xs ys : List (Nat × Nat × Nat)}
    (hxs : Chain m1 m2 l1 l2 xs) (hys : Chain ub1 ub2 m1 m2 ys)
    (hu1 : m1 ≤ ub1) (hu2 : m2 ≤ ub2) (hl1 : l1 ≤ m1) (hl2 : l2 ≤ m2) :
    Chain ub1 ub2 l1 l2 (xs ++ ys) := by
  induction hxs with
  | nil l1 l2 => exact Chain_weaken_start hys hl1 hl2
  | cons l1 l2 i j k rest hi hj hk1 hk2 hrest ih =>
    rw [List.cons_append]
    exact Chain.cons l1 l2 i j k (rest ++ ys) hi hj (le_trans hk1 hu1) (le_trans hk2 hu2)
      (ih hk1 hk2)

theorem matchBlocksF_chain (a b : List Char) :
    ∀ (fuel alo ahi blo bhi : Nat),
      Chain ahi bhi alo blo (matchBlocksF a b fuel alo ahi blo bhi) := by
  intro fuel
  induction fuel with
  | zero => intro alo ahi blo bhi; exact Chain.nil alo blo
  | succ m ih =>
    intro alo ahi blo bhi
    rw [matchBlocksF_succ]
    have hb := flm_bounds a b alo ahi blo bhi
    set t := find_longest_match a b alo ahi blo bhi with ht
    dsimp only
    by_cases hk : t.2.2 = 0
    · rw [if_pos hk]
      exact Chain.nil alo blo
    · rw [if_neg hk]
      obtain ⟨hba, hbb, hbc⟩ := hb
      obtain ⟨hc1, hc2⟩ := hbc hk
      have hleft : Chain t.1 t.2.1 alo blo
          (if alo < t.1 ∧ blo < t.2.1 then matchBlocksF a b m alo t.1 blo t.2.1 else []) := by
        by_cases hl : alo < t.1 ∧ blo < t.2.1
        · rw [if_pos hl]; exact ih alo t.1 blo t.2.1
        · rw [if_neg hl]; exact Chain.nil alo blo
      have hright : Chain ahi bhi (t.1 + t.2.2) (t.2.1 + t.2.2)
          (if t.1 + t.2.2 < ahi ∧ t.2.1 + t.2.2 < bhi then
            matchBlocksF a b m (t.1 + t.2.2) ahi (t.2.1 + t.2.2) bhi else []) := by
        by_cases hr : t.1 + t.2.2 < ahi ∧ t.2.1 + t.2.2 < bhi
        · rw [if_pos hr]; exact ih (t.1 + t.2.2) ahi (t.2.1 + t.2.2) bhi
        · rw [if_neg hr]; exact Chain.nil _ _
      have hmid : Chain ahi bhi t.1 t.2.1
          (t :: (if t.1 + t.2.2 < ahi ∧ t.2.1 + t.2.2 < bhi then
            matchBlocksF a b m (t.1 + t.2.2) ahi (t.2.1 + t.2.2) bhi else [])) := by
        have : (t.1, t.2.1, t.2.2) = t := rfl
        rw [← this]
        exact Chain.cons t.1 t.2.1 t.1 t.2.1 t.2.2 _ le_rfl le_rfl hc1 hc2 hright
      exact Chain_append hleft hmid (by omega) (by omega) hba hbb

theorem mergeAdj_chain {ub1 ub2 : Nat} :
    ∀ (bs : List (Nat × Nat × Nat)) (i1 j1 k1 l1 l2 : Nat),
      l1 ≤ i1 → l2 ≤ j1 → i1 + k1 ≤ ub1 → j1 + k1 ≤ ub2 →
      Chain ub1 ub2 (i1 + k1) (j1 + k1) bs →
      Chain ub1 ub2 l1 l2 (mergeAdj (i1, j1, k1) bs) := by
  intro bs
  induction bs with
  | nil =>
    intro i1 j1 k1 l1 l2 h1 h2 h3 h4 _
    unfold mergeAdj
    by_cases hk : k1 = 0
    · rw [if_pos hk]; exact Chain.nil l1 l2
    · rw [if_neg hk]
      exact Chain.cons l1 l2 i1 j1 k1 [] h1 h2 h3 h4 (Chain.nil _ _)
  | cons hd tl ih =>
    intro i1 j1 k1 l1 l2 h1 h2 h3 h4 hchain
    obtain ⟨i2, j2, k2⟩ := hd
    cases hchain with
    | cons _ _ _ _ _ _ hi hj hk1 hk2 hrest =>
      unfold mergeAdj
      by_cases hadj : i1 + k1 = i2 ∧ j1 + k1 = j2
      · rw [if_pos hadj]
        apply ih i1 j1 (k1 + k2) l1 l2 h1 h2
        · omega
        · omega
        · have he1 : i1 + (k1 + k2) = i2 + k2 := by omega
          have he2 : j1 + (k1 + k2) = j2 + k2 := by omega
          rw [he1, he2]
          exact hrest
      · rw [if_neg hadj]
        have hM : Chain ub1 ub2 (i1 + k1) (j1 + k1) (mergeAdj (i2, j2, k2) tl) :=
          ih i2 j2 k2 (i1 + k1) (j1 + k1) hi hj hk1 hk2 hrest
        by_cases hk : k1 = 0
        · rw [if_pos hk]
          rw [List.nil_append]
          exact Chain_weaken_start hM (by omega) (by omega)
        · rw [if_neg hk]
          rw [List.singleton_append]
          exact Chain.cons l1 l2 i1 j1 k1 _ h1 h2 h3 h4 hM

/-- The full block list of `get_matching_blocks`, terminal sentinel
included, is a sorted in-bounds chain from the string origins. -/
theorem get_matching_blocks_chain (a b : List Char) :
    Chain a.length b.length 0 0 (get_matching_blocks a b) := by
  unfold get_matching_blocks
  have hmerged : Chain a.length b.length 0 0 (mergeAdj (0, 0, 0) (matchBlocksRec a b)) := by
    apply mergeAdj_chain (matchBlocksRec a b) 0 0 0 0 0 le_rfl le_rfl
      (Nat.zero_le _) (Nat.zero_le _)
    exact matchBlocksF_chain a b (a.length + 1) 0 a.length 0 b.length
  have hterm : Chain a.length b.length a.length b.length [(a.length, b.length, 0)] :=
    Chain.cons _ _ a.length b.length 0 [] le_rfl le_rfl (by omega) (by omega) (Chain.nil _ _)
  exact Chain_append hmerged hterm le_rfl le_rfl (Nat.zero_le _) (Nat.zero_le _)

theorem Chain_sum {ub1 ub2 : Nat} :
    ∀ {l1 l2 : Nat} {bs : List (Nat × Nat × Nat)}, Chain ub1 ub2 l1 l2 bs →
      l1 ≤ ub1 → l2 ≤ ub2 →
      l1 + ((bs.map (fun t => t.2.2)).sum) ≤ ub1 ∧
      l2 + ((bs.map (fun t => t.2.2)).sum) ≤ ub2 := by
  intro l1 l2 bs h
  induction h with
  | nil l1 l2 => intro h1 h2; simpa using ⟨h1, h2⟩
  | cons l1 l2 i j k rest hi hj hk1 hk2 _ ih =>
    intro _ _
    obtain ⟨ih1, ih2⟩ := ih hk1 hk2
    simp only [List.map_cons, List.sum_cons]
    constructor
    · omega
    · omega

/-- The total matched size never exceeds either string length: the blocks
are disjoint in each string. -/
theorem totalMatched_le (a b : List Char) :
    totalMatched a b ≤ a.length ∧ totalMatched a b ≤ b.length := by
  have h := Chain_sum (get_matching_blocks_chain a b) (Nat.zero_le _) (Nat.zero_le _)
  unfold totalMatched
  omega

theorem pyRound_le_100 (n d : Nat) (hd : d ≠ 0) (h : n ≤ 100 * d) :
    pyRound n d ≤ 100 := by
  unfold pyRound
  have hq : n / d ≤ 100 := by
    have h2 := Nat.div_le_div_right (c := d) h
    rwa [Nat.mul_div_cancel _ (by omega : 0 < d)] at h2
  by_cases hq100 : n / d = 100
  · have hdm := Nat.div_add_mod n d
    rw [hq100] at hdm
    have hr0 : n % d = 0 := by omega
    rw [hr0]
    rw [if_pos (by omega : 2 * 0 < d)]
    omega
  · by_cases h1 : 2 * (n % d) < d
    · rw [if_pos h1]; omega
    · rw [if_neg h1]
      by_cases h2 : d < 2 * (n % d)
      · rw [if_pos h2]; omega
      · rw [if_neg h2]
        by_cases h3 : n / d % 2 = 0
        · rw [if_pos h3]; omega
        · rw [if_neg h3]; omega

/-- C4 (counterexample): the score is not symmetric.  For the normalized
strings "tide" and "diet" (both fixed points of the normalizer) the greedy
block alignment gives 25 in one direction and 50 in the other. -/
theorem C4_counterexample :
    normStr "tide".data = "tide".data ∧ normStr "diet".data = "diet".data ∧
    fuzz_ratio "tide".data "diet".data = 25 ∧
    fuzz_ratio "diet".data "tide".data = 50 ∧
    fuzz_ratio "tide".data "diet".data ≠ fuzz_ratio "diet".data "tide".data := by
  refine ⟨by decide, by decide, by decide, by decide, by decide⟩

/-- C4 (amended): for every pair of strings the scorer's result is an
integer in [0,100] (the blocks are disjoint, so the matched total is at
most either length); the result is deterministic, but not symmetric in
general. -/
theorem C4_score_range (a b : List Char) :
    0 ≤ fuzz_ratio a b ∧ fuzz_ratio a b ≤ 100 := by
  refine ⟨Nat.zero_le _, ?_⟩
  unfold fuzz_ratio
  by_cases ht : a.length + b.length = 0
  · rw [if_pos ht]
  · rw [if_neg ht]
    apply pyRound_le_100 _ _ ht
    have h1 := totalMatched_le a b
    omega

theorem diffGo_nonempty (s1 s2 : List Char) :
    ∀ (bs : List (Nat × Nat × Nat)) (l1 l2 : Nat),
      Chain s1.length s2.length l1 l2 bs → l1 ≤ s1.length → l2 ≤ s2.length →
      ∀ p ∈ diffGo s1 s2 l1 l2 bs, p.1 ≠ [] ∨ p.2 ≠ [] := by
  intro bs
  induction bs with
  | nil => intro l1 l2 _ _ _ p hp; simp [diffGo] at hp
  | cons hd tl ih =>
    intro l1 l2 hchain hl1 hl2 p hp
    obtain ⟨i, j, k⟩ := hd
    cases hchain with
    | cons _ _ _ _ _ _ hi hj hk1 hk2 hrest =>
      unfold diffGo at hp
      rcases List.mem_append.mp hp with hL | hR
      · by_cases hg : l1 < i ∨ l2 < j
        · rw [if_pos hg] at hL
          rw [List.mem_singleton] at hL
          subst hL
          rcases hg with hg1 | hg2
          · left
            apply (List.length_pos).mp
            rw [List.length_take, List.length_drop]
            omega
          · right
            apply (List.length_pos).mp
            rw [List.length_take, List.length_drop]
            omega
        · rw [if_neg hg] at hL
          simp at hL
      · exact ih (i + k) (j + k) hrest (by omega) (by omega) p hR

/-- C10: every difference span emitted by `find_differences` has at least
one nonempty side; a span with both segments empty is never produced, since
a gap is emitted only when one of the two cursors is strictly behind the
next block, and the blocks stay inside the strings. -/
theorem C10_diff_spans_nonempty (a b : List Char) (p : List Char × List Char)
    (hp : p ∈ find_differences a b) : p.1 ≠ [] ∨ p.2 ≠ [] := by
  unfold find_differences at hp
  exact diffGo_nonempty a b _ 0 0 (get_matching_blocks_chain a b)
    (Nat.zero_le _) (Nat.zero_le _) p hp

theorem C10_diff_spans_nonempty_witness :
    ("b".data, "c".data) ∈ find_differences "ab".data "ac".data ∧
    ("b".data ≠ ([] : List Char) ∨ "c".data ≠ ([] : List Char)) :=
  ⟨by decide,
    C10_diff_spans_nonempty "ab".data "ac".data ("b".data, "c".data) (by decide)⟩


/-!
Infrastructure for the idempotence of `normStr` (claim C6).  A string is
decomposed into tokens: maximal runs of plain characters (words), single
parentheses, and maximal whitespace runs (gaps).  The three spacing stages
of the pipeline act tokenwise, and their composite is a canonical
re-spacing of the gap-free token sequence.
-/

/-- A character that is not whitespace and not a parenthesis. -/
def plainCh (c : Char) : Bool := !isSpaceCh c && c != '(' && c != ')'

inductive Tok where
  | wd : List Char → Tok
  | lp : Tok
  | rp : Tok
  | gap : List Char → Tok
deriving DecidableEq

/-- The canonical single-space gap. -/
def gap1 : Tok := .gap [' ']

def flatToks : List Tok → List Char
  | [] => []
  | .wd s :: r => s ++ flatToks r
  | .lp :: r => '(' :: flatToks r
  | .rp :: r => ')' :: flatToks r
  | .gap s :: r => s ++ flatToks r

/-- Drop one leading gap token, if present. -/
def dropG : List Tok → List Tok
  | .gap _ :: r => r
  | r => r

def tokenizeW : List Char → List Tok
  | [] => []
  | c :: r =>
    if c = '(' then .lp :: tokenizeW r
    else if c = ')' then .rp :: tokenizeW r
    else if isSpaceCh c then .gap (c :: r.takeWhile isSpaceCh) :: tokenizeW (r.dropWhile isSpaceCh)
    else .wd (c :: r.takeWhile plainCh) :: tokenizeW (r.dropWhile plainCh)
termination_by s => s.length
decreasing_by
  all_goals simp only [List.length_cons]
  all_goals first
    | exact Nat.lt_succ_of_le (List.dropWhile_suffix _).length_le
    | exact Nat.lt_succ_of_le le_rfl

def TokOkP : Tok → Prop
  | .wd s => s ≠ [] ∧ ∀ c ∈ s, plainCh c = true
  | .gap s => s ≠ [] ∧ ∀ c ∈ s, isSpaceCh c = true
  | _ => True

def isGapB : Tok → Bool
  | .gap _ => true
  | _ => false

def isWdB : Tok → Bool
  | .wd _ => true
  | _ => false

/-- Well-formed token lists: tokens are nonempty runs of the right
character class, and maximality holds (no two adjacent gaps, no two
adjacent words). -/
inductive WfT : List Tok → Prop where
  | nil : WfT []
  | single : ∀ t, TokOkP t → WfT [t]
  | cons : ∀ t1 t2 r, TokOkP t1 →
      ¬(isGapB t1 = true ∧ isGapB t2 = true) →
      ¬(isWdB t1 = true ∧ isWdB t2 = true) →
      WfT (t2 :: r) → WfT (t1 :: t2 :: r)

theorem WfT_tail {t : Tok} {r : List Tok} (h : WfT (t :: r)) : WfT r := by
  cases h with
  | single _ _ => exact WfT.nil
  | cons _ _ _ _ _ _ h4 => exact h4

theorem WfT_head_ok {t : Tok} {r : List Tok} (h : WfT (t :: r)) : TokOkP t := by
  cases h with
  | single _ h1 => exact h1
  | cons _ _ _ h1 _ _ _ => exact h1

theorem WfT_cons_of {t : Tok} {r : List Tok} (h : WfT (t :: r)) :
    r = [] ∨ ∃ t2 r2, r = t2 :: r2 ∧
      ¬(isGapB t = true ∧ isGapB t2 = true) ∧ ¬(isWdB t = true ∧ isWdB t2 = true) := by
  cases h with
  | single _ _ => exact Or.inl rfl
  | cons _ t2 r2 _ h2 h3 _ => exact Or.inr ⟨t2, r2, rfl, h2, h3⟩

theorem flatToks_append (x y : List Tok) :
    flatToks (x ++ y) = flatToks x ++ flatToks y := by
  induction x with
  | nil => simp [flatToks]
  | cons t r ih =>
    cases t <;> simp [flatToks, ih]

/-- The first spacing stage at the token level (`re.sub(r'\s*\(\s*', ' (')`). -/
def mapL : List Tok → List Tok
  | [] => []
  | .lp :: .gap _ :: r => gap1 :: .lp :: mapL r
  | .lp :: r => gap1 :: .lp :: mapL r
  | .gap _ :: .lp :: .gap _ :: r => gap1 :: .lp :: mapL r
  | .gap _ :: .lp :: r => gap1 :: .lp :: mapL r
  | t :: r => t :: mapL r

/-- The second spacing stage at the token level (`re.sub(r'\s*\)\s*', ') ')`). -/
def mapR : List Tok → List Tok
  | [] => []
  | .rp :: .gap _ :: r => .rp :: gap1 :: mapR r
  | .rp :: r => .rp :: gap1 :: mapR r
  | .gap _ :: .rp :: .gap _ :: r => .rp :: gap1 :: mapR r
  | .gap _ :: .rp :: r => .rp :: gap1 :: mapR r
  | t :: r => t :: mapR r

/-- The third spacing stage at the token level (`re.sub(r'\s+', ' ')`). -/
def mapC : List Tok → List Tok
  | [] => []
  | .gap _ :: r => gap1 :: mapC r
  | t :: r => t :: mapC r

theorem mapL_wd (s : List Char) (r : List Tok) : mapL (.wd s :: r) = .wd s :: mapL r := rfl

theorem mapL_rp (r : List Tok) : mapL (.rp :: r) = .rp :: mapL r := rfl

theorem mapL_lp (r : List Tok) : mapL (.lp :: r) = gap1 :: .lp :: mapL (dropG r) := by
  cases r with
  | nil => rfl
  | cons t r2 => cases t <;> rfl

theorem mapL_gap_lp (g : List Char) (r : List Tok) :
    mapL (.gap g :: .lp :: r) = gap1 :: .lp :: mapL (dropG r) := by
  cases r with
  | nil => rfl
  | cons t r2 => cases t <;> rfl

theorem mapL_gap_other (g : List Char) (r : List Tok) (h : r.head? ≠ some .lp) :
    mapL (.gap g :: r) = .gap g :: mapL r := by
  cases r with
  | nil => rfl
  | cons t r2 =>
    cases t with
    | lp => exact absurd rfl h
    | wd s => rfl
    | rp => rfl
    | gap g2 => rfl

theorem mapR_wd (s : List Char) (r : List Tok) : mapR (.wd s :: r) = .wd s :: mapR r := rfl

theorem mapR_lp (r : List Tok) : mapR (.lp :: r) = .lp :: mapR r := rfl

theorem mapR_rp (r : List Tok) : mapR (.rp :: r) = .rp :: gap1 :: mapR (dropG r) := by
  cases r with
  | nil => rfl
  | cons t r2 => cases t <;> rfl

theorem mapR_gap_rp (g : List Char) (r : List Tok) :
    mapR (.gap g :: .rp :: r) = .rp :: gap1 :: mapR (dropG r) := by
  cases r with
  | nil => rfl
  | cons t r2 => cases t <;> rfl

theorem mapR_gap_other (g : List Char) (r : List Tok) (h : r.head? ≠ some .rp) :
    mapR (.gap g :: r) = .gap g :: mapR r := by
  cases r with
  | nil => rfl
  | cons t r2 =>
    cases t with
    | rp => exact absurd rfl h
    | wd s => rfl
    | lp => rfl
    | gap g2 => rfl

theorem mapC_gap (g : List Char) (r : List Tok) : mapC (.gap g :: r) = gap1 :: mapC r := rfl

theorem mapC_wd (s : List Char) (r : List Tok) : mapC (.wd s :: r) = .wd s :: mapC r := rfl

theorem mapC_lp (r : List Tok) : mapC (.lp :: r) = .lp :: mapC r := rfl

theorem mapC_rp (r : List Tok) : mapC (.rp :: r) = .rp :: mapC r := rfl

/-- Gap-free projection of a token list. -/
def eraseG : List Tok → List Tok
  | [] => []
  | .gap _ :: r => eraseG r
  | t :: r => t :: eraseG r

/-- Canonical spacing of a gap-free token sequence: a space before every
left parenthesis, a space after every right parenthesis (fused between
`)` and `(`), a single space between adjacent words. -/
def canonAux : List Tok → List Tok
  | [] => []
  | .rp :: .lp :: r => .rp :: gap1 :: .lp :: canonAux r
  | .lp :: r => gap1 :: .lp :: canonAux r
  | .rp :: r => .rp :: gap1 :: canonAux r
  | .wd s :: .wd s2 :: r => .wd s :: gap1 :: canonAux (.wd s2 :: r)
  | .wd s :: r => .wd s :: canonAux r
  | .gap g :: r => .gap g :: canonAux r

/-- The leading gap of the spacing composite that the final strip removes:
present when the input starts with a gap kept in place (one before a word,
or a lone gap). -/
def leadX : List Tok → List Tok
  | [.gap _] => [gap1]
  | .gap _ :: .wd _ :: _ => [gap1]
  | _ => []

/-- The trailing gap kept in place by the spacing composite: a gap at the
end of the input directly after a word. -/
def trailX : List Tok → List Tok
  | [.wd _, .gap _] => [gap1]
  | _ :: r => trailX r
  | [] => []

theorem canonAux_rp_lp (r : List Tok) :
    canonAux (.rp :: .lp :: r) = .rp :: gap1 :: .lp :: canonAux r := rfl

theorem canonAux_lp (r : List Tok) : canonAux (.lp :: r) = gap1 :: .lp :: canonAux r := rfl

theorem canonAux_rp (r : List Tok) (h : r.head? ≠ some .lp) :
    canonAux (.rp :: r) = .rp :: gap1 :: canonAux r := by
  cases r with
  | nil => rfl
  | cons t r2 =>
    cases t with
    | lp => exact absurd rfl h
    | wd s => rfl
    | rp => rfl
    | gap g => rfl

theorem canonAux_wd_wd (s s2 : List Char) (r : List Tok) :
    canonAux (.wd s :: .wd s2 :: r) = .wd s :: gap1 :: canonAux (.wd s2 :: r) := rfl

theorem canonAux_wd (s : List Char) (r : List Tok) (h : ∀ s2, r.head? ≠ some (.wd s2)) :
    canonAux (.wd s :: r) = .wd s :: canonAux r := by
  cases r with
  | nil => rfl
  | cons t r2 =>
    cases t with
    | wd s2 => exact absurd rfl (h s2)
    | lp => rfl
    | rp => rfl
    | gap g => rfl

theorem eraseG_wd (s : List Char) (r : List Tok) : eraseG (.wd s :: r) = .wd s :: eraseG r := rfl

theorem eraseG_lp (r : List Tok) : eraseG (.lp :: r) = .lp :: eraseG r := rfl

theorem eraseG_rp (r : List Tok) : eraseG (.rp :: r) = .rp :: eraseG r := rfl

theorem eraseG_gap (g : List Char) (r : List Tok) : eraseG (.gap g :: r) = eraseG r := rfl

theorem eraseG_dropG (r : List Tok) : eraseG (dropG r) = eraseG r := by
  cases r with
  | nil => rfl
  | cons t r2 => cases t <;> rfl

theorem eraseG_head_nongap (t : Tok) (r : List Tok) (h : isGapB t = false) :
    eraseG (t :: r) = t :: eraseG r := by
  cases t with
  | gap g => simp [isGapB] at h
  | wd s => rfl
  | lp => rfl
  | rp => rfl

theorem leadX_of_head_nongap (ts : List Tok) (h : ∀ g, ts.head? ≠ some (.gap g)) :
    leadX ts = [] := by
  cases ts with
  | nil => rfl
  | cons t r =>
    cases t with
    | gap g => exact absurd rfl (h g)
    | wd s => rfl
    | lp => rfl
    | rp => rfl

theorem leadX_gap_nil (g : List Char) : leadX [.gap g] = [gap1] := rfl

theorem leadX_gap_wd (g : List Char) (s : List Char) (r : List Tok) :
    leadX (.gap g :: .wd s :: r) = [gap1] := rfl

theorem leadX_gap_lp (g : List Char) (r : List Tok) : leadX (.gap g :: .lp :: r) = [] := rfl

theorem leadX_gap_rp (g : List Char) (r : List Tok) : leadX (.gap g :: .rp :: r) = [] := rfl

theorem trailX_nil : trailX [] = [] := rfl

theorem trailX_single (t : Tok) : trailX [t] = [] := by cases t <;> rfl

theorem trailX_wd_gap (s g : List Char) : trailX [.wd s, .gap g] = [gap1] := rfl

theorem trailX_cons_nonwd (t1 t2 : Tok) (r : List Tok) (h : isWdB t1 = false) :
    trailX (t1 :: t2 :: r) = trailX (t2 :: r) := by
  cases t1 with
  | wd s => simp [isWdB] at h
  | lp => rfl
  | rp => rfl
  | gap g => rfl

theorem trailX_cons_nongap (t1 t2 : Tok) (r : List Tok) (h : isGapB t2 = false) :
    trailX (t1 :: t2 :: r) = trailX (t2 :: r) := by
  cases t1 with
  | lp => rfl
  | rp => rfl
  | gap g => rfl
  | wd s =>
    cases t2 with
    | gap g => simp [isGapB] at h
    | wd s2 => rfl
    | lp => rfl
    | rp => rfl

theorem trailX_cons_long (t1 t2 t3 : Tok) (r : List Tok) :
    trailX (t1 :: t2 :: t3 :: r) = trailX (t2 :: t3 :: r) := by
  cases t1 <;> cases t2 <;> rfl

theorem trailX_dropG (r : List Tok) : trailX (dropG r) = trailX r := by
  cases r with
  | nil => rfl
  | cons t r2 =>
    cases t with
    | gap g =>
      show trailX r2 = trailX (.gap g :: r2)
      cases r2 with
      | nil => rfl
      | cons t2 r3 => rfl
    | wd s => rfl
    | lp => rfl
    | rp => rfl

theorem WfT_dropG (r : List Tok) (h : WfT r) : WfT (dropG r) := by
  cases r with
  | nil => exact h
  | cons t r2 =>
    cases t with
    | gap g => exact WfT_tail h
    | wd s => exact h
    | lp => exact h
    | rp => exact h

theorem WfT_no_gap_gap {g g2 : List Char} {r : List Tok}
    (h : WfT (.gap g :: .gap g2 :: r)) : False := by
  cases h with
  | cons _ _ _ _ h2 _ _ => exact h2 ⟨rfl, rfl⟩

theorem WfT_no_wd_wd {s s2 : List Char} {r : List Tok}
    (h : WfT (.wd s :: .wd s2 :: r)) : False := by
  cases h with
  | cons _ _ _ _ _ h3 _ => exact h3 ⟨rfl, rfl⟩

theorem leadX_wd (s : List Char) (r : List Tok) : leadX (.wd s :: r) = [] := rfl

theorem leadX_lp (r : List Tok) : leadX (.lp :: r) = [] := rfl

theorem leadX_rp (r : List Tok) : leadX (.rp :: r) = [] := rfl

theorem dropG_wd (s : List Char) (x : List Tok) : dropG (.wd s :: x) = .wd s :: x := rfl

theorem dropG_rp (x : List Tok) : dropG (.rp :: x) = .rp :: x := rfl

theorem dropG_lp (x : List Tok) : dropG (.lp :: x) = .lp :: x := rfl

theorem dropG_gap (g : List Char) (x : List Tok) : dropG (.gap g :: x) = x := rfl

theorem dropG_gap1 (x : List Tok) : dropG (gap1 :: x) = x := rfl

theorem mapR_gap1_other (r : List Tok) (h : r.head? ≠ some .rp) :
    mapR (gap1 :: r) = gap1 :: mapR r := mapR_gap_other [' '] r h

theorem mapC_gap1 (r : List Tok) : mapC (gap1 :: r) = gap1 :: mapC r := rfl

theorem trailX_cons_of_nonwd (t : Tok) (r : List Tok) (h : isWdB t = false) :
    trailX (t :: r) = trailX r := by
  cases t with
  | wd s => simp [isWdB] at h
  | lp => cases r with
    | nil => rfl
    | cons t2 r2 => rfl
  | rp => cases r with
    | nil => rfl
    | cons t2 r2 => rfl
  | gap g => cases r with
    | nil => rfl
    | cons t2 r2 => rfl

theorem dropG_head_nongap (r : List Tok) (h : WfT r) :
    ∀ g, (dropG r).head? ≠ some (.gap g) := by
  intro g hg
  cases r with
  | nil => simp [dropG] at hg
  | cons t r2 =>
    cases t with
    | gap g2 =>
      rw [dropG_gap] at hg
      cases r2 with
      | nil => simp at hg
      | cons t2 r3 =>
        cases t2 with
        | gap g3 => exact WfT_no_gap_gap h
        | wd s => simp at hg
        | lp => simp at hg
        | rp => simp at hg
    | wd s => rw [dropG_wd] at hg; simp at hg
    | lp => rw [dropG_lp] at hg; simp at hg
    | rp => rw [dropG_rp] at hg; simp at hg

theorem dropG_length_le (r : List Tok) : (dropG r).length ≤ r.length := by
  cases r with
  | nil => exact le_rfl
  | cons t r2 => cases t <;> simp only [dropG, List.length_cons] <;> omega

theorem CC_wd (s : List Char) (r : List Tok) :
    mapC (mapR (mapL (.wd s :: r))) = .wd s :: mapC (mapR (mapL r)) := by
  rw [mapL_wd, mapR_wd, mapC_wd]

theorem CC_lp (r : List Tok) :
    mapC (mapR (mapL (.lp :: r))) = gap1 :: .lp :: mapC (mapR (mapL (dropG r))) := by
  rw [mapL_lp, mapR_gap1_other (.lp :: mapL (dropG r)) (by simp), mapR_lp, mapC_gap1, mapC_lp]

theorem CC_gap_lp (g : List Char) (r : List Tok) :
    mapC (mapR (mapL (.gap g :: .lp :: r))) = gap1 :: .lp :: mapC (mapR (mapL (dropG r))) := by
  rw [mapL_gap_lp, mapR_gap1_other (.lp :: mapL (dropG r)) (by simp), mapR_lp, mapC_gap1, mapC_lp]

theorem CC_rp (r : List Tok) :
    mapC (mapR (mapL (.rp :: r))) = .rp :: gap1 :: mapC (mapR (dropG (mapL r))) := by
  rw [mapL_rp, mapR_rp, mapC_rp, mapC_gap1]

theorem CC_gap_rp (g : List Char) (r : List Tok) :
    mapC (mapR (mapL (.gap g :: .rp :: r))) = .rp :: gap1 :: mapC (mapR (dropG (mapL r))) := by
  rw [mapL_gap_other g (.rp :: r) (by simp), mapL_rp, mapR_gap_rp, mapC_rp, mapC_gap1]

theorem CC_gap_wd (g s : List Char) (r : List Tok) :
    mapC (mapR (mapL (.gap g :: .wd s :: r))) = gap1 :: .wd s :: mapC (mapR (mapL r)) := by
  rw [mapL_gap_other g (.wd s :: r) (by simp), mapL_wd,
    mapR_gap_other g (.wd s :: mapL r) (by simp), mapR_wd, mapC_gap, mapC_wd]

theorem CC_gap_nil (g : List Char) : mapC (mapR (mapL [.gap g])) = [gap1] := rfl

/-- The token-level composite of the three spacing substitutions equals the
canonical re-spacing of the gap-free tokens, up to one surviving leading
gap and one surviving trailing gap (both removed later by the strip). -/
theorem spacing_canon : ∀ (n : Nat) (ts : List Tok), ts.length ≤ n → WfT ts →
    mapC (mapR (mapL ts)) = leadX ts ++ canonAux (eraseG ts) ++ trailX ts := by
  intro n
  induction n with
  | zero =>
    intro ts hlen _
    have hts : ts = [] := List.eq_nil_of_length_eq_zero (by omega)
    subst hts
    rfl
  | succ m ih =>
    intro ts hlen hwf
    cases ts with
    | nil => rfl
    | cons t rest =>
      have hlen2 : rest.length ≤ m := by
        simp only [List.length_cons] at hlen
        omega
      have hwfr := WfT_tail hwf
      cases t with
      | wd s =>
        rw [CC_wd, ih rest hlen2 hwfr, eraseG_wd]
        cases rest with
        | nil => rfl
        | cons t2 rest2 =>
          cases t2 with
          | wd s2 => exact absurd hwf (fun h => WfT_no_wd_wd h)
          | lp =>
            rw [leadX_wd, leadX_lp, eraseG_lp, canonAux_wd s (.lp :: eraseG rest2) (by simp),
              trailX_cons_nongap (.wd s) .lp rest2 (by rfl)]
            simp
          | rp =>
            rw [leadX_wd, leadX_rp, eraseG_rp, canonAux_wd s (.rp :: eraseG rest2) (by simp),
              trailX_cons_nongap (.wd s) .rp rest2 (by rfl)]
            simp
          | gap g =>
            rw [eraseG_gap]
            cases rest2 with
            | nil => rfl
            | cons t3 rest3 =>
              cases t3 with
              | gap g2 => exact absurd hwfr (fun h => WfT_no_gap_gap h)
              | wd s3 =>
                rw [leadX_wd, leadX_gap_wd, eraseG_wd, canonAux_wd_wd,
                  trailX_cons_long (.wd s) (.gap g) (.wd s3) rest3,
                  trailX_cons_of_nonwd (.gap g) (.wd s3 :: rest3) (by rfl)]
                simp
              | lp =>
                rw [leadX_wd, leadX_gap_lp, eraseG_lp,
                  canonAux_wd s (.lp :: eraseG rest3) (by simp),
                  trailX_cons_long (.wd s) (.gap g) .lp rest3,
                  trailX_cons_of_nonwd (.gap g) (.lp :: rest3) (by rfl)]
                simp
              | rp =>
                rw [leadX_wd, leadX_gap_rp, eraseG_rp,
                  canonAux_wd s (.rp :: eraseG rest3) (by simp),
                  trailX_cons_long (.wd s) (.gap g) .rp rest3,
                  trailX_cons_of_nonwd (.gap g) (.rp :: rest3) (by rfl)]
                simp
      | lp =>
        rw [CC_lp, leadX_lp, eraseG_lp, canonAux_lp,
          trailX_cons_of_nonwd .lp rest (by rfl),
          ih (dropG rest) (le_trans (dropG_length_le rest) hlen2) (WfT_dropG rest hwfr),
          leadX_of_head_nongap (dropG rest) (dropG_head_nongap rest hwfr),
          eraseG_dropG, trailX_dropG]
        simp
      | gap g =>
        cases rest with
        | nil =>
          rw [CC_gap_nil, leadX_gap_nil]
          rfl
        | cons t2 rest2 =>
          cases t2 with
          | gap g2 => exact absurd hwf (fun h => WfT_no_gap_gap h)
          | wd s2 =>
            rw [CC_gap_wd, ← CC_wd s2 rest2, ih (.wd s2 :: rest2) hlen2 hwfr,
              leadX_wd, leadX_gap_wd, eraseG_gap, eraseG_wd,
              trailX_cons_of_nonwd (.gap g) (.wd s2 :: rest2) (by rfl)]
            simp
          | lp =>
            rw [CC_gap_lp, leadX_gap_lp, eraseG_gap, eraseG_lp, canonAux_lp,
              ih (dropG rest2)
                (le_trans (dropG_length_le rest2) (le_trans (Nat.le_succ _) hlen2))
                (WfT_dropG rest2 (WfT_tail hwfr)),
              leadX_of_head_nongap (dropG rest2) (dropG_head_nongap rest2 (WfT_tail hwfr)),
              eraseG_dropG, trailX_dropG,
              trailX_cons_of_nonwd (.gap g) (.lp :: rest2) (by rfl),
              trailX_cons_of_nonwd .lp rest2 (by rfl)]
            simp
          | rp =>
            rw [CC_gap_rp, ← CC_rp rest2, ih (.rp :: rest2) hlen2 hwfr,
              leadX_rp, leadX_gap_rp, eraseG_gap, eraseG_rp]
            rw [trailX_cons_of_nonwd (.gap g) (.rp :: rest2) (by rfl)]
      | rp =>
        rw [CC_rp, leadX_rp, eraseG_rp, trailX_cons_of_nonwd .rp rest (by rfl)]
        cases rest with
        | nil => rfl
        | cons t2 rest2 =>
          have hlen3 : rest2.length ≤ m := by
            simp only [List.length_cons] at hlen
            omega
          cases t2 with
          | wd s2 =>
            rw [mapL_wd, dropG_wd, ← mapL_wd, ih (.wd s2 :: rest2) hlen2 hwfr,
              leadX_wd, eraseG_wd, canonAux_rp (.wd s2 :: eraseG rest2) (by simp)]
            simp
          | rp =>
            rw [mapL_rp, dropG_rp, ← mapL_rp, ih (.rp :: rest2) hlen2 hwfr,
              leadX_rp, eraseG_rp, canonAux_rp (.rp :: eraseG rest2) (by simp)]
            simp
          | lp =>
            rw [mapL_lp, dropG_gap1, mapR_lp, mapC_lp,
              ih (dropG rest2)
                (le_trans (dropG_length_le rest2) (le_trans (Nat.le_succ _) hlen2))
                (WfT_dropG rest2 (WfT_tail hwfr)),
              leadX_of_head_nongap (dropG rest2) (dropG_head_nongap rest2 (WfT_tail hwfr)),
              eraseG_dropG, trailX_dropG, eraseG_lp, canonAux_rp_lp,
              trailX_cons_of_nonwd .lp rest2 (by rfl)]
            simp
          | gap g2 =>
            cases rest2 with
            | nil => rfl
            | cons t3 rest3 =>
              have hlen4 : rest3.length ≤ m := by
                simp only [List.length_cons] at hlen
                omega
              cases t3 with
              | gap g3 => exact absurd hwfr (fun h => WfT_no_gap_gap h)
              | lp =>
                rw [mapL_gap_lp, dropG_gap1, mapR_lp, mapC_lp,
                  ih (dropG rest3) (le_trans (dropG_length_le rest3) hlen4)
                  (WfT_dropG rest3 (WfT_tail (WfT_tail hwfr))),
                  leadX_of_head_nongap (dropG rest3)
                    (dropG_head_nongap rest3 (WfT_tail (WfT_tail hwfr))),
                  eraseG_dropG, trailX_dropG, eraseG_gap, eraseG_lp, canonAux_rp_lp,
                  trailX_cons_of_nonwd (.gap g2) (.lp :: rest3) (by rfl),
                  trailX_cons_of_nonwd .lp rest3 (by rfl)]
                simp
              | wd s3 =>
                rw [mapL_gap_other g2 (.wd s3 :: rest3) (by simp), dropG_gap,
                  ih (.wd s3 :: rest3)
                    (by simp only [List.length_cons] at hlen2 ⊢; omega)
                    (WfT_tail hwfr),
                  leadX_wd, eraseG_gap, eraseG_wd,
                  canonAux_rp (.wd s3 :: eraseG rest3) (by simp),
                  trailX_cons_of_nonwd (.gap g2) (.wd s3 :: rest3) (by rfl)]
                simp
              | rp =>
                rw [mapL_gap_other g2 (.rp :: rest3) (by simp), dropG_gap,
                  ih (.rp :: rest3)
                    (by simp only [List.length_cons] at hlen2 ⊢; omega)
                    (WfT_tail hwfr),
                  leadX_rp, eraseG_gap, eraseG_rp,
                  canonAux_rp (.rp :: eraseG rest3) (by simp),
                  trailX_cons_of_nonwd (.gap g2) (.rp :: rest3) (by rfl)]
                simp


theorem plain_not_space {c : Char} (h : plainCh c = true) : isSpaceCh c = false := by
  simp only [plainCh, Bool.and_eq_true, Bool.not_eq_true'] at h
  exact h.1.1

theorem plain_ne_lparen {c : Char} (h : plainCh c = true) : c ≠ '(' := by
  simp only [plainCh, Bool.and_eq_true, bne_iff_ne] at h
  exact h.1.2

theorem plain_ne_rparen {c : Char} (h : plainCh c = true) : c ≠ ')' := by
  simp only [plainCh, Bool.and_eq_true, bne_iff_ne] at h
  exact h.2

theorem dropWhile_space_append (g x : List Char) (hg : ∀ c ∈ g, isSpaceCh c = true) :
    List.dropWhile isSpaceCh (g ++ x) = List.dropWhile isSpaceCh x := by
  induction g with
  | nil => rfl
  | cons c g' ih =>
    simp only [List.cons_append, List.dropWhile_cons]
    rw [hg c (by simp)]
    exact ih (fun d hd => hg d (by simp [hd]))

theorem flatToks_wd (s : List Char) (r : List Tok) :
    flatToks (.wd s :: r) = s ++ flatToks r := rfl

theorem flatToks_gap (g : List Char) (r : List Tok) :
    flatToks (.gap g :: r) = g ++ flatToks r := rfl

theorem flatToks_lp (r : List Tok) : flatToks (.lp :: r) = '(' :: flatToks r := rfl

theorem flatToks_rp (r : List Tok) : flatToks (.rp :: r) = ')' :: flatToks r := rfl

theorem flatToks_gap1 (r : List Tok) : flatToks (gap1 :: r) = ' ' :: flatToks r := rfl

theorem parenLGoS_lparen (b : Bool) (r : List Char) :
    parenLGoS b ('(' :: r) = ' ' :: '(' :: parenLGoS true r := by
  simp [parenLGoS]

theorem parenLGoS_nonspace (b : Bool) (c : Char) (r : List Char)
    (h1 : c ≠ '(') (h2 : isSpaceCh c = false) :
    parenLGoS b (c :: r) = c :: parenLGoS false r := by
  simp [parenLGoS, h1, h2]

theorem parenLGoS_space_true (c : Char) (r : List Char) (h : isSpaceCh c = true) :
    parenLGoS true (c :: r) = parenLGoS true r := by
  have hc : c ≠ '(' := by
    intro e
    subst e
    simp [isSpaceCh] at h
  simp [parenLGoS, hc, h]

theorem parenLGoS_space_look (c : Char) (r : List Char) (h : isSpaceCh c = true)
    (hl : (r.dropWhile isSpaceCh).head? = some '(') :
    parenLGoS false (c :: r) = parenLGoS false r := by
  have hc : c ≠ '(' := by
    intro e
    subst e
    simp [isSpaceCh] at h
  simp [parenLGoS, hc, h, hl]

theorem parenLGoS_space_nolook (c : Char) (r : List Char) (h : isSpaceCh c = true)
    (hl : (r.dropWhile isSpaceCh).head? ≠ some '(') :
    parenLGoS false (c :: r) = c :: parenLGoS false r := by
  have hc : c ≠ '(' := by
    intro e
    subst e
    simp [isSpaceCh] at h
  simp [parenLGoS, hc, h, hl]

theorem parenLGoS_plain_false (s x : List Char) (hp : ∀ c ∈ s, plainCh c = true) :
    parenLGoS false (s ++ x) = s ++ parenLGoS false x := by
  induction s with
  | nil => rfl
  | cons c s' ih =>
    have hc := hp c (by simp)
    rw [List.cons_append,
      parenLGoS_nonspace false c (s' ++ x) (plain_ne_lparen hc) (plain_not_space hc),
      ih (fun d hd => hp d (by simp [hd]))]
    rfl

theorem parenLGoS_plain_any (b : Bool) (s x : List Char) (hs : s ≠ [])
    (hp : ∀ c ∈ s, plainCh c = true) :
    parenLGoS b (s ++ x) = s ++ parenLGoS false x := by
  cases s with
  | nil => exact absurd rfl hs
  | cons c s' =>
    have hc := hp c (by simp)
    rw [List.cons_append,
      parenLGoS_nonspace b c (s' ++ x) (plain_ne_lparen hc) (plain_not_space hc),
      parenLGoS_plain_false s' x (fun d hd => hp d (by simp [hd]))]
    rfl

theorem parenLGoS_true_gap (g x : List Char) (hg : ∀ c ∈ g, isSpaceCh c = true) :
    parenLGoS true (g ++ x) = parenLGoS true x := by
  induction g with
  | nil => rfl
  | cons c g' ih =>
    rw [List.cons_append, parenLGoS_space_true c (g' ++ x) (hg c (by simp))]
    exact ih (fun d hd => hg d (by simp [hd]))

theorem parenLGoS_gap_lp (g y : List Char) (hg : ∀ c ∈ g, isSpaceCh c = true) :
    parenLGoS false (g ++ '(' :: y) = ' ' :: '(' :: parenLGoS true y := by
  induction g with
  | nil => exact parenLGoS_lparen false y
  | cons c g' ih =>
    rw [List.cons_append, parenLGoS_space_look c (g' ++ '(' :: y) (hg c (by simp))]
    · exact ih (fun d hd => hg d (by simp [hd]))
    · rw [dropWhile_space_append g' ('(' :: y) (fun d hd => hg d (by simp [hd]))]
      rw [List.dropWhile_cons]
      simp [isSpaceCh]

theorem parenLGoS_gap_keep (g x : List Char) (hg : ∀ c ∈ g, isSpaceCh c = true)
    (hx : x = [] ∨ ∃ c y, x = c :: y ∧ isSpaceCh c = false ∧ c ≠ '(') :
    parenLGoS false (g ++ x) = g ++ parenLGoS false x := by
  induction g with
  | nil => rfl
  | cons c g' ih =>
    rw [List.cons_append, parenLGoS_space_nolook c (g' ++ x) (hg c (by simp))]
    · rw [ih (fun d hd => hg d (by simp [hd]))]
      rfl
    · rw [dropWhile_space_append g' x (fun d hd => hg d (by simp [hd]))]
      rcases hx with h0 | ⟨c', y, hxy, hns, hnp⟩
      · subst h0
        simp
      · subst hxy
        rw [List.dropWhile_cons, if_neg (by simp [hns])]
        simp [hnp]

theorem dropG_of_head_nongap (r : List Tok) (h : ∀ g, r.head? ≠ some (.gap g)) :
    dropG r = r := by
  cases r with
  | nil => rfl
  | cons t r2 =>
    cases t with
    | gap g => exact absurd rfl (h g)
    | wd s => rfl
    | lp => rfl
    | rp => rfl

theorem WfT_gap_tail_nongap {g : List Char} {r : List Tok} (h : WfT (.gap g :: r)) :
    ∀ g2, r.head? ≠ some (.gap g2) := by
  intro g2 hg
  rcases WfT_cons_of h with h0 | ⟨t2, r2, hr, hgg, _⟩
  · subst h0
    simp at hg
  · subst hr
    simp only [List.head?_cons, Option.some.injEq] at hg
    exact hgg ⟨rfl, by rw [hg]; rfl⟩

/-- Simulation of the first spacing substitution: on the flattening of a
well-formed token list, the character scan agrees with the token map
(`true` state: the preceding `(` has already absorbed a leading gap). -/
theorem parenL_sim : ∀ (n : Nat) (ts : List Tok), ts.length ≤ n → WfT ts →
    parenLGoS false (flatToks ts) = flatToks (mapL ts) ∧
    parenLGoS true (flatToks ts) = flatToks (mapL (dropG ts)) := by
  intro n
  induction n with
  | zero =>
    intro ts hlen _
    have hts : ts = [] := List.eq_nil_of_length_eq_zero (by omega)
    subst hts
    exact ⟨rfl, rfl⟩
  | succ m ih =>
    intro ts hlen hwf
    cases ts with
    | nil => exact ⟨rfl, rfl⟩
    | cons t rest =>
      have hlen2 : rest.length ≤ m := by
        simp only [List.length_cons] at hlen
        omega
      have hwfr := WfT_tail hwf
      cases t with
      | wd s =>
        have hok := WfT_head_ok hwf
        have hne : s ≠ [] := hok.1
        have hpl : ∀ c ∈ s, plainCh c = true := hok.2
        constructor
        · rw [flatToks_wd, parenLGoS_plain_false s (flatToks rest) hpl,
            (ih rest hlen2 hwfr).1, mapL_wd, flatToks_wd]
        · rw [flatToks_wd, parenLGoS_plain_any true s (flatToks rest) hne hpl,
            (ih rest hlen2 hwfr).1]
          rfl
      | lp =>
        constructor
        · rw [flatToks_lp, parenLGoS_lparen false (flatToks rest),
            (ih rest hlen2 hwfr).2, mapL_lp, flatToks_gap1, flatToks_lp]
        · rw [flatToks_lp, parenLGoS_lparen true (flatToks rest),
            (ih rest hlen2 hwfr).2, dropG_lp, mapL_lp, flatToks_gap1, flatToks_lp]
      | rp =>
        constructor
        · rw [flatToks_rp,
            parenLGoS_nonspace false ')' (flatToks rest) (by decide) (by decide),
            (ih rest hlen2 hwfr).1, mapL_rp, flatToks_rp]
        · rw [flatToks_rp,
            parenLGoS_nonspace true ')' (flatToks rest) (by decide) (by decide),
            (ih rest hlen2 hwfr).1]
          rfl
      | gap g =>
        have hok := WfT_head_ok hwf
        have hsp : ∀ c ∈ g, isSpaceCh c = true := hok.2
        have hdr : dropG rest = rest := dropG_of_head_nongap rest (WfT_gap_tail_nongap hwf)
        constructor
        · cases rest with
          | nil =>
            rw [flatToks_gap, parenLGoS_gap_keep g (flatToks []) hsp (Or.inl rfl),
              mapL_gap_other g [] (by simp)]
            rfl
          | cons t2 rest2 =>
            have hlen3 : rest2.length ≤ m := by
              simp only [List.length_cons] at hlen
              omega
            cases t2 with
            | lp =>
              rw [flatToks_gap, flatToks_lp, parenLGoS_gap_lp g (flatToks rest2) hsp,
                (ih rest2 hlen3 (WfT_tail hwfr)).2, mapL_gap_lp, flatToks_gap1, flatToks_lp]
            | wd s2 =>
              have hok2 := WfT_head_ok hwfr
              have hpl2 : ∀ c ∈ s2, plainCh c = true := hok2.2
              obtain ⟨c, s2', hs2⟩ := List.exists_cons_of_ne_nil hok2.1
              have hcp : plainCh c = true := hpl2 c (by rw [hs2]; simp)
              rw [flatToks_gap,
                parenLGoS_gap_keep g (flatToks (.wd s2 :: rest2)) hsp
                  (Or.inr ⟨c, s2' ++ flatToks rest2, by rw [flatToks_wd, hs2]; rfl,
                    plain_not_space hcp, plain_ne_lparen hcp⟩),
                (ih (.wd s2 :: rest2) hlen2 hwfr).1,
                mapL_gap_other g (.wd s2 :: rest2) (by simp), flatToks_gap]
            | rp =>
              rw [flatToks_gap,
                parenLGoS_gap_keep g (flatToks (.rp :: rest2)) hsp
                  (Or.inr ⟨')', flatToks rest2, rfl, by decide, by decide⟩),
                (ih (.rp :: rest2) hlen2 hwfr).1,
                mapL_gap_other g (.rp :: rest2) (by simp), flatToks_gap]
            | gap g2 => exact absurd hwf (fun h => WfT_no_gap_gap h)
        · rw [flatToks_gap, parenLGoS_true_gap g (flatToks rest) hsp,
            (ih rest hlen2 hwfr).2, hdr, dropG_gap]

theorem parenRGoS_rparen (b : Bool) (r : List Char) :
    parenRGoS b (')' :: r) = ')' :: ' ' :: parenRGoS true r := by
  simp [parenRGoS]

theorem parenRGoS_nonspace (b : Bool) (c : Char) (r : List Char)
    (h1 : c ≠ ')') (h2 : isSpaceCh c = false) :
    parenRGoS b (c :: r) = c :: parenRGoS false r := by
  simp [parenRGoS, h1, h2]

theorem parenRGoS_space_true (c : Char) (r : List Char) (h : isSpaceCh c = true) :
    parenRGoS true (c :: r) = parenRGoS true r := by
  have hc : c ≠ ')' := by
    intro e
    subst e
    simp [isSpaceCh] at h
  simp [parenRGoS, hc, h]

theorem parenRGoS_space_look (c : Char) (r : List Char) (h : isSpaceCh c = true)
    (hl : (r.dropWhile isSpaceCh).head? = some ')') :
    parenRGoS false (c :: r) = parenRGoS false r := by
  have hc : c ≠ ')' := by
    intro e
    subst e
    simp [isSpaceCh] at h
  simp [parenRGoS, hc, h, hl]

theorem parenRGoS_space_nolook (c : Char) (r : List Char) (h : isSpaceCh c = true)
    (hl : (r.dropWhile isSpaceCh).head? ≠ some ')') :
    parenRGoS false (c :: r) = c :: parenRGoS false r := by
  have hc : c ≠ ')' := by
    intro e
    subst e
    simp [isSpaceCh] at h
  simp [parenRGoS, hc, h, hl]

theorem parenRGoS_plain_false (s x : List Char) (hp : ∀ c ∈ s, plainCh c = true) :
    parenRGoS false (s ++ x) = s ++ parenRGoS false x := by
  induction s with
  | nil => rfl
  | cons c s' ih =>
    have hc := hp c (by simp)
    rw [List.cons_append,
      parenRGoS_nonspace false c (s' ++ x) (plain_ne_rparen hc) (plain_not_space hc),
      ih (fun d hd => hp d (by simp [hd]))]
    rfl

theorem parenRGoS_plain_any (b : Bool) (s x : List Char) (hs : s ≠ [])
    (hp : ∀ c ∈ s, plainCh c = true) :
    parenRGoS b (s ++ x) = s ++ parenRGoS false x := by
  cases s with
  | nil => exact absurd rfl hs
  | cons c s' =>
    have hc := hp c (by simp)
    rw [List.cons_append,
      parenRGoS_nonspace b c (s' ++ x) (plain_ne_rparen hc) (plain_not_space hc),
      parenRGoS_plain_false s' x (fun d hd => hp d (by simp [hd]))]
    rfl

theorem parenRGoS_true_gap (g x : List Char) (hg : ∀ c ∈ g, isSpaceCh c = true) :
    parenRGoS true (g ++ x) = parenRGoS true x := by
  induction g with
  | nil => rfl
  | cons c g' ih =>
    rw [List.cons_append, parenRGoS_space_true c (g' ++ x) (hg c (by simp))]
    exact ih (fun d hd => hg d (by simp [hd]))

theorem parenRGoS_gap_rp (g y : List Char) (hg : ∀ c ∈ g, isSpaceCh c = true) :
    parenRGoS false (g ++ ')' :: y) = ')' :: ' ' :: parenRGoS true y := by
  induction g with
  | nil => exact parenRGoS_rparen false y
  | cons c g' ih =>
    rw [List.cons_append, parenRGoS_space_look c (g' ++ ')' :: y) (hg c (by simp))]
    · exact ih (fun d hd => hg d (by simp [hd]))
    · rw [dropWhile_space_append g' (')' :: y) (fun d hd => hg d (by simp [hd]))]
      rw [List.dropWhile_cons]
      simp [isSpaceCh]

theorem parenRGoS_gap_keep (g x : List Char) (hg : ∀ c ∈ g, isSpaceCh c = true)
    (hx : x = [] ∨ ∃ c y, x = c :: y ∧ isSpaceCh c = false ∧ c ≠ ')') :
    parenRGoS false (g ++ x) = g ++ parenRGoS false x := by
  induction g with
  | nil => rfl
  | cons c g' ih =>
    rw [List.cons_append, parenRGoS_space_nolook c (g' ++ x) (hg c (by simp))]
    · rw [ih (fun d hd => hg d (by simp [hd]))]
      rfl
    · rw [dropWhile_space_append g' x (fun d hd => hg d (by simp [hd]))]
      rcases hx with h0 | ⟨c', y, hxy, hns, hnp⟩
      · subst h0
        simp
      · subst hxy
        rw [List.dropWhile_cons, if_neg (by simp [hns])]
        simp [hnp]

/-- Simulation of the second spacing substitution, mirror of `parenL_sim`. -/
theorem parenR_sim : ∀ (n : Nat) (ts : List Tok), ts.length ≤ n → WfT ts →
    parenRGoS false (flatToks ts) = flatToks (mapR ts) ∧
    parenRGoS true (flatToks ts) = flatToks (mapR (dropG ts)) := by
  intro n
  induction n with
  | zero =>
    intro ts hlen _
    have hts : ts = [] := List.eq_nil_of_length_eq_zero (by omega)
    subst hts
    exact ⟨rfl, rfl⟩
  | succ m ih =>
    intro ts hlen hwf
    cases ts with
    | nil => exact ⟨rfl, rfl⟩
    | cons t rest =>
      have hlen2 : rest.length ≤ m := by
        simp only [List.length_cons] at hlen
        omega
      have hwfr := WfT_tail hwf
      cases t with
      | wd s =>
        have hok := WfT_head_ok hwf
        have hne : s ≠ [] := hok.1
        have hpl : ∀ c ∈ s, plainCh c = true := hok.2
        constructor
        · rw [flatToks_wd, parenRGoS_plain_false s (flatToks rest) hpl,
            (ih rest hlen2 hwfr).1, mapR_wd, flatToks_wd]
        · rw [flatToks_wd, parenRGoS_plain_any true s (flatToks rest) hne hpl,
            (ih rest hlen2 hwfr).1]
          rfl
      | rp =>
        constructor
        · rw [flatToks_rp, parenRGoS_rparen false (flatToks rest),
            (ih rest hlen2 hwfr).2, mapR_rp, flatToks_rp, flatToks_gap1]
        · rw [flatToks_rp, parenRGoS_rparen true (flatToks rest),
            (ih rest hlen2 hwfr).2, dropG_rp, mapR_rp, flatToks_rp, flatToks_gap1]
      | lp =>
        constructor
        · rw [flatToks_lp,
            parenRGoS_nonspace false '(' (flatToks rest) (by decide) (by decide),
            (ih rest hlen2 hwfr).1, mapR_lp, flatToks_lp]
        · rw [flatToks_lp,
            parenRGoS_nonspace true '(' (flatToks rest) (by decide) (by decide),
            (ih rest hlen2 hwfr).1]
          rfl
      | gap g =>
        have hok := WfT_head_ok hwf
        have hsp : ∀ c ∈ g, isSpaceCh c = true := hok.2
        have hdr : dropG rest = rest := dropG_of_head_nongap rest (WfT_gap_tail_nongap hwf)
        constructor
        · cases rest with
          | nil =>
            rw [flatToks_gap, parenRGoS_gap_keep g (flatToks []) hsp (Or.inl rfl),
              mapR_gap_other g [] (by simp)]
            rfl
          | cons t2 rest2 =>
            have hlen3 : rest2.length ≤ m := by
              simp only [List.length_cons] at hlen
              omega
            cases t2 with
            | rp =>
              rw [flatToks_gap, flatToks_rp, parenRGoS_gap_rp g (flatToks rest2) hsp,
                (ih rest2 hlen3 (WfT_tail hwfr)).2, mapR_gap_rp, flatToks_rp, flatToks_gap1]
            | wd s2 =>
              have hok2 := WfT_head_ok hwfr
              have hpl2 : ∀ c ∈ s2, plainCh c = true := hok2.2
              obtain ⟨c, s2', hs2⟩ := List.exists_cons_of_ne_nil hok2.1
              have hcp : plainCh c = true := hpl2 c (by rw [hs2]; simp)
              rw [flatToks_gap,
                parenRGoS_gap_keep g (flatToks (.wd s2 :: rest2)) hsp
                  (Or.inr ⟨c, s2' ++ flatToks rest2, by rw [flatToks_wd, hs2]; rfl,
                    plain_not_space hcp, plain_ne_rparen hcp⟩),
                (ih (.wd s2 :: rest2) hlen2 hwfr).1,
                mapR_gap_other g (.wd s2 :: rest2) (by simp), flatToks_gap]
            | lp =>
              rw [flatToks_gap,
                parenRGoS_gap_keep g (flatToks (.lp :: rest2)) hsp
                  (Or.inr ⟨'(', flatToks rest2, rfl, by decide, by decide⟩),
                (ih (.lp :: rest2) hlen2 hwfr).1,
                mapR_gap_other g (.lp :: rest2) (by simp), flatToks_gap]
            | gap g2 => exact absurd hwf (fun h => WfT_no_gap_gap h)
        · rw [flatToks_gap, parenRGoS_true_gap g (flatToks rest) hsp,
            (ih rest hlen2 hwfr).2, hdr, dropG_gap]

theorem collapseWsS_nonspace (b : Bool) (c : Char) (r : List Char)
    (h : isSpaceCh c = false) :
    collapseWsS b (c :: r) = c :: collapseWsS false r := by
  simp [collapseWsS, h]

theorem collapseWsS_space_false (c : Char) (r : List Char) (h : isSpaceCh c = true) :
    collapseWsS false (c :: r) = ' ' :: collapseWsS true r := by
  simp [collapseWsS, h]

theorem collapseWsS_space_true (c : Char) (r : List Char) (h : isSpaceCh c = true) :
    collapseWsS true (c :: r) = collapseWsS true r := by
  simp [collapseWsS, h]

theorem collapseWsS_run_false (s x : List Char) (hp : ∀ c ∈ s, isSpaceCh c = false) :
    collapseWsS false (s ++ x) = s ++ collapseWsS false x := by
  induction s with
  | nil => rfl
  | cons c s' ih =>
    rw [List.cons_append, collapseWsS_nonspace false c (s' ++ x) (hp c (by simp)),
      ih (fun d hd => hp d (by simp [hd]))]
    rfl

theorem collapseWsS_run_any (b : Bool) (s x : List Char) (hs : s ≠ [])
    (hp : ∀ c ∈ s, isSpaceCh c = false) :
    collapseWsS b (s ++ x) = s ++ collapseWsS false x := by
  cases s with
  | nil => exact absurd rfl hs
  | cons c s' =>
    rw [List.cons_append, collapseWsS_nonspace b c (s' ++ x) (hp c (by simp)),
      collapseWsS_run_false s' x (fun d hd => hp d (by simp [hd]))]
    rfl

theorem collapseWsS_gap_true (g x : List Char) (hg : ∀ c ∈ g, isSpaceCh c = true) :
    collapseWsS true (g ++ x) = collapseWsS true x := by
  induction g with
  | nil => rfl
  | cons c g' ih =>
    rw [List.cons_append, collapseWsS_space_true c (g' ++ x) (hg c (by simp))]
    exact ih (fun d hd => hg d (by simp [hd]))

theorem collapseWsS_gap_false (g x : List Char) (hs : g ≠ [])
    (hg : ∀ c ∈ g, isSpaceCh c = true) :
    collapseWsS false (g ++ x) = ' ' :: collapseWsS true x := by
  cases g with
  | nil => exact absurd rfl hs
  | cons c g' =>
    rw [List.cons_append, collapseWsS_space_false c (g' ++ x) (hg c (by simp)),
      collapseWsS_gap_true g' x (fun d hd => hg d (by simp [hd]))]

/-- Simulation of the whitespace collapse on the flattening of a
well-formed token list. -/
theorem collapse_sim : ∀ (n : Nat) (ts : List Tok), ts.length ≤ n → WfT ts →
    collapseWsS false (flatToks ts) = flatToks (mapC ts) ∧
    collapseWsS true (flatToks ts) = flatToks (mapC (dropG ts)) := by
  intro n
  induction n with
  | zero =>
    intro ts hlen _
    have hts : ts = [] := List.eq_nil_of_length_eq_zero (by omega)
    subst hts
    exact ⟨rfl, rfl⟩
  | succ m ih =>
    intro ts hlen hwf
    cases ts with
    | nil => exact ⟨rfl, rfl⟩
    | cons t rest =>
      have hlen2 : rest.length ≤ m := by
        simp only [List.length_cons] at hlen
        omega
      have hwfr := WfT_tail hwf
      cases t with
      | wd s =>
        have hok := WfT_head_ok hwf
        have hns : ∀ c ∈ s, isSpaceCh c = false :=
          fun c hc => plain_not_space (hok.2 c hc)
        constructor
        · rw [flatToks_wd, collapseWsS_run_false s (flatToks rest) hns,
            (ih rest hlen2 hwfr).1, mapC_wd, flatToks_wd]
        · rw [flatToks_wd, collapseWsS_run_any true s (flatToks rest) hok.1 hns,
            (ih rest hlen2 hwfr).1]
          rfl
      | lp =>
        constructor
        · rw [flatToks_lp, collapseWsS_nonspace false '(' (flatToks rest) (by decide),
            (ih rest hlen2 hwfr).1, mapC_lp, flatToks_lp]
        · rw [flatToks_lp, collapseWsS_nonspace true '(' (flatToks rest) (by decide),
            (ih rest hlen2 hwfr).1]
          rfl
      | rp =>
        constructor
        · rw [flatToks_rp, collapseWsS_nonspace false ')' (flatToks rest) (by decide),
            (ih rest hlen2 hwfr).1, mapC_rp, flatToks_rp]
        · rw [flatToks_rp, collapseWsS_nonspace true ')' (flatToks rest) (by decide),
            (ih rest hlen2 hwfr).1]
          rfl
      | gap g =>
        have hok := WfT_head_ok hwf
        have hdr : dropG rest = rest := dropG_of_head_nongap rest (WfT_gap_tail_nongap hwf)
        constructor
        · rw [flatToks_gap, collapseWsS_gap_false g (flatToks rest) hok.1 hok.2,
            (ih rest hlen2 hwfr).2, hdr, mapC_gap, flatToks_gap1]
        · rw [flatToks_gap, collapseWsS_gap_true g (flatToks rest) hok.2,
            (ih rest hlen2 hwfr).2, hdr, dropG_gap]

theorem TokOkP_gap1 : TokOkP gap1 := by
  refine ⟨by simp, ?_⟩
  intro c hc
  simp only [List.mem_singleton] at hc
  subst hc
  rfl

theorem WfT_cons_build (t : Tok) (l : List Tok) (hok : TokOkP t) (hw : WfT l)
    (hc : ∀ t2 r2, l = t2 :: r2 →
      ¬(isGapB t = true ∧ isGapB t2 = true) ∧ ¬(isWdB t = true ∧ isWdB t2 = true)) :
    WfT (t :: l) := by
  cases l with
  | nil => exact WfT.single t hok
  | cons t2 r2 => exact WfT.cons t t2 r2 hok (hc t2 r2 rfl).1 (hc t2 r2 rfl).2 hw

theorem WfT_gap1_cons (X : List Tok) (hX : WfT X) (h2 : ∀ g, X.head? ≠ some (.gap g)) :
    WfT (gap1 :: X) := by
  cases X with
  | nil => exact WfT.single gap1 TokOkP_gap1
  | cons t2 r2 =>
    refine WfT.cons _ _ _ TokOkP_gap1 ?_ (by simp [isWdB, gap1]) hX
    intro hc
    cases t2 with
    | gap g' => exact h2 g' rfl
    | wd s => simp [isGapB] at hc
    | lp => simp [isGapB] at hc
    | rp => simp [isGapB] at hc

theorem mapR_head_nongap (y : List Tok) (h : ∀ g, y.head? ≠ some (.gap g)) :
    ∀ g, (mapR y).head? ≠ some (.gap g) := by
  intro g hg
  cases y with
  | nil => simp [mapR] at hg
  | cons t r =>
    cases t with
    | gap g' => exact h g' rfl
    | wd s => rw [mapR_wd] at hg; simp at hg
    | lp => rw [mapR_lp] at hg; simp at hg
    | rp => rw [mapR_rp] at hg; simp at hg

/-- The first spacing map preserves well-formedness of the token list. -/
theorem mapL_wf : ∀ (n : Nat) (ts : List Tok), ts.length ≤ n → WfT ts → WfT (mapL ts) := by
  intro n
  induction n with
  | zero =>
    intro ts hlen _
    have hts : ts = [] := List.eq_nil_of_length_eq_zero (by omega)
    subst hts
    exact WfT.nil
  | succ m ih =>
    intro ts hlen hwf
    cases ts with
    | nil => exact WfT.nil
    | cons t rest =>
      have hlen2 : rest.length ≤ m := by
        simp only [List.length_cons] at hlen
        omega
      have hwfr := WfT_tail hwf
      have hok := WfT_head_ok hwf
      cases t with
      | wd s =>
        rw [mapL_wd]
        have hIH : WfT (mapL rest) := ih rest hlen2 hwfr
        cases rest with
        | nil => exact WfT.single _ hok
        | cons t2 r2 =>
          cases t2 with
          | wd s2 => exact absurd hwf (fun h => WfT_no_wd_wd h)
          | lp =>
            rw [mapL_lp] at hIH ⊢
            exact WfT.cons _ _ _ hok (by simp [isGapB]) (by simp [isWdB, gap1]) hIH
          | rp =>
            rw [mapL_rp] at hIH ⊢
            exact WfT.cons _ _ _ hok (by simp [isGapB]) (by simp [isWdB]) hIH
          | gap g =>
            cases r2 with
            | nil =>
              rw [mapL_gap_other g [] (by simp)] at hIH ⊢
              exact WfT.cons _ _ _ hok (by simp [isGapB]) (by simp [isWdB]) hIH
            | cons t3 r3 =>
              cases t3 with
              | gap g2 => exact absurd hwfr (fun h => WfT_no_gap_gap h)
              | lp =>
                rw [mapL_gap_lp] at hIH ⊢
                exact WfT.cons _ _ _ hok (by simp [isGapB]) (by simp [isWdB, gap1]) hIH
              | wd s3 =>
                rw [mapL_gap_other g (.wd s3 :: r3) (by simp)] at hIH ⊢
                exact WfT.cons _ _ _ hok (by simp [isGapB]) (by simp [isWdB]) hIH
              | rp =>
                rw [mapL_gap_other g (.rp :: r3) (by simp)] at hIH ⊢
                exact WfT.cons _ _ _ hok (by simp [isGapB]) (by simp [isWdB]) hIH
      | lp =>
        rw [mapL_lp]
        have hX : WfT (mapL (dropG rest)) :=
          ih (dropG rest) (le_trans (dropG_length_le rest) hlen2) (WfT_dropG rest hwfr)
        have h1 : WfT (.lp :: mapL (dropG rest)) :=
          WfT_cons_build _ _ trivial hX
            (fun t2 r2 he => ⟨by simp [isGapB], by simp [isWdB]⟩)
        exact WfT.cons _ _ _ TokOkP_gap1 (by simp [isGapB]) (by simp [isWdB, gap1]) h1
      | rp =>
        rw [mapL_rp]
        exact WfT_cons_build _ _ trivial (ih rest hlen2 hwfr)
          (fun t2 r2 he => ⟨by simp [isGapB], by simp [isWdB]⟩)
      | gap g =>
        cases rest with
        | nil =>
          rw [mapL_gap_other g [] (by simp)]
          exact WfT.single _ hok
        | cons t2 r2 =>
          have hIH : WfT (mapL (t2 :: r2)) := ih (t2 :: r2) hlen2 hwfr
          cases t2 with
          | gap g2 => exact absurd hwf (fun h => WfT_no_gap_gap h)
          | lp =>
            rw [mapL_gap_lp]
            rw [mapL_lp] at hIH
            exact hIH
          | wd s2 =>
            rw [mapL_gap_other g (.wd s2 :: r2) (by simp), mapL_wd]
            rw [mapL_wd] at hIH
            exact WfT.cons _ _ _ hok (by simp [isGapB]) (by simp [isWdB]) hIH
          | rp =>
            rw [mapL_gap_other g (.rp :: r2) (by simp), mapL_rp]
            rw [mapL_rp] at hIH
            exact WfT.cons _ _ _ hok (by simp [isGapB]) (by simp [isWdB]) hIH

/-- The second spacing map preserves well-formedness of the token list. -/
theorem mapR_wf : ∀ (n : Nat) (ts : List Tok), ts.length ≤ n → WfT ts → WfT (mapR ts) := by
  intro n
  induction n with
  | zero =>
    intro ts hlen _
    have hts : ts = [] := List.eq_nil_of_length_eq_zero (by omega)
    subst hts
    exact WfT.nil
  | succ m ih =>
    intro ts hlen hwf
    cases ts with
    | nil => exact WfT.nil
    | cons t rest =>
      have hlen2 : rest.length ≤ m := by
        simp only [List.length_cons] at hlen
        omega
      have hwfr := WfT_tail hwf
      have hok := WfT_head_ok hwf
      cases t with
      | wd s =>
        rw [mapR_wd]
        have hIH : WfT (mapR rest) := ih rest hlen2 hwfr
        cases rest with
        | nil => exact WfT.single _ hok
        | cons t2 r2 =>
          cases t2 with
          | wd s2 => exact absurd hwf (fun h => WfT_no_wd_wd h)
          | lp =>
            rw [mapR_lp] at hIH ⊢
            exact WfT.cons _ _ _ hok (by simp [isGapB]) (by simp [isWdB]) hIH
          | rp =>
            rw [mapR_rp] at hIH ⊢
            exact WfT.cons _ _ _ hok (by simp [isGapB]) (by simp [isWdB]) hIH
          | gap g =>
            cases r2 with
            | nil =>
              rw [mapR_gap_other g [] (by simp)] at hIH ⊢
              exact WfT.cons _ _ _ hok (by simp [isGapB]) (by simp [isWdB]) hIH
            | cons t3 r3 =>
              cases t3 with
              | gap g2 => exact absurd hwfr (fun h => WfT_no_gap_gap h)
              | rp =>
                rw [mapR_gap_rp] at hIH ⊢
                exact WfT.cons _ _ _ hok (by simp [isGapB]) (by simp [isWdB]) hIH
              | wd s3 =>
                rw [mapR_gap_other g (.wd s3 :: r3) (by simp)] at hIH ⊢
                exact WfT.cons _ _ _ hok (by simp [isGapB]) (by simp [isWdB]) hIH
              | lp =>
                rw [mapR_gap_other g (.lp :: r3) (by simp)] at hIH ⊢
                exact WfT.cons _ _ _ hok (by simp [isGapB]) (by simp [isWdB]) hIH
      | lp =>
        rw [mapR_lp]
        exact WfT_cons_build _ _ trivial (ih rest hlen2 hwfr)
          (fun t2 r2 he => ⟨by simp [isGapB], by simp [isWdB]⟩)
      | rp =>
        rw [mapR_rp]
        have hX : WfT (mapR (dropG rest)) :=
          ih (dropG rest) (le_trans (dropG_length_le rest) hlen2) (WfT_dropG rest hwfr)
        have h1 : WfT (gap1 :: mapR (dropG rest)) :=
          WfT_gap1_cons _ hX (mapR_head_nongap _ (dropG_head_nongap rest hwfr))
        exact WfT.cons _ _ _ trivial (by simp [isGapB, gap1]) (by simp [isWdB]) h1
      | gap g =>
        cases rest with
        | nil =>
          rw [mapR_gap_other g [] (by simp)]
          exact WfT.single _ hok
        | cons t2 r2 =>
          cases t2 with
          | gap g2 => exact absurd hwf (fun h => WfT_no_gap_gap h)
          | rp =>
            rw [mapR_gap_rp]
            have hwfr2 := WfT_tail hwfr
            have hX : WfT (mapR (dropG r2)) :=
              ih (dropG r2)
                (le_trans (dropG_length_le r2)
                  (by simp only [List.length_cons] at hlen; omega))
                (WfT_dropG r2 hwfr2)
            have h1 : WfT (gap1 :: mapR (dropG r2)) :=
              WfT_gap1_cons _ hX (mapR_head_nongap _ (dropG_head_nongap r2 hwfr2))
            exact WfT.cons _ _ _ trivial (by simp [isGapB, gap1]) (by simp [isWdB]) h1
          | wd s2 =>
            have hIH : WfT (mapR (.wd s2 :: r2)) := ih (.wd s2 :: r2) hlen2 hwfr
            rw [mapR_gap_other g (.wd s2 :: r2) (by simp), mapR_wd]
            rw [mapR_wd] at hIH
            exact WfT.cons _ _ _ hok (by simp [isGapB]) (by simp [isWdB]) hIH
          | lp =>
            have hIH : WfT (mapR (.lp :: r2)) := ih (.lp :: r2) hlen2 hwfr
            rw [mapR_gap_other g (.lp :: r2) (by simp), mapR_lp]
            rw [mapR_lp] at hIH
            exact WfT.cons _ _ _ hok (by simp [isGapB]) (by simp [isWdB]) hIH

theorem tokenizeW_nil : tokenizeW [] = [] := by rw [tokenizeW]

theorem tokenizeW_cons (c : Char) (r : List Char) :
    tokenizeW (c :: r) =
      if c = '(' then .lp :: tokenizeW r
      else if c = ')' then .rp :: tokenizeW r
      else if isSpaceCh c then
        .gap (c :: r.takeWhile isSpaceCh) :: tokenizeW (r.dropWhile isSpaceCh)
      else .wd (c :: r.takeWhile plainCh) :: tokenizeW (r.dropWhile plainCh) := by
  rw [tokenizeW]

theorem dropWhile_head_not (p : Char → Bool) :
    ∀ (l : List Char) (c : Char), (List.dropWhile p l).head? = some c → p c = false := by
  intro l
  induction l with
  | nil => simp
  | cons a l ih =>
    intro c h
    rw [List.dropWhile_cons] at h
    by_cases hp : p a = true
    · rw [if_pos hp] at h
      exact ih c h
    · rw [if_neg hp] at h
      simp only [List.head?_cons, Option.some.injEq] at h
      subst h
      exact Bool.of_not_eq_true hp

theorem flat_tokenize : ∀ (n : Nat) (s : List Char), s.length ≤ n →
    flatToks (tokenizeW s) = s := by
  intro n
  induction n with
  | zero =>
    intro s hlen
    have hs : s = [] := List.eq_nil_of_length_eq_zero (by omega)
    subst hs
    rw [tokenizeW_nil]
    rfl
  | succ m ih =>
    intro s hlen
    cases s with
    | nil =>
      rw [tokenizeW_nil]
      rfl
    | cons c r =>
      have hlen2 : r.length ≤ m := by
        simp only [List.length_cons] at hlen
        omega
      rw [tokenizeW_cons]
      by_cases h1 : c = '('
      · rw [if_pos h1, flatToks_lp, ih r hlen2, h1]
      · rw [if_neg h1]
        by_cases h2 : c = ')'
        · rw [if_pos h2, flatToks_rp, ih r hlen2, h2]
        · rw [if_neg h2]
          by_cases h3 : isSpaceCh c = true
          · rw [if_pos h3, flatToks_gap,
              ih (r.dropWhile isSpaceCh)
                (le_trans (List.dropWhile_suffix _).length_le hlen2)]
            rw [List.cons_append, List.takeWhile_append_dropWhile]
          · rw [if_neg h3, flatToks_wd,
              ih (r.dropWhile plainCh)
                (le_trans (List.dropWhile_suffix _).length_le hlen2)]
            rw [List.cons_append, List.takeWhile_append_dropWhile]

theorem tokenizeW_head_nongap (s : List Char)
    (h : ∀ c, s.head? = some c → isSpaceCh c = false) :
    ∀ g, (tokenizeW s).head? ≠ some (.gap g) := by
  intro g hg
  cases s with
  | nil => rw [tokenizeW_nil] at hg; simp at hg
  | cons c r =>
    rw [tokenizeW_cons] at hg
    by_cases h1 : c = '('
    · rw [if_pos h1] at hg
      simp at hg
    · rw [if_neg h1] at hg
      by_cases h2 : c = ')'
      · rw [if_pos h2] at hg
        simp at hg
      · rw [if_neg h2] at hg
        by_cases h3 : isSpaceCh c = true
        · rw [h c rfl] at h3
          exact absurd h3 (by simp)
        · rw [if_neg h3] at hg
          simp at hg

theorem tokenizeW_head_nonwd (s : List Char)
    (h : ∀ c, s.head? = some c → plainCh c = false) :
    ∀ w, (tokenizeW s).head? ≠ some (.wd w) := by
  intro w hg
  cases s with
  | nil => rw [tokenizeW_nil] at hg; simp at hg
  | cons c r =>
    rw [tokenizeW_cons] at hg
    by_cases h1 : c = '('
    · rw [if_pos h1] at hg
      simp at hg
    · rw [if_neg h1] at hg
      by_cases h2 : c = ')'
      · rw [if_pos h2] at hg
        simp at hg
      · rw [if_neg h2] at hg
        by_cases h3 : isSpaceCh c = true
        · rw [if_pos h3] at hg
          simp at hg
        · have : plainCh c = true := by
            simp [plainCh, h1, h2, Bool.of_not_eq_true h3]
          rw [h c rfl] at this
          exact absurd this (by simp)

theorem WfT_tokenize : ∀ (n : Nat) (s : List Char), s.length ≤ n →
    WfT (tokenizeW s) := by
  intro n
  induction n with
  | zero =>
    intro s hlen
    have hs : s = [] := List.eq_nil_of_length_eq_zero (by omega)
    subst hs
    rw [tokenizeW_nil]
    exact WfT.nil
  | succ m ih =>
    intro s hlen
    cases s with
    | nil =>
      rw [tokenizeW_nil]
      exact WfT.nil
    | cons c r =>
      have hlen2 : r.length ≤ m := by
        simp only [List.length_cons] at hlen
        omega
      rw [tokenizeW_cons]
      by_cases h1 : c = '('
      · rw [if_pos h1]
        exact WfT_cons_build _ _ trivial (ih r hlen2)
          (fun t2 r2 he => ⟨by simp [isGapB], by simp [isWdB]⟩)
      · rw [if_neg h1]
        by_cases h2 : c = ')'
        · rw [if_pos h2]
          exact WfT_cons_build _ _ trivial (ih r hlen2)
            (fun t2 r2 he => ⟨by simp [isGapB], by simp [isWdB]⟩)
        · rw [if_neg h2]
          by_cases h3 : isSpaceCh c = true
          · rw [if_pos h3]
            refine WfT_cons_build _ _
              ⟨by simp, ?_⟩
              (ih (r.dropWhile isSpaceCh)
                (le_trans (List.dropWhile_suffix _).length_le hlen2)) ?_
            · intro d hd
              rcases List.mem_cons.mp hd with h0 | hm
              · subst h0
                exact h3
              · exact List.mem_takeWhile_imp hm
            · intro t2 r2 he
              refine ⟨?_, by simp [isWdB]⟩
              intro hc
              cases t2 with
              | gap g' =>
                exact tokenizeW_head_nongap (r.dropWhile isSpaceCh)
                  (fun d hd => dropWhile_head_not isSpaceCh r d hd) g' (by rw [he]; rfl)
              | wd s2 => simp [isGapB] at hc
              | lp => simp [isGapB] at hc
              | rp => simp [isGapB] at hc
          · rw [if_neg h3]
            have hcp : plainCh c = true := by
              simp [plainCh, h1, h2, Bool.of_not_eq_true h3]
            refine WfT_cons_build _ _
              ⟨by simp, ?_⟩
              (ih (r.dropWhile plainCh)
                (le_trans (List.dropWhile_suffix _).length_le hlen2)) ?_
            · intro d hd
              rcases List.mem_cons.mp hd with h0 | hm
              · subst h0
                exact hcp
              · exact List.mem_takeWhile_imp hm
            · intro t2 r2 he
              refine ⟨by simp [isGapB], ?_⟩
              intro hc
              cases t2 with
              | wd w' =>
                exact tokenizeW_head_nonwd (r.dropWhile plainCh)
                  (fun d hd => dropWhile_head_not plainCh r d hd) w' (by rw [he]; rfl)
              | gap g' => simp [isWdB] at hc
              | lp => simp [isWdB] at hc
              | rp => simp [isWdB] at hc

/-- Mirror image of a token (used to reason about the trailing strip via the
leading one on the reversed string). -/
def revTok : Tok → Tok
  | .wd s => .wd s.reverse
  | .gap g => .gap g.reverse
  | t => t

def revT (l : List Tok) : List Tok := (l.map revTok).reverse

theorem revTok_invol (t : Tok) : revTok (revTok t) = t := by
  cases t <;> simp [revTok]

theorem isGapB_revTok (t : Tok) : isGapB (revTok t) = isGapB t := by
  cases t <;> rfl

theorem isWdB_revTok (t : Tok) : isWdB (revTok t) = isWdB t := by
  cases t <;> rfl

theorem TokOkP_revTok (t : Tok) (h : TokOkP t) : TokOkP (revTok t) := by
  cases t with
  | wd s =>
    refine ⟨by simp [h.1], ?_⟩
    intro c hc
    exact h.2 c (List.mem_reverse.mp hc)
  | gap g =>
    refine ⟨by simp [h.1], ?_⟩
    intro c hc
    exact h.2 c (List.mem_reverse.mp hc)
  | lp => trivial
  | rp => trivial

theorem revT_invol (l : List Tok) : revT (revT l) = l := by
  simp only [revT, List.map_reverse, List.reverse_reverse, List.map_map]
  have : revTok ∘ revTok = id := by
    funext t
    exact revTok_invol t
  rw [this, List.map_id]

theorem flat_revT (l : List Tok) : flatToks (revT l) = (flatToks l).reverse := by
  induction l with
  | nil => rfl
  | cons t r ih =>
    have hstep : revT (t :: r) = revT r ++ [revTok t] := by
      simp [revT]
    rw [hstep, flatToks_append, ih]
    cases t with
    | wd s =>
      rw [flatToks_wd]
      simp [flatToks, revTok]
    | gap g =>
      rw [flatToks_gap]
      simp [flatToks, revTok]
    | lp =>
      rw [flatToks_lp]
      simp [flatToks, revTok]
    | rp =>
      rw [flatToks_rp]
      simp [flatToks, revTok]

/-- The adjacency constraint of well-formed token lists. -/
def RTok (a b : Tok) : Prop :=
  ¬(isGapB a = true ∧ isGapB b = true) ∧ ¬(isWdB a = true ∧ isWdB b = true)

theorem WfT_iff (l : List Tok) :
    WfT l ↔ (∀ t ∈ l, TokOkP t) ∧ List.Chain' RTok l := by
  constructor
  · intro h
    induction h with
    | nil => exact ⟨by simp, List.chain'_nil⟩
    | single t ht =>
      exact ⟨by simpa using ht, List.chain'_singleton t⟩
    | cons t1 t2 r h1 h2 h3 h4 ih =>
      refine ⟨?_, List.Chain'.cons ⟨h2, h3⟩ ih.2⟩
      intro t ht
      rcases List.mem_cons.mp ht with h0 | hm
      · subst h0
        exact h1
      · exact ih.1 t hm
  · intro ⟨hok, hch⟩
    induction l with
    | nil => exact WfT.nil
    | cons t r ih =>
      cases r with
      | nil => exact WfT.single t (hok t (by simp))
      | cons t2 r2 =>
        have hrel : RTok t t2 := List.chain'_cons.mp hch |>.1
        exact WfT.cons t t2 r2 (hok t (by simp)) hrel.1 hrel.2
          (ih (fun u hu => hok u (by simp [hu])) (List.chain'_cons.mp hch).2)

theorem WfT_revT (l : List Tok) (h : WfT l) : WfT (revT l) := by
  rw [WfT_iff] at h ⊢
  constructor
  · intro t ht
    simp only [revT, List.mem_reverse, List.mem_map] at ht
    obtain ⟨u, hu, he⟩ := ht
    subst he
    exact TokOkP_revTok u (h.1 u hu)
  · rw [revT, List.chain'_reverse, List.chain'_map]
    refine List.Chain'.imp ?_ h.2
    intro a b hab
    refine ⟨?_, ?_⟩
    · rw [isGapB_revTok, isGapB_revTok]
      exact fun hc => hab.1 ⟨hc.2, hc.1⟩
    · rw [isWdB_revTok, isWdB_revTok]
      exact fun hc => hab.2 ⟨hc.2, hc.1⟩

theorem flat_head_nonspace (t : Tok) (r : List Tok) (ht : isGapB t = false)
    (hok : TokOkP t) :
    ∃ c y, flatToks (t :: r) = c :: y ∧ isSpaceCh c = false := by
  cases t with
  | gap g => simp [isGapB] at ht
  | wd s =>
    obtain ⟨c, s', hs⟩ := List.exists_cons_of_ne_nil hok.1
    refine ⟨c, s' ++ flatToks r, by rw [flatToks_wd, hs]; rfl, ?_⟩
    exact plain_not_space (hok.2 c (by rw [hs]; simp))
  | lp => exact ⟨'(', flatToks r, rfl, by decide⟩
  | rp => exact ⟨')', flatToks r, rfl, by decide⟩

/-- Leading-whitespace strip at the token level. -/
theorem dropWhile_flat (l : List Tok) (h : WfT l) :
    List.dropWhile isSpaceCh (flatToks l) = flatToks (dropG l) := by
  cases l with
  | nil => rfl
  | cons t r =>
    have hok := WfT_head_ok h
    cases t with
    | gap g =>
      rw [flatToks_gap, dropWhile_space_append g (flatToks r) hok.2, dropG_gap]
      cases r with
      | nil => rfl
      | cons t2 r2 =>
        have ht2 : isGapB t2 = false := by
          rcases WfT_cons_of h with h0 | ⟨t2', r2', he, hgg, _⟩
          · simp at h0
          · cases he
            cases t2 with
            | gap g2 => exact absurd ⟨rfl, rfl⟩ hgg
            | wd s => rfl
            | lp => rfl
            | rp => rfl
        obtain ⟨c, y, hcy, hns⟩ := flat_head_nonspace t2 r2 ht2 (WfT_head_ok (WfT_tail h))
        rw [hcy, List.dropWhile_cons, if_neg (by simp [hns])]
    | wd s =>
      obtain ⟨c, y, hcy, hns⟩ := flat_head_nonspace (.wd s) r (by rfl) hok
      rw [hcy, List.dropWhile_cons, if_neg (by simp [hns]), ← hcy, dropG_wd]
    | lp =>
      rw [flatToks_lp, List.dropWhile_cons, if_neg (by decide), dropG_lp, flatToks_lp]
    | rp =>
      rw [flatToks_rp, List.dropWhile_cons, if_neg (by decide), dropG_rp, flatToks_rp]

/-- `str.strip()` at the token level: drop a leading and a trailing gap. -/
def stripT (l : List Tok) : List Tok := revT (dropG (revT (dropG l)))

/-- Simulation of `str.strip()` on the flattening of a well-formed token
list. -/
theorem pyStrip_flat (l : List Tok) (h : WfT l) :
    pyStrip (flatToks l) = flatToks (stripT l) := by
  have h1 : WfT (dropG l) := WfT_dropG l h
  have h2 : WfT (revT (dropG l)) := WfT_revT _ h1
  rw [pyStrip, dropWhile_flat l h, ← flat_revT (dropG l), dropWhile_flat _ h2,
    stripT, flat_revT]

theorem canonAux_gap (g : List Char) (r : List Tok) :
    canonAux (.gap g :: r) = .gap g :: canonAux r := rfl

theorem eraseG_append (x y : List Tok) : eraseG (x ++ y) = eraseG x ++ eraseG y := by
  induction x with
  | nil => rfl
  | cons t r ih =>
    cases t <;> simp [eraseG, ih]

theorem eraseG_eraseG (l : List Tok) : eraseG (eraseG l) = eraseG l := by
  induction l with
  | nil => rfl
  | cons t r ih =>
    cases t <;> simp only [eraseG, ih]

theorem eraseG_gap1 (r : List Tok) : eraseG (gap1 :: r) = eraseG r := rfl

theorem eraseG_canonAux : ∀ (n : Nat) (es : List Tok), es.length ≤ n →
    eraseG (canonAux es) = eraseG es := by
  intro n
  induction n with
  | zero =>
    intro es hlen
    have h : es = [] := List.eq_nil_of_length_eq_zero (by omega)
    subst h
    rfl
  | succ m ih =>
    intro es hlen
    cases es with
    | nil => rfl
    | cons t r =>
      have hlen2 : r.length ≤ m := by
        simp only [List.length_cons] at hlen
        omega
      cases t with
      | gap g => rw [canonAux_gap, eraseG_gap, eraseG_gap, ih r hlen2]
      | lp => rw [canonAux_lp, eraseG_gap1, eraseG_lp, eraseG_lp, ih r hlen2]
      | rp =>
        cases r with
        | nil => rfl
        | cons t2 r2 =>
          cases t2 with
          | lp =>
            rw [canonAux_rp_lp, eraseG_rp, eraseG_gap1, eraseG_lp, eraseG_rp, eraseG_lp,
              ih r2 (by simp only [List.length_cons] at hlen; omega)]
          | wd s2 =>
            rw [canonAux_rp (.wd s2 :: r2) (by simp), eraseG_rp, eraseG_gap1,
              ih (.wd s2 :: r2) hlen2]
            simp only [eraseG]
          | rp =>
            rw [canonAux_rp (.rp :: r2) (by simp), eraseG_rp, eraseG_gap1,
              ih (.rp :: r2) hlen2]
            simp only [eraseG]
          | gap g2 =>
            rw [canonAux_rp (.gap g2 :: r2) (by simp), eraseG_rp, eraseG_gap1,
              ih (.gap g2 :: r2) hlen2]
            simp only [eraseG]
      | wd s =>
        cases r with
        | nil => rfl
        | cons t2 r2 =>
          cases t2 with
          | wd s2 =>
            rw [canonAux_wd_wd, eraseG_wd, eraseG_gap1,
              ih (.wd s2 :: r2) hlen2]
            simp only [eraseG]
          | lp =>
            rw [canonAux_wd s (.lp :: r2) (by simp), eraseG_wd,
              ih (.lp :: r2) hlen2]
            simp only [eraseG]
          | rp =>
            rw [canonAux_wd s (.rp :: r2) (by simp), eraseG_wd,
              ih (.rp :: r2) hlen2]
            simp only [eraseG]
          | gap g2 =>
            rw [canonAux_wd s (.gap g2 :: r2) (by simp), eraseG_wd,
              ih (.gap g2 :: r2) hlen2]
            simp only [eraseG]

theorem canonAux_head_wd (s : List Char) (r : List Tok) :
    (canonAux (.wd s :: r)).head? = some (.wd s) := by
  cases r with
  | nil => rfl
  | cons t2 r2 => cases t2 <;> rfl

theorem canonAux_head_nongap (r : List Tok) (hnl : r.head? ≠ some .lp)
    (hg : ∀ g, r.head? ≠ some (.gap g)) :
    ∀ g', (canonAux r).head? ≠ some (.gap g') := by
  intro g' hc
  cases r with
  | nil => simp [canonAux] at hc
  | cons t r2 =>
    cases t with
    | wd s => rw [canonAux_head_wd] at hc; simp at hc
    | lp => exact hnl rfl
    | gap g => exact hg g rfl
    | rp =>
      cases r2 with
      | nil => rw [canonAux_rp [] (by simp)] at hc; simp at hc
      | cons t3 r3 =>
        cases t3 with
        | lp => rw [canonAux_rp_lp] at hc; simp at hc
        | wd s3 => rw [canonAux_rp (.wd s3 :: r3) (by simp)] at hc; simp at hc
        | rp => rw [canonAux_rp (.rp :: r3) (by simp)] at hc; simp at hc
        | gap g3 => rw [canonAux_rp (.gap g3 :: r3) (by simp)] at hc; simp at hc

theorem canonAux_head_nonwd (r : List Tok) (hnw : ∀ s, r.head? ≠ some (.wd s))
    (hg : ∀ g, r.head? ≠ some (.gap g)) :
    ∀ s', (canonAux r).head? ≠ some (.wd s') := by
  intro s' hc
  cases r with
  | nil => simp [canonAux] at hc
  | cons t r2 =>
    cases t with
    | wd s => exact hnw s rfl
    | lp => rw [canonAux_lp] at hc; simp [gap1] at hc
    | gap g => exact hg g rfl
    | rp =>
      cases r2 with
      | nil => rw [canonAux_rp [] (by simp)] at hc; simp at hc
      | cons t3 r3 =>
        cases t3 with
        | lp => rw [canonAux_rp_lp] at hc; simp at hc
        | wd s3 => rw [canonAux_rp (.wd s3 :: r3) (by simp)] at hc; simp at hc
        | rp => rw [canonAux_rp (.rp :: r3) (by simp)] at hc; simp at hc
        | gap g3 => rw [canonAux_rp (.gap g3 :: r3) (by simp)] at hc; simp at hc

/-- Canonical re-spacing yields a well-formed token list when the input is
gap-free with well-formed tokens. -/
theorem WfT_canonAux : ∀ (n : Nat) (es : List Tok), es.length ≤ n →
    (∀ t ∈ es, TokOkP t) → (∀ g, Tok.gap g ∉ es) → WfT (canonAux es) := by
  intro n
  induction n with
  | zero =>
    intro es hlen _ _
    have h : es = [] := List.eq_nil_of_length_eq_zero (by omega)
    subst h
    exact WfT.nil
  | succ m ih =>
    intro es hlen hok hg
    cases es with
    | nil => exact WfT.nil
    | cons t r =>
      have hlen2 : r.length ≤ m := by
        simp only [List.length_cons] at hlen
        omega
      have hok2 : ∀ u ∈ r, TokOkP u := fun u hu => hok u (by simp [hu])
      have hg2 : ∀ g, Tok.gap g ∉ r := fun g hm => hg g (by simp [hm])
      cases t with
      | gap g => exact absurd (List.mem_cons_self _ _) (hg g)
      | lp =>
        rw [canonAux_lp]
        have h1 : WfT (.lp :: canonAux r) :=
          WfT_cons_build _ _ trivial (ih r hlen2 hok2 hg2)
            (fun t2 r2 he => ⟨by simp [isGapB], by simp [isWdB]⟩)
        exact WfT.cons _ _ _ TokOkP_gap1 (by simp [isGapB]) (by simp [isWdB, gap1]) h1
      | rp =>
        cases r with
        | nil =>
          rw [canonAux_rp [] (by simp)]
          exact WfT.cons _ _ _ trivial (by simp [isGapB]) (by simp [isWdB])
            (WfT.single _ TokOkP_gap1)
        | cons t2 r2 =>
          have hlen3 : r2.length ≤ m := by
            simp only [List.length_cons] at hlen
            omega
          have hok3 : ∀ u ∈ r2, TokOkP u := fun u hu => hok2 u (by simp [hu])
          have hg3 : ∀ g, Tok.gap g ∉ r2 := fun g hm => hg2 g (by simp [hm])
          cases t2 with
          | gap g2 => exact absurd (by simp) (hg2 g2)
          | lp =>
            rw [canonAux_rp_lp]
            have h1 : WfT (.lp :: canonAux r2) :=
              WfT_cons_build _ _ trivial (ih r2 hlen3 hok3 hg3)
                (fun t3 r3 he => ⟨by simp [isGapB], by simp [isWdB]⟩)
            have h2 : WfT (gap1 :: .lp :: canonAux r2) :=
              WfT.cons _ _ _ TokOkP_gap1 (by simp [isGapB]) (by simp [isWdB, gap1]) h1
            exact WfT.cons _ _ _ trivial (by simp [isGapB, gap1]) (by simp [isWdB]) h2
          | wd s2 =>
            rw [canonAux_rp (.wd s2 :: r2) (by simp)]
            have h1 : WfT (gap1 :: canonAux (.wd s2 :: r2)) :=
              WfT_gap1_cons _ (ih (.wd s2 :: r2) hlen2 hok2 hg2)
                (canonAux_head_nongap (.wd s2 :: r2) (by simp) (by simp))
            exact WfT.cons _ _ _ trivial (by simp [isGapB, gap1]) (by simp [isWdB]) h1
          | rp =>
            rw [canonAux_rp (.rp :: r2) (by simp)]
            have h1 : WfT (gap1 :: canonAux (.rp :: r2)) :=
              WfT_gap1_cons _ (ih (.rp :: r2) hlen2 hok2 hg2)
                (canonAux_head_nongap (.rp :: r2) (by simp) (by simp))
            exact WfT.cons _ _ _ trivial (by simp [isGapB, gap1]) (by simp [isWdB]) h1
      | wd s =>
        have hok0 : TokOkP (.wd s) := hok _ (by simp)
        cases r with
        | nil =>
          rw [canonAux_wd s [] (by simp)]
          exact WfT.single _ hok0
        | cons t2 r2 =>
          cases t2 with
          | gap g2 => exact absurd (by simp) (hg2 g2)
          | wd s2 =>
            rw [canonAux_wd_wd]
            have h1 : WfT (gap1 :: canonAux (.wd s2 :: r2)) :=
              WfT_gap1_cons _ (ih (.wd s2 :: r2) hlen2 hok2 hg2)
                (fun g' hc => by rw [canonAux_head_wd] at hc; simp at hc)
            exact WfT.cons _ _ _ hok0 (by simp [isGapB]) (by simp [isWdB, gap1]) h1
          | lp =>
            rw [canonAux_wd s (.lp :: r2) (by simp)]
            refine WfT_cons_build _ _ hok0 (ih (.lp :: r2) hlen2 hok2 hg2) ?_
            intro t3 r3 he
            refine ⟨by simp [isGapB], ?_⟩
            intro hc
            cases t3 with
            | wd w =>
              exact canonAux_head_nonwd (.lp :: r2) (by simp) (by simp) w (by rw [he]; rfl)
            | gap g' => simp [isWdB] at hc
            | lp => simp [isWdB] at hc
            | rp => simp [isWdB] at hc
          | rp =>
            rw [canonAux_wd s (.rp :: r2) (by simp)]
            refine WfT_cons_build _ _ hok0 (ih (.rp :: r2) hlen2 hok2 hg2) ?_
            intro t3 r3 he
            refine ⟨by simp [isGapB], ?_⟩
            intro hc
            cases t3 with
            | wd w =>
              exact canonAux_head_nonwd (.rp :: r2) (by simp) (by simp) w (by rw [he]; rfl)
            | gap g' => simp [isWdB] at hc
            | lp => simp [isWdB] at hc
            | rp => simp [isWdB] at hc

theorem revT_append (p q : List Tok) : revT (p ++ q) = revT q ++ revT p := by
  simp [revT]

theorem revT_cons (t : Tok) (r : List Tok) : revT (t :: r) = revT r ++ [revTok t] := by
  simp [revT]

theorem eraseG_revT (l : List Tok) : eraseG (revT l) = revT (eraseG l) := by
  induction l with
  | nil => rfl
  | cons t r ih =>
    rw [revT_cons, eraseG_append, ih]
    cases t with
    | gap g => simp [eraseG, revT, revTok]
    | wd s => simp [eraseG, revT, revTok]
    | lp => simp [eraseG, revT, revTok]
    | rp => simp [eraseG, revT, revTok]

theorem dropG_append (a b : List Tok) (ha : a ≠ []) :
    dropG (a ++ b) = dropG a ++ b := by
  cases a with
  | nil => exact absurd rfl ha
  | cons t r => cases t <;> rfl

theorem mapC_eq_map (l : List Tok) :
    mapC l = l.map (fun t => if isGapB t then gap1 else t) := by
  induction l with
  | nil => rfl
  | cons t r ih =>
    cases t with
    | gap g => rw [mapC_gap, ih]; rfl
    | wd s => rw [mapC_wd, ih]; rfl
    | lp => rw [mapC_lp, ih]; rfl
    | rp => rw [mapC_rp, ih]; rfl

theorem mapC_wf (l : List Tok) (h : WfT l) : WfT (mapC l) := by
  rw [WfT_iff] at h ⊢
  rw [mapC_eq_map]
  constructor
  · intro t ht
    simp only [List.mem_map] at ht
    obtain ⟨u, hu, he⟩ := ht
    subst he
    cases u with
    | gap g => exact TokOkP_gap1
    | wd s => exact h.1 _ hu
    | lp => trivial
    | rp => trivial
  · rw [List.chain'_map]
    refine List.Chain'.imp ?_ h.2
    intro a b hab
    have hga : isGapB (if isGapB a then gap1 else a) = isGapB a := by
      cases a <;> rfl
    have hgb : isGapB (if isGapB b then gap1 else b) = isGapB b := by
      cases b <;> rfl
    have hwa : isWdB (if isGapB a then gap1 else a) = isWdB a := by
      cases a <;> rfl
    have hwb : isWdB (if isGapB b then gap1 else b) = isWdB b := by
      cases b <;> rfl
    exact ⟨by rw [hga, hgb]; exact hab.1, by rw [hwa, hwb]; exact hab.2⟩

theorem stripT_wf (l : List Tok) (h : WfT l) : WfT (stripT l) :=
  WfT_revT _ (WfT_dropG _ (WfT_revT _ (WfT_dropG _ h)))

theorem mem_eraseG {t : Tok} : ∀ {l : List Tok}, t ∈ eraseG l → t ∈ l := by
  intro l
  induction l with
  | nil => exact fun h => h
  | cons u r ih =>
    intro h
    cases u with
    | gap g => exact List.mem_cons_of_mem _ (ih h)
    | wd s =>
      rw [eraseG_wd] at h
      rcases List.mem_cons.mp h with h0 | hm
      · exact h0 ▸ List.mem_cons_self _ _
      · exact List.mem_cons_of_mem _ (ih hm)
    | lp =>
      rw [eraseG_lp] at h
      rcases List.mem_cons.mp h with h0 | hm
      · exact h0 ▸ List.mem_cons_self _ _
      · exact List.mem_cons_of_mem _ (ih hm)
    | rp =>
      rw [eraseG_rp] at h
      rcases List.mem_cons.mp h with h0 | hm
      · exact h0 ▸ List.mem_cons_self _ _
      · exact List.mem_cons_of_mem _ (ih hm)

theorem eraseG_nogap (l : List Tok) : ∀ g, Tok.gap g ∉ eraseG l := by
  induction l with
  | nil => simp [eraseG]
  | cons t r ih =>
    intro g hm
    cases t with
    | gap g2 => exact ih g hm
    | wd s =>
      rw [eraseG_wd] at hm
      rcases List.mem_cons.mp hm with h0 | h1
      · simp at h0
      · exact ih g h1
    | lp =>
      rw [eraseG_lp] at hm
      rcases List.mem_cons.mp hm with h0 | h1
      · simp at h0
      · exact ih g h1
    | rp =>
      rw [eraseG_rp] at hm
      rcases List.mem_cons.mp hm with h0 | h1
      · simp at h0
      · exact ih g h1

theorem WfT_okAll {l : List Tok} (h : WfT l) : ∀ t ∈ l, TokOkP t :=
  ((WfT_iff l).mp h).1

theorem canonAux_last_wd : ∀ (n : Nat) (a : List Tok) (s : List Char), a.length ≤ n →
    ∃ b, canonAux (a ++ [.wd s]) = b ++ [.wd s] := by
  intro n
  induction n with
  | zero =>
    intro a s hlen
    have h : a = [] := List.eq_nil_of_length_eq_zero (by omega)
    subst h
    refine ⟨[], ?_⟩
    rw [List.nil_append, canonAux_wd s [] (by simp)]
    rfl
  | succ m ih =>
    intro a s hlen
    cases a with
    | nil =>
      refine ⟨[], ?_⟩
      rw [List.nil_append, canonAux_wd s [] (by simp)]
      rfl
    | cons t a' =>
      have hlen2 : a'.length ≤ m := by
        simp only [List.length_cons] at hlen
        omega
      cases t with
      | gap g =>
        obtain ⟨b, hb⟩ := ih a' s hlen2
        refine ⟨.gap g :: b, ?_⟩
        rw [List.cons_append, canonAux_gap, hb]
        rfl
      | lp =>
        obtain ⟨b, hb⟩ := ih a' s hlen2
        refine ⟨gap1 :: .lp :: b, ?_⟩
        rw [List.cons_append, canonAux_lp, hb]
        rfl
      | rp =>
        cases a' with
        | nil =>
          refine ⟨[.rp, gap1], ?_⟩
          have he1 := canonAux_rp [Tok.wd s] (by simp)
          have he2 := canonAux_wd s [] (by simp)
          rw [List.cons_append, List.nil_append, he1, he2]
          rfl
        | cons t2 a'' =>
          have hlen3 : a''.length ≤ m := by
            simp only [List.length_cons] at hlen
            omega
          cases t2 with
          | lp =>
            obtain ⟨b, hb⟩ := ih a'' s hlen3
            refine ⟨.rp :: gap1 :: .lp :: b, ?_⟩
            rw [List.cons_append, List.cons_append, canonAux_rp_lp, hb]
            rfl
          | wd s2 =>
            obtain ⟨b, hb⟩ := ih (.wd s2 :: a'') s hlen2
            rw [List.cons_append] at hb
            have he := canonAux_rp (Tok.wd s2 :: (a'' ++ [Tok.wd s])) (by simp)
            refine ⟨.rp :: gap1 :: b, ?_⟩
            rw [List.cons_append, List.cons_append, he, hb]
            rfl
          | rp =>
            obtain ⟨b, hb⟩ := ih (.rp :: a'') s hlen2
            rw [List.cons_append] at hb
            have he := canonAux_rp (Tok.rp :: (a'' ++ [Tok.wd s])) (by simp)
            refine ⟨.rp :: gap1 :: b, ?_⟩
            rw [List.cons_append, List.cons_append, he, hb]
            rfl
          | gap g2 =>
            obtain ⟨b, hb⟩ := ih (.gap g2 :: a'') s hlen2
            rw [List.cons_append] at hb
            have he := canonAux_rp (Tok.gap g2 :: (a'' ++ [Tok.wd s])) (by simp)
            refine ⟨.rp :: gap1 :: b, ?_⟩
            rw [List.cons_append, List.cons_append, he, hb]
            rfl
      | wd s1 =>
        cases a' with
        | nil =>
          refine ⟨[.wd s1, gap1], ?_⟩
          have he2 := canonAux_wd s [] (by simp)
          rw [List.cons_append, List.nil_append, canonAux_wd_wd, he2]
          rfl
        | cons t2 a'' =>
          cases t2 with
          | wd s2 =>
            obtain ⟨b, hb⟩ := ih (.wd s2 :: a'') s hlen2
            rw [List.cons_append] at hb
            refine ⟨.wd s1 :: gap1 :: b, ?_⟩
            rw [List.cons_append, List.cons_append, canonAux_wd_wd, hb]
            rfl
          | lp =>
            obtain ⟨b, hb⟩ := ih (.lp :: a'') s hlen2
            rw [List.cons_append] at hb
            have he := canonAux_wd s1 (Tok.lp :: (a'' ++ [Tok.wd s])) (by simp)
            refine ⟨.wd s1 :: b, ?_⟩
            rw [List.cons_append, List.cons_append, he, hb]
            rfl
          | rp =>
            obtain ⟨b, hb⟩ := ih (.rp :: a'') s hlen2
            rw [List.cons_append] at hb
            have he := canonAux_wd s1 (Tok.rp :: (a'' ++ [Tok.wd s])) (by simp)
            refine ⟨.wd s1 :: b, ?_⟩
            rw [List.cons_append, List.cons_append, he, hb]
            rfl
          | gap g2 =>
            obtain ⟨b, hb⟩ := ih (.gap g2 :: a'') s hlen2
            rw [List.cons_append] at hb
            have he := canonAux_wd s1 (Tok.gap g2 :: (a'' ++ [Tok.wd s])) (by simp)
            refine ⟨.wd s1 :: b, ?_⟩
            rw [List.cons_append, List.cons_append, he, hb]
            rfl

theorem dropG_ends (b : List Tok) (s : List Char) :
    ∃ b2, dropG (b ++ [.wd s]) = b2 ++ [.wd s] := by
  cases b with
  | nil => exact ⟨[], rfl⟩
  | cons t b' =>
    cases t with
    | gap g => exact ⟨b', by rw [List.cons_append, dropG_gap]⟩
    | wd u => exact ⟨.wd u :: b', by rw [List.cons_append, dropG_wd]⟩
    | lp => exact ⟨.lp :: b', by rw [List.cons_append, dropG_lp]⟩
    | rp => exact ⟨.rp :: b', by rw [List.cons_append, dropG_rp]⟩

theorem canonAux_wd_cons (s : List Char) (r : List Tok) :
    ∃ X', canonAux (.wd s :: r) = .wd s :: X' := by
  cases r with
  | nil => exact ⟨_, rfl⟩
  | cons t2 r2 => cases t2 <;> exact ⟨_, rfl⟩

theorem stripT_append_trailing_gap (b : List Tok) (s : List Char) :
    stripT ((b ++ [.wd s]) ++ [gap1]) = stripT (b ++ [.wd s]) := by
  obtain ⟨b2, hy⟩ := dropG_ends b s
  show revT (dropG (revT (dropG ((b ++ [.wd s]) ++ [gap1])))) =
    revT (dropG (revT (dropG (b ++ [.wd s]))))
  have hd := dropG_append (b ++ [Tok.wd s]) [gap1] (by simp)
  rw [hd, hy]
  have h2 : revT ((b2 ++ [Tok.wd s]) ++ [gap1]) = gap1 :: revT (b2 ++ [Tok.wd s]) := by
    rw [revT_append]
    rfl
  rw [h2, dropG_gap1, revT_invol]
  have h3 : dropG (revT (b2 ++ [Tok.wd s])) = revT (b2 ++ [Tok.wd s]) := by
    refine dropG_of_head_nongap _ ?_
    intro g hg
    rw [revT_append] at hg
    simp only [revT, List.map_cons, List.map_nil, List.reverse_cons, List.reverse_nil,
      List.nil_append, revTok] at hg
    simp at hg
  rw [h3, revT_invol]

theorem leadX_shape (ts : List Tok) (h : WfT ts) :
    leadX ts = [] ∨ (leadX ts = [gap1] ∧
      (eraseG ts = [] ∨ ∃ s r, eraseG ts = .wd s :: r)) := by
  cases ts with
  | nil => exact Or.inl rfl
  | cons t rest =>
    cases t with
    | wd s => exact Or.inl (leadX_wd s rest)
    | lp => exact Or.inl (leadX_lp rest)
    | rp => exact Or.inl (leadX_rp rest)
    | gap g =>
      cases rest with
      | nil => exact Or.inr ⟨leadX_gap_nil g, Or.inl rfl⟩
      | cons t2 r2 =>
        cases t2 with
        | wd s2 =>
          exact Or.inr ⟨leadX_gap_wd g s2 r2,
            Or.inr ⟨s2, eraseG r2, by rw [eraseG_gap, eraseG_wd]⟩⟩
        | lp => exact Or.inl (leadX_gap_lp g r2)
        | rp => exact Or.inl (leadX_gap_rp g r2)
        | gap g2 => exact absurd h (fun hh => WfT_no_gap_gap hh)

theorem trailX_shape : ∀ (n : Nat) (ts : List Tok), ts.length ≤ n →
    trailX ts = [] ∨ (trailX ts = [gap1] ∧ ∃ s a, eraseG ts = a ++ [.wd s]) := by
  intro n
  induction n with
  | zero =>
    intro ts hlen
    have h : ts = [] := List.eq_nil_of_length_eq_zero (by omega)
    subst h
    exact Or.inl rfl
  | succ m ih =>
    intro ts hlen
    cases ts with
    | nil => exact Or.inl rfl
    | cons t1 rest =>
      cases rest with
      | nil => exact Or.inl (trailX_single t1)
      | cons t2 rest2 =>
        cases rest2 with
        | nil =>
          cases t1 with
          | wd s1 =>
            cases t2 with
            | gap g2 =>
              exact Or.inr ⟨trailX_wd_gap s1 g2, s1, [],
                by rw [eraseG_wd, eraseG_gap]; rfl⟩
            | wd s2 => exact Or.inl (by rw [trailX_cons_nongap _ _ _ (by rfl), trailX_single])
            | lp => exact Or.inl (by rw [trailX_cons_nongap _ _ _ (by rfl), trailX_single])
            | rp => exact Or.inl (by rw [trailX_cons_nongap _ _ _ (by rfl), trailX_single])
          | lp => exact Or.inl (by rw [trailX_cons_of_nonwd _ _ (by rfl), trailX_single])
          | rp => exact Or.inl (by rw [trailX_cons_of_nonwd _ _ (by rfl), trailX_single])
          | gap g1 => exact Or.inl (by rw [trailX_cons_of_nonwd _ _ (by rfl), trailX_single])
        | cons t3 rest3 =>
          have hlen2 : (t2 :: t3 :: rest3).length ≤ m := by
            simp only [List.length_cons] at hlen ⊢
            omega
          rcases ih (t2 :: t3 :: rest3) hlen2 with h0 | ⟨h1, s, a, ha⟩
          · exact Or.inl (by rw [trailX_cons_long, h0])
          · refine Or.inr ⟨by rw [trailX_cons_long, h1], s, ?_⟩
            cases t1 with
            | gap g1 => exact ⟨a, by rw [eraseG_gap, ha]⟩
            | wd s1 => exact ⟨.wd s1 :: a, by rw [eraseG_wd, ha]; rfl⟩
            | lp => exact ⟨.lp :: a, by rw [eraseG_lp, ha]; rfl⟩
            | rp => exact ⟨.rp :: a, by rw [eraseG_rp, ha]; rfl⟩

/-- The leading and trailing gaps left by the spacing composite are removed
by the final strip together with the canonical form's own edge gaps. -/
theorem stripT_edges (u : List Tok) (hwf : WfT u) :
    stripT (leadX u ++ canonAux (eraseG u) ++ trailX u) =
      stripT (canonAux (eraseG u)) := by
  rcases leadX_shape u hwf with hl | ⟨hl, hes⟩ <;>
    rcases trailX_shape u.length u le_rfl with ht | ⟨ht, s, a, ha⟩
  · rw [hl, ht, List.nil_append, List.append_nil]
  · rw [hl, ht, List.nil_append, ha]
    obtain ⟨b, hb⟩ := canonAux_last_wd a.length a s le_rfl
    rw [hb]
    exact stripT_append_trailing_gap b s
  · rw [hl, ht, List.append_nil]
    rcases hes with h0 | ⟨s0, r0, h0⟩
    · rw [h0]
      rfl
    · have hhd : ∀ g, (canonAux (eraseG u)).head? ≠ some (.gap g) := by
        intro g hg
        rw [h0, canonAux_head_wd] at hg
        simp at hg
      show revT (dropG (revT (dropG (gap1 :: canonAux (eraseG u))))) =
        revT (dropG (revT (dropG (canonAux (eraseG u)))))
      rw [dropG_gap1, dropG_of_head_nongap (canonAux (eraseG u)) hhd]
  · rcases hes with h0 | ⟨s0, r0, h0⟩
    · rw [h0] at ha
      exact absurd ha.symm (by simp)
    · obtain ⟨X', hX'⟩ := canonAux_wd_cons s0 r0
      have hX : canonAux (eraseG u) = .wd s0 :: X' := by rw [h0, hX']
      have hXb : canonAux (eraseG u) = (canonAux_last_wd a.length a s le_rfl).choose ++
          [Tok.wd s] := by
        rw [ha]
        exact (canonAux_last_wd a.length a s le_rfl).choose_spec
      have hdX : dropG (canonAux (eraseG u)) = canonAux (eraseG u) := by
        rw [hX]
        exact dropG_wd _ _
      rw [hl, ht]
      show revT (dropG (revT (dropG (gap1 :: (canonAux (eraseG u) ++ [gap1]))))) =
        revT (dropG (revT (dropG (canonAux (eraseG u)))))
      rw [dropG_gap1, hdX]
      have h2 : revT (canonAux (eraseG u) ++ [gap1]) =
          gap1 :: revT (canonAux (eraseG u)) := by
        rw [revT_append]
        rfl
      rw [h2, dropG_gap1]
      have h3 : dropG (revT (canonAux (eraseG u))) = revT (canonAux (eraseG u)) := by
        refine dropG_of_head_nongap _ ?_
        intro g hg
        rw [hXb, revT_append] at hg
        simp only [revT, List.map_cons, List.map_nil, List.reverse_cons, List.reverse_nil,
          List.nil_append, revTok] at hg
        simp at hg
      rw [h3, revT_invol]

theorem stripT_fix (l : List Tok) (h1 : ∀ g, l.head? ≠ some (.gap g))
    (h2 : ∀ g, (revT l).head? ≠ some (.gap g)) : stripT l = l := by
  show revT (dropG (revT (dropG l))) = l
  rw [dropG_of_head_nongap l h1, dropG_of_head_nongap _ h2, revT_invol]

theorem stripT_idem (l : List Tok) (h : WfT l) : stripT (stripT l) = stripT l := by
  have hy : ∀ g, (dropG l).head? ≠ some (.gap g) := dropG_head_nongap l h
  have hwy : WfT (revT (dropG l)) := WfT_revT _ (WfT_dropG l h)
  cases hrv : revT (dropG l) with
  | nil =>
    have h0 : stripT l = [] := by
      show revT (dropG (revT (dropG l))) = []
      rw [hrv]
      rfl
    rw [h0]
    rfl
  | cons t z =>
    cases t with
    | gap g =>
      have hst : stripT l = revT z := by
        show revT (dropG (revT (dropG l))) = revT z
        rw [hrv, dropG_gap]
      have hz : ∀ g2, z.head? ≠ some (.gap g2) := by
        rw [hrv] at hwy
        exact WfT_gap_tail_nongap hwy
      have hyeq : dropG l = revT z ++ [Tok.gap g.reverse] := by
        have h1 := congrArg revT hrv
        rw [revT_invol] at h1
        rw [h1, revT_cons]
        rfl
      have hrz : ∀ g2, (revT z).head? ≠ some (.gap g2) := by
        intro g2 hg2
        cases hcz : revT z with
        | nil => rw [hcz] at hg2; simp at hg2
        | cons u w =>
          rw [hcz] at hg2
          simp only [List.head?_cons, Option.some.injEq] at hg2
          subst hg2
          apply hy g2
          rw [hyeq, hcz]
          rfl
      rw [hst]
      refine stripT_fix (revT z) hrz ?_
      rw [revT_invol]
      exact hz
    | wd s =>
      have hng : ∀ g2, (revT (dropG l)).head? ≠ some (.gap g2) := by
        rw [hrv]
        simp
      have hst : stripT l = dropG l := by
        show revT (dropG (revT (dropG l))) = dropG l
        rw [dropG_of_head_nongap _ hng, revT_invol]
      rw [hst]
      exact stripT_fix (dropG l) hy hng
    | lp =>
      have hng : ∀ g2, (revT (dropG l)).head? ≠ some (.gap g2) := by
        rw [hrv]
        simp
      have hst : stripT l = dropG l := by
        show revT (dropG (revT (dropG l))) = dropG l
        rw [dropG_of_head_nongap _ hng, revT_invol]
      rw [hst]
      exact stripT_fix (dropG l) hy hng
    | rp =>
      have hng : ∀ g2, (revT (dropG l)).head? ≠ some (.gap g2) := by
        rw [hrv]
        simp
      have hst : stripT l = dropG l := by
        show revT (dropG (revT (dropG l))) = dropG l
        rw [dropG_of_head_nongap _ hng, revT_invol]
      rw [hst]
      exact stripT_fix (dropG l) hy hng

/-- The middle of the pipeline (both parenthesis substitutions, whitespace
collapse, final strip) on the flattening of a well-formed token list yields
the stripped canonical re-spacing of its gap-free tokens. -/
theorem mid_flat (ts : List Tok) (h : WfT ts) :
    pyStrip (collapseWs (parenRGo (parenLGo (flatToks ts)))) =
      flatToks (stripT (canonAux (eraseG ts))) := by
  have hL := mapL_wf ts.length ts le_rfl h
  have hR := mapR_wf (mapL ts).length (mapL ts) le_rfl hL
  have hC := mapC_wf _ hR
  show pyStrip (collapseWsS false (parenRGoS false (parenLGoS false (flatToks ts)))) = _
  rw [(parenL_sim ts.length ts le_rfl h).1,
    (parenR_sim (mapL ts).length (mapL ts) le_rfl hL).1,
    (collapse_sim (mapR (mapL ts)).length (mapR (mapL ts)) le_rfl hR).1,
    pyStrip_flat _ hC,
    spacing_canon ts.length ts le_rfl h,
    stripT_edges ts h]

/-- `normStr` computed through the token decomposition of the
period-stripped, whitespace-trimmed, lowercased input. -/
theorem normStr_canon (s : List Char) :
    normStr s = flatToks (stripT (canonAux (eraseG
      (tokenizeW (stripPeriods (pyStrip (s.map Char.toLower))))))) := by
  have hts := WfT_tokenize (stripPeriods (pyStrip (s.map Char.toLower))).length _ le_rfl
  have hf := flat_tokenize (stripPeriods (pyStrip (s.map Char.toLower))).length _ le_rfl
  have hm := mid_flat (tokenizeW (stripPeriods (pyStrip (s.map Char.toLower)))) hts
  rw [hf] at hm
  exact hm

theorem toLower_idem (c : Char) : c.toLower.toLower = c.toLower := by
  by_cases h : c.toNat ≥ 65 ∧ c.toNat ≤ 90
  · have h1 : c.toLower = Char.ofNat (c.toNat + 32) := by
      show (if c.toNat ≥ 65 ∧ c.toNat ≤ 90 then Char.ofNat (c.toNat + 32) else c) = _
      rw [if_pos h]
    rw [h1]
    obtain ⟨h2, h3⟩ := h
    generalize hn : c.toNat = n at h2 h3
    interval_cases n <;> decide
  · have h1 : c.toLower = c := by
      show (if c.toNat ≥ 65 ∧ c.toNat ≤ 90 then Char.ofNat (c.toNat + 32) else c) = c
      rw [if_neg h]
    rw [h1]
    exact h1

theorem map_id_of {α : Type} (f : α → α) (l : List α) (h : ∀ c ∈ l, f c = c) :
    l.map f = l := by
  induction l with
  | nil => rfl
  | cons c r ih =>
    rw [List.map_cons, h c (by simp), ih (fun d hd => h d (by simp [hd]))]

theorem mem_pyStrip {c : Char} {s : List Char} (h : c ∈ pyStrip s) : c ∈ s := by
  rw [pyStrip, List.mem_reverse] at h
  have h2 := (List.dropWhile_sublist (l := (s.dropWhile isSpaceCh).reverse)
    (p := isSpaceCh)).mem h
  rw [List.mem_reverse] at h2
  exact (List.dropWhile_sublist (l := s) (p := isSpaceCh)).mem h2

theorem mem_stripPeriodsGo {c : Char} :
    ∀ (p : Option Char) (l : List Char), c ∈ stripPeriodsGo p l → c ∈ l := by
  intro p l
  induction l generalizing p with
  | nil => exact fun h => h
  | cons a r ih =>
    intro h
    rw [stripPeriodsGo] at h
    by_cases hc : a = '.' ∧ isDigitO p = false ∧ headDigit r = false
    · rw [if_pos hc] at h
      exact List.mem_cons_of_mem _ (ih (some a) h)
    · rw [if_neg hc] at h
      rcases List.mem_cons.mp h with h0 | hm
      · exact h0 ▸ List.mem_cons_self _ _
      · exact List.mem_cons_of_mem _ (ih (some a) hm)

theorem mem_parenLGoS {c : Char} :
    ∀ (b : Bool) (l : List Char), c ∈ parenLGoS b l → c ∈ l ∨ c = ' ' ∨ c = '(' := by
  intro b l
  induction l generalizing b with
  | nil => exact fun h => absurd h (by simp [parenLGoS])
  | cons a r ih =>
    intro h
    by_cases h1 : a = '('
    · subst h1
      rw [parenLGoS_lparen] at h
      rcases List.mem_cons.mp h with h0 | h2
      · exact Or.inr (Or.inl h0)
      · rcases List.mem_cons.mp h2 with h0 | h3
        · exact Or.inr (Or.inr h0)
        · rcases ih true h3 with hm | hs
          · exact Or.inl (List.mem_cons_of_mem _ hm)
          · exact Or.inr hs
    · by_cases h2 : isSpaceCh a = true
      · cases b with
        | true =>
          rw [parenLGoS_space_true a r h2] at h
          rcases ih true h with hm | hs
          · exact Or.inl (List.mem_cons_of_mem _ hm)
          · exact Or.inr hs
        | false =>
          by_cases h3 : (r.dropWhile isSpaceCh).head? = some '('
          · rw [parenLGoS_space_look a r h2 h3] at h
            rcases ih false h with hm | hs
            · exact Or.inl (List.mem_cons_of_mem _ hm)
            · exact Or.inr hs
          · rw [parenLGoS_space_nolook a r h2 h3] at h
            rcases List.mem_cons.mp h with h0 | hm
            · exact Or.inl (h0 ▸ List.mem_cons_self _ _)
            · rcases ih false hm with hm2 | hs
              · exact Or.inl (List.mem_cons_of_mem _ hm2)
              · exact Or.inr hs
      · rw [parenLGoS_nonspace b a r h1 (Bool.of_not_eq_true h2)] at h
        rcases List.mem_cons.mp h with h0 | hm
        · exact Or.inl (h0 ▸ List.mem_cons_self _ _)
        · rcases ih false hm with hm2 | hs
          · exact Or.inl (List.mem_cons_of_mem _ hm2)
          · exact Or.inr hs

theorem mem_parenRGoS {c : Char} :
    ∀ (b : Bool) (l : List Char), c ∈ parenRGoS b l → c ∈ l ∨ c = ' ' ∨ c = ')' := by
  intro b l
  induction l generalizing b with
  | nil => exact fun h => absurd h (by simp [parenRGoS])
  | cons a r ih =>
    intro h
    by_cases h1 : a = ')'
    · subst h1
      rw [parenRGoS_rparen] at h
      rcases List.mem_cons.mp h with h0 | h2
      · exact Or.inr (Or.inr h0)
      · rcases List.mem_cons.mp h2 with h0 | h3
        · exact Or.inr (Or.inl h0)
        · rcases ih true h3 with hm | hs
          · exact Or.inl (List.mem_cons_of_mem _ hm)
          · exact Or.inr hs
    · by_cases h2 : isSpaceCh a = true
      · cases b with
        | true =>
          rw [parenRGoS_space_true a r h2] at h
          rcases ih true h with hm | hs
          · exact Or.inl (List.mem_cons_of_mem _ hm)
          · exact Or.inr hs
        | false =>
          by_cases h3 : (r.dropWhile isSpaceCh).head? = some ')'
          · rw [parenRGoS_space_look a r h2 h3] at h
            rcases ih false h with hm | hs
            · exact Or.inl (List.mem_cons_of_mem _ hm)
            · exact Or.inr hs
          · rw [parenRGoS_space_nolook a r h2 h3] at h
            rcases List.mem_cons.mp h with h0 | hm
            · exact Or.inl (h0 ▸ List.mem_cons_self _ _)
            · rcases ih false hm with hm2 | hs
              · exact Or.inl (List.mem_cons_of_mem _ hm2)
              · exact Or.inr hs
      · rw [parenRGoS_nonspace b a r h1 (Bool.of_not_eq_true h2)] at h
        rcases List.mem_cons.mp h with h0 | hm
        · exact Or.inl (h0 ▸ List.mem_cons_self _ _)
        · rcases ih false hm with hm2 | hs
          · exact Or.inl (List.mem_cons_of_mem _ hm2)
          · exact Or.inr hs

theorem mem_collapseWsS {c : Char} :
    ∀ (b : Bool) (l : List Char), c ∈ collapseWsS b l → c ∈ l ∨ c = ' ' := by
  intro b l
  induction l generalizing b with
  | nil => exact fun h => absurd h (by simp [collapseWsS])
  | cons a r ih =>
    intro h
    by_cases h2 : isSpaceCh a = true
    · cases b with
      | true =>
        rw [collapseWsS_space_true a r h2] at h
        rcases ih true h with hm | hs
        · exact Or.inl (List.mem_cons_of_mem _ hm)
        · exact Or.inr hs
      | false =>
        rw [collapseWsS_space_false a r h2] at h
        rcases List.mem_cons.mp h with h0 | hm
        · exact Or.inr h0
        · rcases ih true hm with hm2 | hs
          · exact Or.inl (List.mem_cons_of_mem _ hm2)
          · exact Or.inr hs
    · rw [collapseWsS_nonspace b a r (Bool.of_not_eq_true h2)] at h
      rcases List.mem_cons.mp h with h0 | hm
      · exact Or.inl (h0 ▸ List.mem_cons_self _ _)
      · rcases ih false hm with hm2 | hs
        · exact Or.inl (List.mem_cons_of_mem _ hm2)
        · exact Or.inr hs

/-- Every character of a normalized string is fixed by lowercasing. -/
theorem normStr_char_lower (s : List Char) :
    ∀ c ∈ normStr s, c.toLower = c := by
  intro c hc
  have h1 : c ∈ collapseWs (parenRGo (parenLGo (stripPeriods (pyStrip
      (s.map Char.toLower))))) := mem_pyStrip hc
  rcases mem_collapseWsS false _ h1 with h2 | h2
  · rcases mem_parenRGoS false _ h2 with h3 | h3 | h3
    · rcases mem_parenLGoS false _ h3 with h4 | h4 | h4
      · have h5 := mem_stripPeriodsGo none _ h4
        have h6 := mem_pyStrip h5
        obtain ⟨d, _, hd⟩ := List.mem_map.mp h6
        rw [← hd]
        exact toLower_idem d
      · rw [h4]
        decide
      · rw [h4]
        decide
    · rw [h3]
      decide
    · rw [h3]
      decide
  · rw [h2]
    decide

theorem lower_normStr (s : List Char) :
    (normStr s).map Char.toLower = normStr s :=
  map_id_of Char.toLower (normStr s) (normStr_char_lower s)

/-- Every period in the list has a digit immediately before it (`prev` is the
character preceding the list) or immediately after it. -/
def dotOkB : Option Char → List Char → Bool
  | _, [] => true
  | prev, c :: r =>
    (if c = '.' then isDigitO prev || headDigit r else true) && dotOkB (some c) r

theorem dotOkB_cons (p : Option Char) (c : Char) (r : List Char) :
    dotOkB p (c :: r) =
      ((if c = '.' then isDigitO p || headDigit r else true) && dotOkB (some c) r) := rfl

theorem dotOkB_tail {p : Option Char} {c : Char} {r : List Char}
    (h : dotOkB p (c :: r) = true) : dotOkB (some c) r = true := by
  rw [dotOkB_cons, Bool.and_eq_true] at h
  exact h.2

theorem space_not_digit (c : Char) (h : isSpaceCh c = true) : c.isDigit = false := by
  simp only [isSpaceCh, Bool.or_eq_true, beq_iff_eq, or_assoc] at h
  rcases h with h | h | h | h | h | h <;> subst h <;> decide

theorem digit_plain (e : Char) (h : e.isDigit = true) : plainCh e = true := by
  have h1 : isSpaceCh e = false := by
    cases hs : isSpaceCh e
    · rfl
    · rw [space_not_digit e hs] at h
      exact absurd h (by simp)
  have h2 : e ≠ '(' := by
    intro he
    subst he
    exact absurd h (by decide)
  have h3 : e ≠ ')' := by
    intro he
    subst he
    exact absurd h (by decide)
  simp [plainCh, h1, h2, h3]

theorem headDigit_stripPeriodsGo (l : List Char) (p : Option Char)
    (h : headDigit l = true) : headDigit (stripPeriodsGo p l) = true := by
  cases l with
  | nil => simp [headDigit] at h
  | cons d r =>
    have hd : d ≠ '.' := by
      intro he
      subst he
      simp only [headDigit] at h
      exact absurd h (by decide)
    rw [stripPeriodsGo, if_neg (by intro hc; exact hd hc.1)]
    exact h

/-- Every period surviving the period-removal pass is digit-adjacent in the
output. -/
theorem stripPeriods_dotOk : ∀ (l : List Char) (p q : Option Char),
    isDigitO p = isDigitO q → dotOkB q (stripPeriodsGo p l) = true := by
  intro l
  induction l with
  | nil => intro p q _; rfl
  | cons c r ih =>
    intro p q hpq
    by_cases hc : c = '.' ∧ isDigitO p = false ∧ headDigit r = false
    · rw [stripPeriodsGo, if_pos hc]
      exact ih (some c) q (by rw [hc.1]; rw [← hpq, hc.2.1]; rfl)
    · rw [stripPeriodsGo, if_neg hc, dotOkB_cons, Bool.and_eq_true]
      refine ⟨?_, ih (some c) (some c) rfl⟩
      by_cases hdot : c = '.'
      · rw [if_pos hdot]
        rcases Decidable.not_and_iff_or_not.mp hc with h1 | h23
        · exact absurd hdot h1
        · rcases Decidable.not_and_iff_or_not.mp h23 with h2 | h3
          · rw [hpq, Bool.not_eq_false] at h2
            rw [h2]
            rfl
          · rw [Bool.not_eq_false] at h3
            rw [headDigit_stripPeriodsGo r (some c) h3, Bool.or_true]
      · rw [if_neg hdot]

theorem dotOkB_congr (p q : Option Char) (l : List Char)
    (h : isDigitO p = isDigitO q) : dotOkB p l = dotOkB q l := by
  cases l with
  | nil => rfl
  | cons c r => rw [dotOkB_cons, dotOkB_cons, h]

theorem headDigit_append (a b : List Char) (hb : headDigit b = false) :
    headDigit (a ++ b) = headDigit a := by
  cases a with
  | nil => rw [List.nil_append]; rw [hb]; rfl
  | cons c r => rfl

theorem dotOkB_append_left : ∀ (a : List Char) (p : Option Char) (b : List Char),
    headDigit b = false → dotOkB p (a ++ b) = true → dotOkB p a = true := by
  intro a
  induction a with
  | nil => intro p b _ _; rfl
  | cons c a' ih =>
    intro p b hb h
    rw [List.cons_append, dotOkB_cons, Bool.and_eq_true] at h
    rw [dotOkB_cons, Bool.and_eq_true]
    refine ⟨?_, ih (some c) b hb h.2⟩
    rw [← headDigit_append a' b hb]
    exact h.1

theorem dotOkB_drop : ∀ (a : List Char) (p : Option Char) (b : List Char),
    dotOkB p (a ++ b) = true → ∃ q, dotOkB q b = true := by
  intro a
  induction a with
  | nil => exact fun p b h => ⟨p, h⟩
  | cons c a' ih =>
    intro p b h
    rw [List.cons_append] at h
    exact ih (some c) b (dotOkB_tail h)

theorem dotOkB_dropWhileSpace : ∀ (r : List Char) (p : Option Char),
    dotOkB p r = true → isDigitO p = false →
    ∃ q, dotOkB q (r.dropWhile isSpaceCh) = true ∧ isDigitO q = false := by
  intro r
  induction r with
  | nil => exact fun p _ hp => ⟨p, rfl, hp⟩
  | cons c r' ih =>
    intro p h hp
    rw [List.dropWhile_cons]
    by_cases hs : isSpaceCh c = true
    · rw [if_pos hs]
      exact ih (some c) (dotOkB_tail h) (space_not_digit c hs)
    · rw [if_neg hs]
      exact ⟨p, h, hp⟩

/-- Words produced by the tokenizer from a digit-adjacency-respecting string
respect digit adjacency on their own: a period's digit neighbour is a plain
character, hence inside the same word. -/
theorem tokenize_wdOk : ∀ (n : Nat) (l : List Char), l.length ≤ n →
    ∀ p, dotOkB p l = true →
    ((∃ c r0, l = c :: r0 ∧ plainCh c = true) → isDigitO p = false) →
    ∀ t ∈ tokenizeW l, ∀ s, t = .wd s → dotOkB none s = true := by
  intro n
  induction n with
  | zero =>
    intro l hlen p _ _ t ht
    have h : l = [] := List.eq_nil_of_length_eq_zero (by omega)
    subst h
    rw [tokenizeW_nil] at ht
    simp at ht
  | succ m ih =>
    intro l hlen p hdot hcond t ht s hts
    cases l with
    | nil =>
      rw [tokenizeW_nil] at ht
      simp at ht
    | cons c r =>
      have hlen2 : r.length ≤ m := by
        simp only [List.length_cons] at hlen
        omega
      rw [tokenizeW_cons] at ht
      by_cases h1 : c = '('
      · rw [if_pos h1] at ht
        rcases List.mem_cons.mp ht with h0 | hm
        · rw [h0] at hts
          simp at hts
        · exact ih r hlen2 (some c) (dotOkB_tail hdot)
            (fun _ => by rw [h1]; decide) t hm s hts
      · rw [if_neg h1] at ht
        by_cases h2 : c = ')'
        · rw [if_pos h2] at ht
          rcases List.mem_cons.mp ht with h0 | hm
          · rw [h0] at hts
            simp at hts
          · exact ih r hlen2 (some c) (dotOkB_tail hdot)
              (fun _ => by rw [h2]; decide) t hm s hts
        · rw [if_neg h2] at ht
          by_cases h3 : isSpaceCh c = true
          · rw [if_pos h3] at ht
            rcases List.mem_cons.mp ht with h0 | hm
            · rw [h0] at hts
              simp at hts
            · obtain ⟨q, hq1, hq2⟩ :=
                dotOkB_dropWhileSpace r (some c) (dotOkB_tail hdot)
                  (by show c.isDigit = false; exact space_not_digit c h3)
              exact ih (r.dropWhile isSpaceCh)
                (le_trans (List.dropWhile_suffix _).length_le hlen2) q hq1
                (fun _ => hq2) t hm s hts
          · rw [if_neg h3] at ht
            have hcp : plainCh c = true := by
              simp [plainCh, h1, h2, Bool.of_not_eq_true h3]
            have hpd : isDigitO p = false := hcond ⟨c, r, rfl, hcp⟩
            have hsplit : c :: r = (c :: r.takeWhile plainCh) ++ r.dropWhile plainCh := by
              rw [List.cons_append, List.takeWhile_append_dropWhile]
            have h' : dotOkB p ((c :: r.takeWhile plainCh) ++ r.dropWhile plainCh) = true := by
              rw [← hsplit]
              exact hdot
            rcases List.mem_cons.mp ht with h0 | hm
            · rw [h0] at hts
              have hsw : s = c :: r.takeWhile plainCh := by
                injection hts.symm
              subst hsw
              have hhd : headDigit (r.dropWhile plainCh) = false := by
                cases hd : r.dropWhile plainCh with
                | nil => rfl
                | cons e w =>
                  cases hdig : e.isDigit with
                  | false => simp [headDigit, hdig]
                  | true =>
                    have hpe := dropWhile_head_not plainCh r e (by rw [hd]; rfl)
                    rw [digit_plain e hdig] at hpe
                    exact absurd hpe (by simp)
              have hA := dotOkB_append_left (c :: r.takeWhile plainCh) p
                (r.dropWhile plainCh) hhd h'
              rw [dotOkB_congr none p _ (by rw [hpd]; rfl)]
              exact hA
            · obtain ⟨q, hq⟩ := dotOkB_drop (c :: r.takeWhile plainCh) p
                (r.dropWhile plainCh) h'
              refine ih (r.dropWhile plainCh)
                (le_trans (List.dropWhile_suffix _).length_le hlen2) q hq ?_ t hm s hts
              intro ⟨e, w, hew, hpe⟩
              have hne := dropWhile_head_not plainCh r e (by rw [hew]; rfl)
              rw [hne] at hpe
              exact absurd hpe (by simp)

/-- The character preceding the continuation after scanning `a` (the last
character of `a`, or `p` if `a` is empty). -/
def ctxO (p : Option Char) : List Char → Option Char
  | [] => p
  | c :: r => ctxO (some c) r

theorem ctxO_nondigit : ∀ (a : List Char) (p : Option Char),
    (∀ c ∈ a, c.isDigit = false) → isDigitO p = false → isDigitO (ctxO p a) = false := by
  intro a
  induction a with
  | nil => exact fun p _ hp => hp
  | cons c a' ih =>
    intro p h hp
    exact ih (some c) (fun d hd => h d (by simp [hd])) (h c (by simp))

theorem strip_go_nondot : ∀ (a : List Char) (p : Option Char) (x : List Char),
    (∀ c ∈ a, c ≠ '.') →
    stripPeriodsGo p (a ++ x) = a ++ stripPeriodsGo (ctxO p a) x := by
  intro a
  induction a with
  | nil => exact fun p x _ => rfl
  | cons c a' ih =>
    intro p x h
    rw [List.cons_append, stripPeriodsGo,
      if_neg (fun hc => h c (by simp) hc.1), ih (some c) x (fun d hd => h d (by simp [hd]))]
    rfl

theorem stripPeriodsGo_append_ok : ∀ (s : List Char) (p q : Option Char) (x : List Char),
    isDigitO p = isDigitO q → dotOkB q s = true →
    stripPeriodsGo p (s ++ x) = s ++ stripPeriodsGo (ctxO p s) x := by
  intro s
  induction s with
  | nil => exact fun p q x _ _ => rfl
  | cons c s' ih =>
    intro p q x hpq hd
    rw [dotOkB_cons, Bool.and_eq_true] at hd
    rw [List.cons_append, stripPeriodsGo, if_neg ?kept,
      ih (some c) (some c) x rfl hd.2]
    · rfl
    · intro ⟨hc, hp, hhd⟩
      rw [if_pos hc, Bool.or_eq_true] at hd
      rcases hd.1 with h1 | h1
      · rw [hpq, h1] at hp
        exact absurd hp (by simp)
      · cases s' with
        | nil => simp [headDigit] at h1
        | cons d w =>
          rw [List.cons_append] at hhd
          simp only [headDigit] at h1 hhd
          rw [h1] at hhd
          exact absurd hhd (by simp)

theorem mem_dropG {t : Tok} {l : List Tok} (h : t ∈ dropG l) : t ∈ l := by
  cases l with
  | nil => exact h
  | cons u r =>
    cases u with
    | gap g => exact List.mem_cons_of_mem _ h
    | wd s => exact h
    | lp => exact h
    | rp => exact h

theorem mem_revT {t : Tok} {l : List Tok} (h : t ∈ revT l) : revTok t ∈ l := by
  rw [revT, List.mem_reverse, List.mem_map] at h
  obtain ⟨u, hu, he⟩ := h
  rw [← he, revTok_invol]
  exact hu

theorem mem_stripT {t : Tok} {l : List Tok} (h : t ∈ stripT l) : t ∈ l := by
  have h1 := mem_dropG (mem_revT h)
  have h2 := mem_revT h1
  rw [revTok_invol] at h2
  exact mem_dropG h2

theorem mem_wd_canonAux : ∀ (n : Nat) (es : List Tok), es.length ≤ n →
    ∀ s, Tok.wd s ∈ canonAux es → Tok.wd s ∈ es := by
  intro n
  induction n with
  | zero =>
    intro es hlen s hm
    have h : es = [] := List.eq_nil_of_length_eq_zero (by omega)
    subst h
    exact absurd hm (by simp [canonAux])
  | succ m ih =>
    intro es hlen s hm
    cases es with
    | nil => exact absurd hm (by simp [canonAux])
    | cons t r =>
      have hlen2 : r.length ≤ m := by
        simp only [List.length_cons] at hlen
        omega
      cases t with
      | gap g =>
        rw [canonAux_gap] at hm
        rcases List.mem_cons.mp hm with h0 | h1
        · simp at h0
        · exact List.mem_cons_of_mem _ (ih r hlen2 s h1)
      | lp =>
        rw [canonAux_lp] at hm
        rcases List.mem_cons.mp hm with h0 | h1
        · simp [gap1] at h0
        · rcases List.mem_cons.mp h1 with h0 | h2
          · simp at h0
          · exact List.mem_cons_of_mem _ (ih r hlen2 s h2)
      | rp =>
        cases r with
        | nil =>
          rw [canonAux_rp [] (by simp)] at hm
          rcases List.mem_cons.mp hm with h0 | h1
          · simp at h0
          · rcases List.mem_cons.mp h1 with h0 | h2
            · simp [gap1] at h0
            · simp [canonAux] at h2
        | cons t2 r2 =>
          have hlen3 : r2.length ≤ m := by
            simp only [List.length_cons] at hlen
            omega
          cases t2 with
          | lp =>
            rw [canonAux_rp_lp] at hm
            rcases List.mem_cons.mp hm with h0 | h1
            · simp at h0
            · rcases List.mem_cons.mp h1 with h0 | h2
              · simp [gap1] at h0
              · rcases List.mem_cons.mp h2 with h0 | h3
                · simp at h0
                · exact List.mem_cons_of_mem _
                    (List.mem_cons_of_mem _ (ih r2 hlen3 s h3))
          | wd s2 =>
            rw [canonAux_rp (.wd s2 :: r2) (by simp)] at hm
            rcases List.mem_cons.mp hm with h0 | h1
            · simp at h0
            · rcases List.mem_cons.mp h1 with h0 | h2
              · simp [gap1] at h0
              · exact List.mem_cons_of_mem _ (ih (.wd s2 :: r2) hlen2 s h2)
          | rp =>
            rw [canonAux_rp (.rp :: r2) (by simp)] at hm
            rcases List.mem_cons.mp hm with h0 | h1
            · simp at h0
            · rcases List.mem_cons.mp h1 with h0 | h2
              · simp [gap1] at h0
              · exact List.mem_cons_of_mem _ (ih (.rp :: r2) hlen2 s h2)
          | gap g2 =>
            rw [canonAux_rp (.gap g2 :: r2) (by simp)] at hm
            rcases List.mem_cons.mp hm with h0 | h1
            · simp at h0
            · rcases List.mem_cons.mp h1 with h0 | h2
              · simp [gap1] at h0
              · exact List.mem_cons_of_mem _ (ih (.gap g2 :: r2) hlen2 s h2)
      | wd s1 =>
        cases r with
        | nil =>
          rw [canonAux_wd s1 [] (by simp)] at hm
          rcases List.mem_cons.mp hm with h0 | h1
          · exact h0 ▸ List.mem_cons_self _ _
          · simp [canonAux] at h1
        | cons t2 r2 =>
          cases t2 with
          | wd s2 =>
            rw [canonAux_wd_wd] at hm
            rcases List.mem_cons.mp hm with h0 | h1
            · exact h0 ▸ List.mem_cons_self _ _
            · rcases List.mem_cons.mp h1 with h0 | h2
              · simp [gap1] at h0
              · exact List.mem_cons_of_mem _ (ih (.wd s2 :: r2) hlen2 s h2)
          | lp =>
            rw [canonAux_wd s1 (.lp :: r2) (by simp)] at hm
            rcases List.mem_cons.mp hm with h0 | h1
            · exact h0 ▸ List.mem_cons_self _ _
            · exact List.mem_cons_of_mem _ (ih (.lp :: r2) hlen2 s h1)
          | rp =>
            rw [canonAux_wd s1 (.rp :: r2) (by simp)] at hm
            rcases List.mem_cons.mp hm with h0 | h1
            · exact h0 ▸ List.mem_cons_self _ _
            · exact List.mem_cons_of_mem _ (ih (.rp :: r2) hlen2 s h1)
          | gap g2 =>
            rw [canonAux_wd s1 (.gap g2 :: r2) (by simp)] at hm
            rcases List.mem_cons.mp hm with h0 | h1
            · exact h0 ▸ List.mem_cons_self _ _
            · exact List.mem_cons_of_mem _ (ih (.gap g2 :: r2) hlen2 s h1)

/-- The period-removal pass is the identity on the flattening of a
well-formed token list all of whose words respect digit adjacency. -/
theorem stripPeriods_flat : ∀ (n : Nat) (l : List Tok), l.length ≤ n → WfT l →
    (∀ s', Tok.wd s' ∈ l → dotOkB none s' = true) →
    ∀ p, ((∃ s0 r0, l = .wd s0 :: r0) → isDigitO p = false) →
    stripPeriodsGo p (flatToks l) = flatToks l := by
  intro n
  induction n with
  | zero =>
    intro l hlen _ _ p _
    have h : l = [] := List.eq_nil_of_length_eq_zero (by omega)
    subst h
    rfl
  | succ m ih =>
    intro l hlen hwf hwords p hcond
    cases l with
    | nil => rfl
    | cons t r =>
      have hlen2 : r.length ≤ m := by
        simp only [List.length_cons] at hlen
        omega
      have hwfr := WfT_tail hwf
      have hok := WfT_head_ok hwf
      have hwords2 : ∀ s', Tok.wd s' ∈ r → dotOkB none s' = true :=
        fun s' hs' => hwords s' (List.mem_cons_of_mem _ hs')
      cases t with
      | gap g =>
        rw [flatToks_gap,
          strip_go_nondot g p (flatToks r)
            (fun c hc he => by
              have hs := hok.2 c hc
              subst he
              exact absurd hs (by decide))]
        obtain ⟨c0, g', hg⟩ := List.exists_cons_of_ne_nil hok.1
        have hnd : isDigitO (ctxO p g) = false := by
          rw [hg]
          show isDigitO (ctxO (some c0) g') = false
          refine ctxO_nondigit g' (some c0) ?_ ?_
          · intro d hd
            exact space_not_digit d (hok.2 d (by rw [hg]; simp [hd]))
          · exact space_not_digit c0 (hok.2 c0 (by rw [hg]; simp))
        rw [ih r hlen2 hwfr hwords2 (ctxO p g) (fun _ => hnd)]
      | lp =>
        rw [flatToks_lp, stripPeriodsGo, if_neg (fun hc => by exact absurd hc.1 (by decide))]
        rw [ih r hlen2 hwfr hwords2 (some '(') (fun _ => by decide)]
      | rp =>
        rw [flatToks_rp, stripPeriodsGo, if_neg (fun hc => by exact absurd hc.1 (by decide))]
        rw [ih r hlen2 hwfr hwords2 (some ')') (fun _ => by decide)]
      | wd s =>
        have hw := hwords s (List.mem_cons_self _ _)
        have hpd : isDigitO p = false := hcond ⟨s, r, rfl⟩
        rw [flatToks_wd,
          stripPeriodsGo_append_ok s p none (flatToks r) (by rw [hpd]; rfl) hw]
        rw [ih r hlen2 hwfr hwords2 (ctxO p s) ?nowd]
        case nowd =>
          intro ⟨s0, r0, hr⟩
          subst hr
          exact absurd hwf (fun hh => WfT_no_wd_wd hh)

theorem stripPeriods_normStr (s : List Char) :
    stripPeriods (normStr s) = normStr s := by
  have hdot : dotOkB none (stripPeriods (pyStrip (s.map Char.toLower))) = true :=
    stripPeriods_dotOk _ none none rfl
  have hts : WfT (tokenizeW (stripPeriods (pyStrip (s.map Char.toLower)))) :=
    WfT_tokenize _ _ le_rfl
  have hwords := tokenize_wdOk (stripPeriods (pyStrip (s.map Char.toLower))).length
    _ le_rfl none hdot (fun _ => rfl)
  have hokc : ∀ t ∈ eraseG (tokenizeW (stripPeriods (pyStrip (s.map Char.toLower)))),
      TokOkP t := fun t ht => WfT_okAll hts t (mem_eraseG ht)
  have hwfX : WfT (canonAux (eraseG (tokenizeW (stripPeriods
      (pyStrip (s.map Char.toLower)))))) :=
    WfT_canonAux _ _ le_rfl hokc (eraseG_nogap _)
  have hwfcf := stripT_wf _ hwfX
  have hwcf : ∀ s', Tok.wd s' ∈ stripT (canonAux (eraseG (tokenizeW (stripPeriods
      (pyStrip (s.map Char.toLower)))))) → dotOkB none s' = true := by
    intro s' hm
    have h1 := mem_stripT hm
    have h2 := mem_wd_canonAux _ _ le_rfl s' h1
    exact hwords _ (mem_eraseG h2) s' rfl
  show stripPeriodsGo none (normStr s) = normStr s
  rw [normStr_canon s]
  exact stripPeriods_flat _ _ le_rfl hwfcf hwcf none (fun _ => rfl)

theorem eraseG_stripT (l : List Tok) : eraseG (stripT l) = eraseG l := by
  show eraseG (revT (dropG (revT (dropG l)))) = eraseG l
  rw [eraseG_revT, eraseG_dropG, eraseG_revT, revT_invol, eraseG_dropG]

/-- The normalization string pipeline is idempotent. -/
theorem normStr_idem (L : List Char) : normStr (normStr L) = normStr L := by
  have hts : WfT (tokenizeW (stripPeriods (pyStrip (L.map Char.toLower)))) :=
    WfT_tokenize _ _ le_rfl
  have hokc : ∀ t ∈ eraseG (tokenizeW (stripPeriods (pyStrip (L.map Char.toLower)))),
      TokOkP t := fun t ht => WfT_okAll hts t (mem_eraseG ht)
  have hX : WfT (canonAux (eraseG (tokenizeW (stripPeriods
      (pyStrip (L.map Char.toLower)))))) :=
    WfT_canonAux _ _ le_rfl hokc (eraseG_nogap _)
  have hcf := stripT_wf _ hX
  have h2 : pyStrip (normStr L) = normStr L := by
    rw [normStr_canon L, pyStrip_flat _ hcf, stripT_idem _ hX]
  show pyStrip (collapseWs (parenRGo (parenLGo (stripPeriods (pyStrip
    ((normStr L).map Char.toLower)))))) = normStr L
  rw [lower_normStr L, h2, stripPeriods_normStr L, normStr_canon L,
    mid_flat _ hcf, eraseG_stripT, eraseG_canonAux _ _ le_rfl, eraseG_eraseG]

/-- C6: for every string label L, normalize_text is idempotent —
normalizing an already-normalized label returns it unchanged. -/
theorem C6_normalize_idempotent (L : List Char) :
    normalize_text (.str (normalize_text (.str L))) = normalize_text (.str L) := by
  show normStr (normStr L) = normStr L
  exact normStr_idem L
end AttrAnalyzer
